import Mathlib

/-!
Verification development for the `toss` terminal rendering library.

The Rust sources are shallowly embedded: each Lean definition mirrors one
Rust item (module and function names are kept where Lean allows).  Machine
integers are modelled as `Nat`/`Int`; `u16`/`u8` casts are noted where they
matter.  Styles (`crossterm::style::ContentStyle`) are modelled with colors
as abstract `Nat` identifiers and the attribute set as one abstract `Nat`,
since the library only stores, compares and merges them.
-/

namespace Toss

/-! ## `style.rs` and the `crossterm` content style -/

/-- Model of `crossterm::style::ContentStyle`: three optional colors and an
attribute set.  Colors and the attribute bundle are abstracted to `Nat`
identifiers; the library only ever stores and compares these values. -/
structure ContentStyle where
  foreground_color : Option Nat
  background_color : Option Nat
  underline_color : Option Nat
  attributes : Nat
deriving DecidableEq, Repr

/-- `ContentStyle::default()`: no colors, empty attributes. -/
def ContentStyle.dflt : ContentStyle :=
  { foreground_color := none, background_color := none, underline_color := none,
    attributes := 0 }

instance : Inhabited ContentStyle := ⟨ContentStyle.dflt⟩

/-- `style.rs::merge_cs`. -/
def merge_cs (base cover : ContentStyle) : ContentStyle :=
  { foreground_color := cover.foreground_color.or base.foreground_color
    background_color := cover.background_color.or base.background_color
    underline_color := cover.underline_color.or base.underline_color
    attributes := cover.attributes }

/-- `style.rs::Style`: a content style plus an opacity flag (field `opaque`
in the source; renamed `opq` here). -/
structure Style where
  content_style : ContentStyle
  opq : Bool
deriving DecidableEq, Repr

/-- `Style::default()`. -/
def Style.dflt : Style := { content_style := ContentStyle.dflt, opq := false }

/-- `Style::cover`: `self` drawn over `base`. -/
def Style.cover (self base : Style) : Style :=
  if self.opq then self
  else { content_style := merge_cs base.content_style self.content_style
         opq := base.opq }

/-! ## `buffer.rs`: geometry -/

/-- `buffer.rs::Pos` (signed 32-bit pair; modelled with `Int`). -/
structure Pos where
  x : Int
  y : Int
deriving DecidableEq, Repr

/-- `buffer.rs::Size` (unsigned 16-bit pair; modelled with `Nat`, values kept
below `2 ^ 16` by construction at the call sites we reason about). -/
structure Size where
  width : Nat
  height : Nat
deriving DecidableEq, Repr

/-- `Pos + Size` (`impl Add<Size> for Pos`). -/
def Pos.addSize (p : Pos) (s : Size) : Pos :=
  { x := p.x + (s.width : Int), y := p.y + (s.height : Int) }

/-- `Pos + Pos`. -/
def Pos.add (p q : Pos) : Pos := { x := p.x + q.x, y := p.y + q.y }

/-- `Pos - Pos`. -/
def Pos.sub (p q : Pos) : Pos := { x := p.x - q.x, y := p.y - q.y }

/-! ## `buffer.rs`: cells -/

/-- `buffer.rs::Cell`.  `width` and `offset` are `u8` in the source; all
values arising in the code fit, so they are modelled as `Nat`. -/
structure Cell where
  content : String
  style : ContentStyle
  width : Nat
  offset : Nat
deriving DecidableEq, Repr

/-- `Cell::default()`: a single styled-default space. -/
def Cell.dflt : Cell :=
  { content := " ", style := ContentStyle.dflt, width := 1, offset := 0 }

instance : Inhabited Cell := ⟨Cell.dflt⟩

/-! ## `buffer.rs`: stack frames -/

/-- `buffer.rs::StackFrame`. -/
structure StackFrame where
  pos : Pos
  size : Size
  drawable_area : Option (Pos × Size)
deriving DecidableEq, Repr

/-- `StackFrame::intersect_areas`. -/
def StackFrame.intersectAreas (aStart : Pos) (aSize : Size) (bStart : Pos)
    (bSize : Size) : Option (Pos × Size) :=
  let aEnd := aStart.addSize aSize
  let bEnd := bStart.addSize bSize
  let xStart := max aStart.x bStart.x
  let xEnd := min aEnd.x bEnd.x
  let yStart := max aStart.y bStart.y
  let yEnd := min aEnd.y bEnd.y
  if xStart < xEnd ∧ yStart < yEnd then
    some (⟨xStart, yStart⟩, ⟨(xEnd - xStart).toNat, (yEnd - yStart).toNat⟩)
  else
    none

/-- `StackFrame::local_to_global`. -/
def StackFrame.localToGlobal (f : StackFrame) (localPos : Pos) : Pos :=
  localPos.add f.pos

/-- `StackFrame::global_to_local`. -/
def StackFrame.globalToLocal (f : StackFrame) (globalPos : Pos) : Pos :=
  globalPos.sub f.pos

/-- `StackFrame::then`: the frame obtained by pushing `(pos, size)` on top of
`f`. -/
def StackFrame.thenFrame (f : StackFrame) (pos : Pos) (size : Size) :
    StackFrame :=
  let gpos := f.localToGlobal pos
  let da := f.drawable_area.bind fun a =>
    StackFrame.intersectAreas a.1 a.2 gpos size
  { pos := gpos, size := size, drawable_area := da }

/-- `StackFrame::legal_ranges`: half-open x- and y-ranges (in global
coordinates) where drawing is allowed, as `(start, end)` pairs. -/
def StackFrame.legalRanges (f : StackFrame) :
    Option ((Int × Int) × (Int × Int)) :=
  f.drawable_area.map fun a =>
    ((a.1.x, a.1.x + (a.2.width : Int)), (a.1.y, a.1.y + (a.2.height : Int)))

/-! ## `buffer.rs`: the buffer -/

/-- `buffer.rs::Buffer`.  The flat `Vec<Cell>` is a `List Cell` in row-major
order.  The clip stack is a list with the most recently pushed frame at the
head (the source `Vec` keeps it at the tail). -/
structure Buffer where
  size : Size
  data : List Cell
  cursor : Option Pos
  stack : List StackFrame

/-- `Buffer::default()`. -/
def Buffer.dflt : Buffer :=
  { size := ⟨0, 0⟩, data := [], cursor := none, stack := [] }

/-- `Buffer::index` (row-major index; the source asserts that the position is
inside the buffer, which holds at every call site we reason about). -/
def Buffer.index (b : Buffer) (x y : Nat) : Nat :=
  y * b.size.width + x

/-- `Buffer::at`. -/
def Buffer.att (b : Buffer) (x y : Nat) : Cell :=
  b.data.getD (b.index x y) Cell.dflt

/-- The write through `Buffer::at_mut`. -/
def Buffer.setCell (b : Buffer) (x y : Nat) (c : Cell) : Buffer :=
  { b with data := b.data.set (b.index x y) c }

/-- `Buffer::current_frame`. -/
def Buffer.currentFrame (b : Buffer) : StackFrame :=
  b.stack.headD
    { pos := ⟨0, 0⟩, size := b.size, drawable_area := some (⟨0, 0⟩, b.size) }

/-- `Buffer::push`. -/
def Buffer.push (b : Buffer) (pos : Pos) (size : Size) : Buffer :=
  { b with stack := b.currentFrame.thenFrame pos size :: b.stack }

/-- `Buffer::pop`. -/
def Buffer.pop (b : Buffer) : Buffer :=
  { b with stack := b.stack.tail }

/-- `Buffer::size` (size of the current frame, not the drawable area). -/
def Buffer.frameSize (b : Buffer) : Size :=
  b.currentFrame.size

/-- `Buffer::cursor`. -/
def Buffer.getCursor (b : Buffer) : Option Pos :=
  b.cursor.map fun p => b.currentFrame.globalToLocal p

/-- `Buffer::set_cursor`. -/
def Buffer.setCursor (b : Buffer) (pos : Option Pos) : Buffer :=
  { b with cursor := pos.map fun p => b.currentFrame.localToGlobal p }

/-- `Buffer::resize`: reinitialize every cell (even when the size is
unchanged, in which case the source refills the existing allocation), clear
the cursor and the stack. -/
def Buffer.resize (b : Buffer) (size : Size) : Buffer :=
  if size = b.size then
    { b with data := List.replicate b.data.length Cell.dflt,
             cursor := none, stack := [] }
  else
    { size := size,
      data := List.replicate (size.width * size.height) Cell.dflt,
      cursor := none, stack := [] }

/-- `Buffer::reset`. -/
def Buffer.reset (b : Buffer) : Buffer :=
  b.resize b.size

/-- `Buffer::erase`: remove the whole grapheme containing cell `(x, y)`,
preserving each affected cell's style.  The source subtracts `offset` from
`x` in `u16`; in every reachable state `offset ≤ x`, and the truncated `Nat`
subtraction used here agrees with the source there. -/
def Buffer.erase (b : Buffer) (x y : Nat) : Buffer :=
  let cell := b.att x y
  let width := cell.width
  let offset := cell.offset
  (List.range width).foldl
    (fun acc j =>
      let xx := x - offset + j
      let style := (acc.att xx y).style
      acc.setCell xx y { Cell.dflt with style := style })
    b

/-- The shared cell-writing loop of `Buffer::write_grapheme`: for each
`k < n`, erase whatever grapheme occupies column `sx + k` of row `y`, then
store `cellAt k` there.  The fully visible branch instantiates `cellAt` with
the grapheme's span cells, the partially visible branch with blank styled
cells. -/
def writeCellsLoop (b : Buffer) (y sx n : Nat) (cellAt : Nat → Cell) :
    Buffer :=
  (List.range n).foldl
    (fun acc k => (acc.erase (sx + k) y).setCell (sx + k) y (cellAt k)) b

/-- `Buffer::write_grapheme`.  `xrange` is the half-open legal x-range
`(start, end)`; `y` is assumed in range by the source.  Note that the
partially-visible branch clamps `start_x` to `0` (not to `xrange.start`),
exactly as the source does. -/
def Buffer.writeGrapheme (b : Buffer) (xrange : Int × Int) (x : Int) (y : Nat)
    (width : Nat) (grapheme : String) (style : ContentStyle) : Buffer :=
  let minX := xrange.1
  let maxX := xrange.2 - 1
  let startX := x
  let endX := x + (width : Int) - 1
  if startX > maxX ∨ endX < minX then b
  else
    let b1 :=
      if startX ≥ minX ∧ endX ≤ maxX then
        -- Fully visible, write actual grapheme
        writeCellsLoop b y startX.toNat width fun o =>
          { content := grapheme, style := style, width := width, offset := o }
      else
        -- Partially visible, write empty cells with correct style
        let sX := (max startX 0).toNat
        let eX := (min endX maxX).toNat
        writeCellsLoop b y sX (eX + 1 - sX) fun _ =>
          { Cell.dflt with style := style }
    -- Clear the cursor if it lies within the bounds of the current grapheme
    match b1.cursor with
    | some p =>
        if p.y = (y : Int) ∧ startX ≤ p.x ∧ p.x ≤ endX then
          { b1 with cursor := none }
        else b1
    | none => b1

/-- One grapheme of styled text as consumed by `Buffer::write`: the grapheme
cluster's contents together with its style, as yielded by
`Styled::styled_grapheme_indices`. -/
structure StyledGrapheme where
  content : String
  style : ContentStyle
deriving DecidableEq, Repr

/-- `Buffer::write`.  The grapheme widths come from
`WidthDb::grapheme_width(g, col)`; the width database's state is abstracted
into the function `wfun` (grapheme contents and starting column to width),
so that the theorems quantify over all database states. -/
def Buffer.write (b : Buffer) (wfun : String → Nat → Nat) (pos : Pos)
    (styled : List StyledGrapheme) : Buffer :=
  let frame := b.currentFrame
  match frame.legalRanges with
  | none => b -- No drawable area
  | some (xrange, yrange) =>
    let gpos := frame.localToGlobal pos
    if gpos.y < yrange.1 ∨ yrange.2 ≤ gpos.y then b -- Outside of drawable area
    else
      let y := gpos.y.toNat
      (styled.foldl
        (fun (acc : Buffer × Nat) sg =>
          let bb := acc.1
          let col := acc.2
          let x := gpos.x + (col : Int)
          let g := sg.content
          let width := wfun g col
          let col2 := col + width
          if g = "\t" then
            ((List.range width).foldl
              (fun b2 dx => b2.writeGrapheme xrange (x + (dx : Int)) y 1 " "
                sg.style)
              bb,
             col2)
          else if width > 0 then
            (bb.writeGrapheme xrange x y width g sg.style, col2)
          else (bb, col2))
        (b, 0)).1

/-- `buffer.rs::Cells::next`, unrolled into a list with explicit fuel.  The
`assert!(cell.offset == 0)` is modelled by returning `none`; a cell of width
`0` (over which the source iterator would stop advancing) also yields
`none`.  Fuel `w * h + h + 1` is enough for every buffer the assertion
accepts. -/
def Buffer.cellsGo (b : Buffer) : Nat → Nat → Nat →
    Option (List (Nat × Nat × Cell))
  | _, _, 0 => none
  | x, y, fuel + 1 =>
    if y ≥ b.size.height then some []
    else
      let cell := b.att x y
      if cell.offset = 0 ∧ 0 < cell.width then
        let x2 := x + cell.width
        let next := if x2 ≥ b.size.width then b.cellsGo 0 (y + 1) fuel
                    else b.cellsGo x2 y fuel
        next.map fun rest => (x, y, cell) :: rest
      else none

/-- `Buffer::cells` as a list of `(x, y, cell)` head-cell triples; `none`
when the iterator's assertion would fail (or it would stop advancing). -/
def Buffer.cells (b : Buffer) : Option (List (Nat × Nat × Cell)) :=
  b.cellsGo 0 0 (b.size.width * b.size.height + b.size.height + 1)

/-! ## `widthdb.rs` -/

/-- A Unicode scalar value as the width database sees it: its code point and
its column width according to the `unicode-width` crate (`c.width()`, which
is `none` for control characters). -/
structure UChar where
  code : Nat
  w : Option Nat
deriving DecidableEq, Repr

/-- `char::is_ascii_control`. -/
def UChar.isAsciiControl (c : UChar) : Bool :=
  c.code < 32 ∨ c.code = 127

/-- A grapheme cluster: a nonempty run of scalar values (nonemptiness holds
for every real cluster and is not assumed by the definitions). -/
abbrev GCluster := List UChar

/-- A string, represented by its grapheme-cluster decomposition under
`unicode-segmentation` (extended grapheme clusters). -/
abbrev GStringM := List GCluster

/-- The string `"\t"`: one cluster holding the single scalar U+0009. -/
def tabString : GStringM := [[⟨9, none⟩]]

/-- All scalar values of a string (`str::chars`). -/
def GStringM.chars (g : GStringM) : List UChar := g.flatten

/-- `widthdb.rs::WidthEstimationMethod`. -/
inductive WidthEstimationMethod where
  | Legacy
  | Unicode
deriving DecidableEq, Repr

/-- `widthdb.rs::WidthDb`.  The `HashMap` and `HashSet` are association and
element lists; iteration order never influences the final state reasoned
about below. -/
structure WidthDb where
  estimate : WidthEstimationMethod
  measure : Bool
  tab_width : Nat
  known : List (GStringM × Nat)
  requested : List GStringM

/-- `WidthDb::default()`. -/
def WidthDb.dflt : WidthDb :=
  { estimate := .Legacy, measure := false, tab_width := 8, known := [],
    requested := [] }

/-- `HashMap::get`. -/
def mapGet (m : List (GStringM × Nat)) (g : GStringM) : Option Nat :=
  (m.find? fun e => e.1 = g).map (·.2)

/-- `HashMap::insert` (replacing any previous binding). -/
def mapInsert (m : List (GStringM × Nat)) (g : GStringM) (w : Nat) :
    List (GStringM × Nat) :=
  (g, w) :: m.filter fun e => ¬ e.1 = g

/-- `HashSet::insert`. -/
def setInsert (s : List GStringM) (g : GStringM) : List GStringM :=
  if g ∈ s then s else s ++ [g]

/-- `WidthDb::tab_width_at_column`.  The source computes
`tab_width - (col % tab_width)` in `u8`; when `tab_width = 0` the modulo
panics, modelled as `none`. -/
def WidthDb.tabWidthAtColumn (db : WidthDb) (col : Nat) : Option Nat :=
  if db.tab_width = 0 then none
  else some (db.tab_width - col % db.tab_width)

/-- The leading `assert_eq!(Some(grapheme), grapheme.graphemes(true).next())`
of `WidthDb::grapheme_width`: the whole string equals its first grapheme
cluster.  (For the empty string `next()` is `None` and the assertion fails.) -/
def graphemeAssert (g : GStringM) : Bool :=
  match g with
  | [] => false
  | c :: _ => decide (GStringM.chars g = c)

/-- The `WidthEstimationMethod::Legacy` estimate: sum the widths of the
scalar values that are not ASCII control characters (skipping those without
a width), saturating the `u8` conversion at 255. -/
def legacyEstimate (g : GStringM) : Nat :=
  min (((g.chars.filter fun c => ¬ c.isAsciiControl).filterMap fun c =>
    c.w).sum) 255

/-- `str::width` of the `unicode-width` crate: per-scalar widths summed,
counting width-less scalars as 0. -/
def strWidth (cs : List UChar) : Nat :=
  (cs.map fun c => c.w.getD 0).sum

/-- The `WidthEstimationMethod::Unicode` estimate: split the string at ASCII
control characters and sum the widths of the parts, saturating the `u8`
conversion at 255. -/
def unicodeEstimate (g : GStringM) : Nat :=
  min (((g.chars.splitOnP fun c => c.isAsciiControl).map strWidth).sum) 255

/-- `WidthDb::grapheme_width`.  Returns the width together with the updated
database (the pending set can grow); `none` models a panic (assertion
failure, or the modulo-by-zero when `tab_width = 0` and the grapheme is a
tab). -/
def WidthDb.grapheme_width (db : WidthDb) (g : GStringM) (col : Nat) :
    Option (Nat × WidthDb) :=
  if ¬ graphemeAssert g then none
  else if g = tabString then
    (db.tabWidthAtColumn col).map fun w => (w, db)
  else
    let est := match db.estimate with
      | .Legacy => legacyEstimate g
      | .Unicode => unicodeEstimate g
    if db.measure then
      match mapGet db.known g with
      | some w => some (w, db)
      | none =>
          some (est, { db with requested := setInsert db.requested g })
    else
      some (est, db)

/-- `WidthDb::measuring_required`. -/
def WidthDb.measuringRequired (db : WidthDb) : Bool :=
  db.measure ∧ ¬ db.requested.isEmpty

/-- `WidthDb::measure_widths`, on an I/O-error-free run.  `report g` is the
column reported by the terminal's cursor-position query after `g` was
printed at the origin (a `u16`); the source stores `position()?.0 as u8`,
hence the `% 256`.  Graphemes containing an ASCII control character are
recorded as width 0 without being printed.  The pending set is drained. -/
def WidthDb.measure_widths (db : WidthDb) (report : GStringM → Nat) :
    WidthDb :=
  if ¬ db.measure then db
  else
    { db with
      known := db.requested.foldl
        (fun kn g =>
          if g.chars.any fun c => c.isAsciiControl then mapInsert kn g 0
          else mapInsert kn g (report g % 256))
        db.known,
      requested := [] }

/-! ## `styled.rs` -/

/-- `styled.rs::Styled`: a string (modelled as its list of bytes) plus a
run-length style table of `(style, until)` pairs; the style of a byte is
that of the first run whose `until` lies strictly beyond it. -/
structure Styled where
  text : List Nat
  styles : List (ContentStyle × Nat)
deriving DecidableEq, Repr

/-- `Styled::split_at`.  Mirrors the source exactly, including
`until.max(mid)` in the left table and `until.saturating_sub(mid)` in the
right one. -/
def Styled.split_at (s : Styled) (mid : Nat) : Styled × Styled :=
  let leftText := s.text.take mid
  let rightText := s.text.drop mid
  let z := s.styles.foldl
    (fun (acc : Nat × List (ContentStyle × Nat) × List (ContentStyle × Nat))
        su =>
      let frm := acc.1
      let ls := if frm < mid then acc.2.1 ++ [(su.1, max su.2 mid)]
                else acc.2.1
      let rs := if mid < su.2 then acc.2.2 ++ [(su.1, su.2 - mid)]
                else acc.2.2
      (su.2, ls, rs))
    (0, [], [])
  (⟨leftText, z.2.1⟩, ⟨rightText, z.2.2⟩)

/-- Well-formedness of a `Styled` value, as maintained by its constructors
and required by its iterators: run ends strictly increasing and positive,
terminating exactly at the text length (no runs at all for empty text). -/
def Styled.WellFormed (s : Styled) : Prop :=
  List.Pairwise (· < ·) (0 :: s.styles.map Prod.snd) ∧
  (s.styles.map Prod.snd).getLast? =
    (if s.text.isEmpty then none else some s.text.length)

instance (s : Styled) : Decidable s.WellFormed :=
  inferInstanceAs (Decidable (_ ∧ _ = _))

/-- The style assigned to byte `i`: that of the first run ending strictly
after `i` (as looked up by `StyledGraphemeIndices::next`). -/
def Styled.styleAt (s : Styled) (i : Nat) : Option ContentStyle :=
  (s.styles.find? fun su => i < su.2).map (·.1)

/-! ## `terminal.rs`: the diff step -/

/-- One `MoveTo(x, y)` + `PrintStyledContent(content, style)` command pair
emitted by `Terminal::draw_differences`. -/
structure DrawCommand where
  x : Nat
  y : Nat
  content : String
  style : ContentStyle
deriving DecidableEq, Repr

/-- `Terminal::draw_differences`: walk the head cells of `cur`, emitting one
move+print pair for every cell that differs from `prev` at the same
coordinates.  `none` when the cell iterator's assertion fails. -/
def drawDifferences (prev cur : Buffer) : Option (List DrawCommand) :=
  cur.cells.map fun l =>
    (l.filter fun t => ¬ (prev.att t.1 t.2.1 = t.2.2)).map fun t =>
      { x := t.1, y := t.2.1, content := t.2.2.content, style := t.2.2.style }

/-! ## `wrap.rs` -/

/-- `unicode_linebreak::BreakOpportunity`. -/
inductive BreakOpportunity where
  | Mandatory
  | Allowed
deriving DecidableEq, Repr

/-- One grapheme cluster as `wrap` consumes it: whether it is the string
`"\t"`, its estimated width (`WidthDB::grapheme_width`, which in the wrap
module does not depend on the column; tabs are measured separately), whether
all of its scalar values are whitespace, and its length in bytes (at least 1
for every real cluster). -/
structure WrapGrapheme where
  isTab : Bool
  width : Nat
  ws : Bool
  bytes : Nat
deriving DecidableEq, Repr

/-- The mutable state of the `wrap` loop. -/
structure WrapState where
  breaks : List Nat
  validBreak : Option Nat
  validBreakWidth : Nat
  currentWidth : Nat
  currentWidthTrimmed : Nat
deriving DecidableEq, Repr

/-- The initial `wrap` state. -/
def WrapState.init : WrapState :=
  { breaks := [], validBreak := none, validBreakWidth := 0,
    currentWidth := 0, currentWidthTrimmed := 0 }

/-- One iteration of the `wrap` loop, for the grapheme `g` starting at byte
index `gi`.  `brkAt` gives the break opportunity at a byte position; it
stands for the sorted `unicode_linebreak::linebreaks` iterator, which the
source peeks for the first entry at a position `≥ gi` (entries at earlier
positions are discarded and never consulted again, so the function view
coincides with the iterator).  `tw` is the tab width. -/
def wrapStep (tw width : Nat) (brkAt : Nat → Option BreakOpportunity)
    (st : WrapState) (gi : Nat) (g : WrapGrapheme) : WrapState :=
  -- Evaluate break options at the current position
  let st := match brkAt gi with
    | some .Mandatory =>
        { breaks := st.breaks ++ [gi], validBreak := none,
          validBreakWidth := 0, currentWidth := 0, currentWidthTrimmed := 0 }
    | some .Allowed =>
        { st with validBreak := some gi, validBreakWidth := st.currentWidth }
    | none => st
  -- Calculate widths after current grapheme
  let gWidth := if g.isTab then tw - st.currentWidth % tw else g.width
  let gWidthTrimmed := if g.ws then 0 else gWidth
  let newWidth := st.currentWidth + gWidth
  let newWidthTrimmed := if g.ws then st.currentWidthTrimmed else newWidth
  -- Wrap at last break point if necessary
  let st2 : WrapState × Nat × Nat :=
    if newWidthTrimmed > width then
      match st.validBreak with
      | some bi =>
          ({ st with
              breaks := st.breaks ++ [bi]
              validBreak := none
              validBreakWidth := 0 },
           newWidth - st.validBreakWidth,
           newWidthTrimmed - st.validBreakWidth)
      | none => (st, newWidth, newWidthTrimmed)
    else (st, newWidth, newWidthTrimmed)
  let st := st2.1
  let newWidth := st2.2.1
  let newWidthTrimmed := st2.2.2
  -- Perform a forced break if still necessary
  let st3 : WrapState × Nat × Nat :=
    if newWidthTrimmed > width then
      if newWidth = gWidth then (st, newWidth, newWidthTrimmed)
      else
        ({ st with
            breaks := st.breaks ++ [gi]
            validBreak := none
            validBreakWidth := 0 },
         gWidth, gWidthTrimmed)
    else (st, newWidth, newWidthTrimmed)
  -- Update current width
  { st3.1 with currentWidth := st3.2.1, currentWidthTrimmed := st3.2.2 }

/-- The graphemes of `text` paired with their byte indices
(`str::grapheme_indices`). -/
def withIndices (text : List WrapGrapheme) : List (Nat × WrapGrapheme) :=
  (text.foldl
    (fun (acc : Nat × List (Nat × WrapGrapheme)) g =>
      (acc.1 + g.bytes, acc.2 ++ [(acc.1, g)]))
    (0, [])).2

/-- The `wrap` loop over the indexed graphemes. -/
def wrapGo (tw width : Nat) (brkAt : Nat → Option BreakOpportunity)
    (st : WrapState) (pairs : List (Nat × WrapGrapheme)) : WrapState :=
  pairs.foldl (fun st p => wrapStep tw width brkAt st p.1 p.2) st

/-- `wrap.rs::wrap`: the byte offsets at which the text is split into
lines. -/
def wrap (tw width : Nat) (brkAt : Nat → Option BreakOpportunity)
    (text : List WrapGrapheme) : List Nat :=
  (wrapGo tw width brkAt WrapState.init (withIndices text)).breaks

/-- Split an indexed grapheme list into the segments delimited by the given
byte offsets (`Styled::split_at_indices` on the grapheme level). -/
def splitSegs : List (Nat × WrapGrapheme) → List Nat →
    List (List WrapGrapheme)
  | l, [] => [l.map (·.2)]
  | l, off :: offs =>
      (l.filter fun p => p.1 < off).map (·.2) ::
        splitSegs (l.filter fun p => ¬ p.1 < off) offs

/-- The lines produced by splitting `text` at the given byte offsets. -/
def linesAt (text : List WrapGrapheme) (offs : List Nat) :
    List (List WrapGrapheme) :=
  splitSegs (withIndices text) offs

/-- Display width of a line starting at column `col`, expanding tabs at
their actual columns. -/
def lineWidthFrom (tw : Nat) : Nat → List WrapGrapheme → Nat
  | col, [] => col
  | col, g :: gs =>
      lineWidthFrom tw (col + (if g.isTab then tw - col % tw else g.width)) gs

/-- Display width of a line rendered at column 0. -/
def displayWidth (tw : Nat) (line : List WrapGrapheme) : Nat :=
  lineWidthFrom tw 0 line

/-- A line with its trailing whitespace graphemes removed. -/
def trimLine (line : List WrapGrapheme) : List WrapGrapheme :=
  (line.reverse.dropWhile fun g => g.ws).reverse

/-- Trimmed display width of a line (trailing whitespace removed, tabs
expanded from the line's own start column). -/
def trimmedWidth (tw : Nat) (line : List WrapGrapheme) : Nat :=
  displayWidth tw (trimLine line)

/-! ## `widgets/join.rs`: the segment balancer

The `f32` weight arithmetic is idealized as exact rational arithmetic; all
integer quantities (`u16` sizes) are `Nat` with the saturations of the
source made explicit. -/

/-- `join.rs::Segment`. -/
structure Segment where
  major : Nat
  minor : Nat
  weight : ℚ
  growing : Bool
  shrinking : Bool
deriving DecidableEq, Repr

/-- `u16::saturating_add`. -/
def satAdd (a b : Nat) : Nat := min (a + b) 65535

/-- `join.rs::total_size`. -/
def total_size (segs : List Segment) : Nat :=
  segs.foldl (fun t s => satAdd t s.major) 0

/-- `join.rs::total_weight`. -/
def total_weight (segs : List Segment) : ℚ :=
  (segs.map fun s => s.weight).sum

/-- The first `retain` of `grow`/`shrink`: drop the segments the flag
excludes from consideration, subtracting (saturating) their sizes from
`available`.  Segments are carried with their original indices; the dropped
ones are returned unchanged for the final reassembly. -/
def retainFlex (flag : Segment → Bool) (segs : List (Nat × Segment))
    (av : Nat) : List (Nat × Segment) × List (Nat × Segment) × Nat :=
  segs.foldl
    (fun acc p =>
      if flag p.2 then (acc.1 ++ [p], acc.2.1, acc.2.2)
      else (acc.1, acc.2.1 ++ [p], acc.2.2 - p.2.major))
    ([], [], av)

/-- The weight rewrite at the top of each removal-loop pass: when the total
weight is non-positive, every remaining segment's weight becomes 1. -/
def rewriteWeights (segs : List (Nat × Segment)) : List (Nat × Segment) :=
  if total_weight (segs.map (·.2)) ≤ 0 then
    segs.map fun p => (p.1, { p.2 with weight := 1 })
  else segs

/-- The total weight used by a removal-loop pass (the list length when the
weights were rewritten). -/
def passWeight (segs : List (Nat × Segment)) : ℚ :=
  if total_weight (segs.map (·.2)) ≤ 0 then ((rewriteWeights segs).length : ℚ)
  else total_weight (segs.map (·.2))

/-- One pass of the removal loop shared by `grow` and `shrink`: rewrite all
weights to 1 when the total weight is non-positive, then retain the
segments the predicate `keep` selects (given the pass's total weight and
`available`); returns the kept segments, the dropped segments (in their
state at the drop), and the total size removed. -/
def loopPass (keep : Segment → ℚ → Nat → Bool) (segs : List (Nat × Segment))
    (av : Nat) :
    List (Nat × Segment) × List (Nat × Segment) × Nat :=
  let kept := (rewriteWeights segs).filter fun p =>
    keep p.2 (passWeight segs) av
  let dropped := (rewriteWeights segs).filter fun p =>
    ¬ keep p.2 (passWeight segs) av
  (kept, dropped, (dropped.map fun p => p.2.major).sum)

/-- `grow`'s retention predicate: keep a segment when its size is strictly
below its allotment. -/
def growKeep (s : Segment) (tw : ℚ) (av : Nat) : Bool :=
  (s.major : ℚ) < s.weight / tw * (av : ℚ)

/-- `shrink`'s retention predicate: keep a segment when its size is strictly
above its allotment. -/
def shrinkKeep (s : Segment) (tw : ℚ) (av : Nat) : Bool :=
  (s.major : ℚ) > s.weight / tw * (av : ℚ)

/-- The removal loop of `grow`/`shrink` with explicit fuel: repeat
`loopPass` until a pass removes nothing, accumulating dropped segments and
shrinking `available` by the removed sizes.  Each recursive call strictly
shortens the segment list, so fuel `length + 1` always suffices
(`loopPass_length_lt`); the fuel-exhausted branch is unreachable. -/
def removalLoopF (keep : Segment → ℚ → Nat → Bool) :
    Nat → List (Nat × Segment) → Nat →
    List (Nat × Segment) × Nat × List (Nat × Segment)
  | 0, segs, av => (segs, av, [])
  | fuel + 1, segs, av =>
    if (loopPass keep segs av).2.2 = 0 then
      ((loopPass keep segs av).1, av, (loopPass keep segs av).2.1)
    else
      let r := removalLoopF keep fuel (loopPass keep segs av).1
        (av - (loopPass keep segs av).2.2)
      (r.1, r.2.1, (loopPass keep segs av).2.1 ++ r.2.2)

/-- The removal loop of `grow`/`shrink`. -/
def removalLoop (keep : Segment → ℚ → Nat → Bool)
    (segs : List (Nat × Segment)) (av : Nat) :
    List (Nat × Segment) × Nat × List (Nat × Segment) :=
  removalLoopF keep (segs.length + 1) segs av

/-- `f32 as u16` on a nonnegative value: truncation saturating at
`u16::MAX`. -/
def toU16 (q : ℤ) : Nat := min q.toNat 65535

/-- The final allotment assignment plus left-to-right distribution of the
remaining space, shared by `grow` and `shrink`: set each surviving segment
to the floor of its allotment, then add one cell to each of the first
`available - used` survivors. -/
def assignAllotments (surv : List (Nat × Segment)) (av : Nat) :
    List (Nat × Segment) :=
  let tw := total_weight (surv.map (·.2))
  if tw ≤ 0 then surv -- No more segments left
  else
    let assigned := surv.map fun p =>
      (p.1, { p.2 with major := toU16 ⌊p.2.weight / tw * (av : ℚ)⌋ })
    let used := (assigned.map fun p => p.2.major).sum
    let remaining := av - used
    assigned.enum.map fun q =>
      if q.1 < remaining then (q.2.1, { q.2.2 with major := q.2.2.major + 1 })
      else q.2

/-- `join.rs::grow` on index-tagged segments: returns all segments (indices
preserved, order of the internal processing) with the surviving growable
segments resized.  The entry assertion `available >= total_size` is a
property of the call site, not modelled. -/
def grow (segs : List (Nat × Segment)) (av : Nat) : List (Nat × Segment) :=
  let r0 := retainFlex (fun s => s.growing) segs av
  let r1 := removalLoop growKeep r0.1 r0.2.2
  r0.2.1 ++ r1.2.2 ++ assignAllotments r1.1 r1.2.1

/-- `join.rs::shrink` on index-tagged segments, symmetric to `grow`.  The
in-loop `assert!(s.major <= available)` holds at the call sites and is not
modelled. -/
def shrink (segs : List (Nat × Segment)) (av : Nat) : List (Nat × Segment) :=
  let r0 := retainFlex (fun s => s.shrinking) segs av
  let r1 := removalLoop shrinkKeep r0.1 r0.2.2
  r0.2.1 ++ r1.2.2 ++ assignAllotments r1.1 r1.2.1

/-- Reassemble the in-place mutation of `balance`: each original slot takes
the updated segment with its index. -/
def applyUpdates (segs : List Segment) (upd : List (Nat × Segment)) :
    List Segment :=
  segs.enum.map fun p =>
    (((upd.find? fun u => u.1 = p.1).map (·.2)).getD p.2)

/-- `join.rs::balance`. -/
def balance (segs : List Segment) (available : Nat) : List Segment :=
  if total_size segs < available then
    applyUpdates segs (grow segs.enum available)
  else if available < total_size segs then
    applyUpdates segs (shrink segs.enum available)
  else segs

/-! ## Invariants and reachability -/

/-- A stack frame's drawable area lies inside the buffer rectangle (holds
for the implicit root frame and is preserved by `push`). -/
def FrameOk (b : Buffer) (f : StackFrame) : Bool :=
  match f.drawable_area with
  | none => true
  | some a =>
      decide (0 ≤ a.1.x) && decide (0 ≤ a.1.y) &&
      decide (a.1.x + (a.2.width : Int) ≤ (b.size.width : Int)) &&
      decide (a.1.y + (a.2.height : Int) ≤ (b.size.height : Int))

/-- The grapheme-span invariant at one cell: the cell's `offset` is a valid
column inside a span of `width` cells that fits in the row, and every cell
of that span carries the same content, style and width, with `offset`
increasing by exactly 1 per column from 0 at the head. -/
def SpanInvAt (b : Buffer) (x y : Nat) : Prop :=
  (b.att x y).offset < (b.att x y).width ∧
  (b.att x y).offset ≤ x ∧
  x - (b.att x y).offset + (b.att x y).width ≤ b.size.width ∧
  ∀ j < (b.att x y).width,
    b.att (x - (b.att x y).offset + j) y = { b.att x y with offset := j }

/-- Buffer well-formedness: the cell array has the right length, every
stacked clip frame's drawable area lies inside the buffer, and the
grapheme-span invariant holds at every cell. -/
def BufferWF (b : Buffer) : Prop :=
  b.data.length = b.size.width * b.size.height ∧
  (∀ f ∈ b.stack, FrameOk b f = true) ∧
  ∀ y < b.size.height, ∀ x < b.size.width, SpanInvAt b x y

instance spanInvAtDec (b : Buffer) (x y : Nat) :
    Decidable (SpanInvAt b x y) := by
  unfold SpanInvAt
  infer_instance

instance bufferWFDec (b : Buffer) : Decidable (BufferWF b) := by
  unfold BufferWF
  infer_instance

/-- The buffers reachable from a fresh buffer by the public mutating
operations (`resize`, `push`, `pop`, `set_cursor`, `write`); `write` may use
an arbitrary width-database state, abstracted as the width function. -/
inductive Reachable : Buffer → Prop where
  | fresh : Reachable Buffer.dflt
  | resize (b : Buffer) (size : Size) : Reachable b → Reachable (b.resize size)
  | push (b : Buffer) (pos : Pos) (size : Size) : Reachable b →
      Reachable (b.push pos size)
  | pop (b : Buffer) : Reachable b → Reachable b.pop
  | set_cursor (b : Buffer) (pos : Option Pos) : Reachable b →
      Reachable (b.setCursor pos)
  | write (b : Buffer) (wfun : String → Nat → Nat) (pos : Pos)
      (styled : List StyledGrapheme) : Reachable b →
      Reachable (b.write wfun pos styled)

/-! ## Specification helpers for the wrap theorems -/

/-- Total width of a line when no grapheme is a tab (column-independent). -/
def sumWidth (line : List WrapGrapheme) : Nat :=
  (line.map fun g => g.width).sum

/-- Total width of a line after removing trailing whitespace, when no
grapheme is a tab. -/
def trimmedSum (line : List WrapGrapheme) : Nat :=
  sumWidth (trimLine line)

/-- The indexed graphemes remaining after peeling off the segments ending at
the given offsets (the final line of `splitSegs`). -/
def remSegs : List (Nat × WrapGrapheme) → List Nat → List (Nat × WrapGrapheme)
  | l, [] => l
  | l, off :: offs => remSegs (l.filter fun p => ¬ p.1 < off) offs

/-- A good line in the sense of the wrap width bound: its trimmed width is
within the limit, or it consists of a single grapheme wider than the
limit. -/
def goodLine (width : Nat) (line : List WrapGrapheme) : Prop :=
  trimmedSum line ≤ width ∨ ∃ g, line = [g] ∧ width < g.width

/-- The graphemes of a suffix of the text paired with their byte indices,
starting at byte offset `n` (a structural view of `withIndices`). -/
def pairsFrom : Nat → List WrapGrapheme → List (Nat × WrapGrapheme)
  | _, [] => []
  | n, g :: gs => (n, g) :: pairsFrom (n + g.bytes) gs

/-- The break-option phase of one `wrap` iteration (the first block of the
loop body). -/
def wrapBreakPhase (brkAt : Nat → Option BreakOpportunity) (st : WrapState)
    (gi : Nat) : WrapState :=
  match brkAt gi with
  | some .Mandatory =>
      { breaks := st.breaks ++ [gi], validBreak := none,
        validBreakWidth := 0, currentWidth := 0, currentWidthTrimmed := 0 }
  | some .Allowed =>
      { st with validBreak := some gi, validBreakWidth := st.currentWidth }
  | none => st

/-- The width-accounting and breaking phase of one `wrap` iteration (the
remaining blocks of the loop body, after the break options have been
evaluated). -/
def wrapWidthPhase (tw width : Nat) (st : WrapState) (gi : Nat)
    (g : WrapGrapheme) : WrapState :=
  let gWidth := if g.isTab then tw - st.currentWidth % tw else g.width
  let gWidthTrimmed := if g.ws then 0 else gWidth
  let newWidth := st.currentWidth + gWidth
  let newWidthTrimmed := if g.ws then st.currentWidthTrimmed else newWidth
  let st2 : WrapState × Nat × Nat :=
    if newWidthTrimmed > width then
      match st.validBreak with
      | some bi =>
          ({ st with
              breaks := st.breaks ++ [bi]
              validBreak := none
              validBreakWidth := 0 },
           newWidth - st.validBreakWidth,
           newWidthTrimmed - st.validBreakWidth)
      | none => (st, newWidth, newWidthTrimmed)
    else (st, newWidth, newWidthTrimmed)
  let st := st2.1
  let newWidth := st2.2.1
  let newWidthTrimmed := st2.2.2
  let st3 : WrapState × Nat × Nat :=
    if newWidthTrimmed > width then
      if newWidth = gWidth then (st, newWidth, newWidthTrimmed)
      else
        ({ st with
            breaks := st.breaks ++ [gi]
            validBreak := none
            validBreakWidth := 0 },
         gWidth, gWidthTrimmed)
    else (st, newWidth, newWidthTrimmed)
  { st3.1 with currentWidth := st3.2.1, currentWidthTrimmed := st3.2.2 }

/-- The loop invariant of the wrap width bound, for tab-free text: after
processing the indexed prefix `P` (whose byte indices all lie below `n`,
the index of the next grapheme), the breaks recorded so far lie at or
below `n`, the running widths agree exactly with the total and trimmed
widths of the current (still unfinished) line, every completed line is
good, the current line is good, and a recorded valid break splits the
current line with the recorded width on the left and a trimmed width
within the limit on the right. -/
def WrapInv (width : Nat) (st : WrapState)
    (P : List (Nat × WrapGrapheme)) (n : Nat) : Prop :=
  (∀ b ∈ st.breaks, b ≤ n) ∧
  (∀ p ∈ P, p.1 < n) ∧
  st.currentWidth = sumWidth ((remSegs P st.breaks).map fun p => p.2) ∧
  st.currentWidthTrimmed = trimmedSum ((remSegs P st.breaks).map fun p => p.2) ∧
  (∀ seg ∈ (splitSegs P st.breaks).dropLast, goodLine width seg) ∧
  goodLine width ((remSegs P st.breaks).map fun p => p.2) ∧
  (∀ bi, st.validBreak = some bi →
    bi ≤ n ∧ (∀ b ∈ st.breaks, b ≤ bi) ∧
    st.validBreakWidth =
      sumWidth (((remSegs P st.breaks).filter fun p => p.1 < bi).map
        fun p => p.2) ∧
    goodLine width (((remSegs P st.breaks).filter fun p => p.1 < bi).map
      fun p => p.2) ∧
    trimmedSum (((remSegs P st.breaks).filter fun p => ¬ p.1 < bi).map
      fun p => p.2) ≤ width)

/-- Two plain one-cell and two-cell graphemes, for the wrap width bound
witness. -/
def c3WitText : List WrapGrapheme :=
  [⟨false, 1, false, 1⟩, ⟨false, 2, false, 1⟩]

/-! ## Concrete instances used by the counterexamples and witnesses -/

/-- A style with only a foreground color. -/
def fgStyle : ContentStyle := { ContentStyle.dflt with foreground_color := some 1 }

/-- A style with only a background color. -/
def bgStyle : ContentStyle := { ContentStyle.dflt with background_color := some 2 }

/-- A width database view placing `"W"` at 2 columns and everything else at
1 (a stand-in for a wide CJK grapheme among single-width ones). -/
def exWidth : String → Nat → Nat := fun g _ => if g = "W" then 2 else 1

/-- A blank 10-column, 1-row buffer. -/
def blankRow : Buffer := Buffer.dflt.resize ⟨10, 1⟩

/-- The blank row after writing the 2-column grapheme `"W"` at column 5. -/
def exWideWritten : Buffer := blankRow.write exWidth ⟨5, 0⟩ [⟨"W", fgStyle⟩]

/-- `exWideWritten` after writing the 1-column `"x"` at column 5. -/
def exOverwritten : Buffer := exWideWritten.write exWidth ⟨5, 0⟩ [⟨"x", bgStyle⟩]

/-- The blank row with the 1-column `"x"` written at column 5. -/
def exXWritten : Buffer := blankRow.write exWidth ⟨5, 0⟩ [⟨"x", bgStyle⟩]

/-- A 10×1 buffer with `"a"` at column 0, then a clip frame of size 3×1
pushed at origin (1, 0): the drawable x-range is `[1, 4)`. -/
def clipBase : Buffer :=
  (blankRow.write exWidth ⟨0, 0⟩ [⟨"a", fgStyle⟩]).push ⟨1, 0⟩ ⟨3, 1⟩

/-- `clipBase` after writing the 2-column `"W"` at local x = -1 (global
x = 0), i.e. straddling the left clip edge. -/
def clipWritten : Buffer := clipBase.write exWidth ⟨-1, 0⟩ [⟨"W", bgStyle⟩]

/-- A well-formed 4-byte `Styled` with a single style run. -/
def exStyled : Styled := { text := [0, 1, 2, 3], styles := [(ContentStyle.dflt, 4)] }

/-- The single-cluster string `"a"` (U+0061, width 1, not a control). -/
def letterA : GStringM := [[⟨97, some 1⟩]]

/-- A two-cluster string `"ab"`. -/
def twoClusters : GStringM := [[⟨97, some 1⟩], [⟨98, some 1⟩]]

/-- A width database with measuring enabled and `"a"` pending. -/
def exPendingDb : WidthDb :=
  { WidthDb.dflt with measure := true, requested := [letterA] }

/-- A width database whose tab width was set to 0 via `set_tab_width(0)`. -/
def zeroTabDb : WidthDb := { WidthDb.dflt with tab_width := 0 }

/-- The letter `"a"` as a wrap grapheme: width 1, no whitespace, 1 byte. -/
def wgA : WrapGrapheme := ⟨false, 1, false, 1⟩

/-- A space as a wrap grapheme: width 1, whitespace, 1 byte. -/
def wgSpace : WrapGrapheme := ⟨false, 1, true, 1⟩

/-- A tab as a wrap grapheme (1 byte; whitespace; the stored width is
unused, tabs are measured at their column). -/
def wgTab : WrapGrapheme := ⟨true, 0, true, 1⟩

/-- U+0301 COMBINING ACUTE ACCENT as a wrap grapheme: estimated width 0,
not whitespace, 2 bytes in UTF-8. -/
def wgCM : WrapGrapheme := ⟨false, 0, false, 2⟩

/-- The text `"aaaaaa \t́b"` as wrap graphemes. -/
def wrapExText : List WrapGrapheme :=
  [wgA, wgA, wgA, wgA, wgA, wgA, wgSpace, wgTab, wgCM, wgA]

/-- The break opportunities of `"aaaaaa \t́b"` per UAX 14: an allowed
break after the space (byte 7), an allowed break after the tab-plus-combining
mark (byte 10; LB9 attaches the mark to the tab), and the mandatory break at
the end of text (byte 11).  There is no opportunity at byte 8: LB9 forbids
breaking before a combining mark. -/
def wrapExBreaks : Nat → Option BreakOpportunity := fun i =>
  if i = 7 then some .Allowed
  else if i = 10 then some .Allowed
  else if i = 11 then some .Mandatory
  else none

/-- A non-shrinkable segment of size 10 (weight 1, growable). -/
def segFixed10 : Segment :=
  { major := 10, minor := 0, weight := 1, growing := true, shrinking := false }

/-- A fully flexible segment of size 3, weight 1. -/
def segFlex3 : Segment :=
  { major := 3, minor := 0, weight := 1, growing := true, shrinking := true }

/-- A fully flexible segment of size 0, weight 1. -/
def segFlex0 : Segment :=
  { major := 0, minor := 0, weight := 1, growing := true, shrinking := true }

/-- A fully flexible segment of size 10, weight 1. -/
def segFlex10 : Segment :=
  { major := 10, minor := 0, weight := 1, growing := true, shrinking := true }

/-- The span invariant at `(u, y)` together with disjointness of that span
from the column interval `[lo, hi)`. -/
def SpanOkAvoid (b : Buffer) (y u lo hi : Nat) : Prop :=
  SpanInvAt b u y ∧
  ∀ z, lo ≤ z → z < hi →
    ¬ (u - (b.att u y).offset ≤ z ∧
       z < u - (b.att u y).offset + (b.att u y).width)

/-- The head cells of row `y`: the cells with `offset = 0`, with their
coordinates, in increasing column order. -/
def rowHeads (b : Buffer) (y : Nat) : List (Nat × Nat × Cell) :=
  ((List.range b.size.width).filter fun x => (b.att x y).offset = 0).map
    fun x => (x, y, b.att x y)

/-- All head cells of the buffer in row-major order: the sequence the
`Cells` iterator yields when its assertion never fails. -/
def specCells (b : Buffer) : List (Nat × Nat × Cell) :=
  ((List.range b.size.height).map fun y => rowHeads b y).flatten

/-- The head cells of row `y` from column `x` on. -/
def rowHeadsFrom (b : Buffer) (y x : Nat) : List (Nat × Nat × Cell) :=
  (((List.range b.size.width).filter fun u => (b.att u y).offset = 0).filter
    fun u => x ≤ u).map fun u => (u, y, b.att u y)

/-- All head cells from row `y` on, in row-major order. -/
def specCellsFrom (b : Buffer) (y : Nat) : List (Nat × Nat × Cell) :=
  ((List.range' y (b.size.height - y)).map fun v => rowHeads b v).flatten

/-! ## Theorems -/

/-- C4: Buffer::write can modify a cell outside the current frame's drawable
area.  With a 10×1 buffer holding `"a"` at column 0 and a pushed clip frame
whose drawable x-range is `[1, 4)`, writing a 2-column grapheme at local
x = -1 erases and restyles the cell at x = 0, outside the drawable area:
the partially-visible branch of `write_grapheme` clamps `start_x` to 0
instead of to the range start. -/
theorem C4_write_outside_drawable_area :
    clipBase.currentFrame.legalRanges = some ((1, 4), (0, 1)) ∧
    clipBase.att 0 0 =
      { content := "a", style := fgStyle, width := 1, offset := 0 } ∧
    clipWritten.att 0 0 = { Cell.dflt with style := bgStyle } ∧
    clipWritten.att 0 0 ≠ clipBase.att 0 0 := by
  decide

/-- C5 counterexample: writing a styled wide grapheme and then overwriting
its head with a differently styled 1-column grapheme leaves the erased
continuation cell carrying exactly the old style and the overwritten cell
carrying exactly the new style; neither carries the `Style::cover` merge of
the two, which differs from both. -/
theorem C5_counterexample :
    exOverwritten.att 6 0 = { Cell.dflt with style := fgStyle } ∧
    (exOverwritten.att 5 0).style = bgStyle ∧
    (Style.cover ⟨bgStyle, false⟩ ⟨fgStyle, false⟩).content_style ≠ fgStyle ∧
    (Style.cover ⟨bgStyle, false⟩ ⟨fgStyle, false⟩).content_style ≠ bgStyle := by
  decide

/-- C8: measure_widths records the reported cursor column without the
minimum of 1 the specification requires.  With `"a"` (no control character)
pending and the terminal reporting column 0, the recorded width is 0. -/
theorem C8_measure_widths_records_zero :
    (letterA.chars.any fun c => c.isAsciiControl) = false ∧
    (exPendingDb.measure_widths fun _ => 0).known = [(letterA, 0)] ∧
    (exPendingDb.measure_widths fun _ => 0).requested = [] := by
  decide

/-- C9: split_at of a well-formed Styled yields an ill-formed left value:
splitting a single-run 4-byte text at byte 2 leaves the left run table
ending at `until.max(mid) = 4`, beyond the left text's length 2, so the run
table no longer covers the text exactly. -/
theorem C9_split_at_breaks_wellformedness :
    exStyled.WellFormed ∧
    (exStyled.split_at 2).1.text = [0, 1] ∧
    (exStyled.split_at 2).1.styles = [(ContentStyle.dflt, 4)] ∧
    ¬ (exStyled.split_at 2).1.WellFormed := by
  decide

/-- C10 counterexample: for the single-grapheme input `"\t"` the leading
assertion of grapheme_width holds, yet with `tab_width = 0` (reachable via
`set_tab_width(0)`) the function does not return normally: the tab-width
modulo panics. -/
theorem C10_counterexample :
    graphemeAssert tabString = true ∧
    (zeroTabDb.grapheme_width tabString 0).isSome = false := by
  decide

/-- C3 counterexample: for the text `"aaaaaa \t́b"` (six `a`s, space, tab,
U+0301, `b`), tab width 8 and wrap width 7, `wrap` breaks only at byte 7;
the second line `"\t́b"` has 3 graphemes (so is not a single over-wide
grapheme) and trimmed display width 9 > 7, because the tab's width was
accounted at column 7 (one column) but renders at column 0 (eight
columns). -/
theorem C3_counterexample :
    wrap 8 7 wrapExBreaks wrapExText = [7] ∧
    (linesAt wrapExText (wrap 8 7 wrapExBreaks wrapExText)).map
      (trimmedWidth 8) = [6, 9] ∧
    (linesAt wrapExText (wrap 8 7 wrapExBreaks wrapExText)).map
      List.length = [7, 3] ∧
    7 < 9 := by
  decide

/-- C6 counterexample: with a non-shrinkable segment of size 10 and a
shrinkable one of size 3, balancing to 5 leaves sizes `[10, 0]`: the sum 10
differs from `available = 5` even though a shrinkable segment exists,
because the non-shrinkable fixed size alone already exceeds the available
space. -/
theorem C6_counterexample :
    segFlex3.shrinking = true ∧
    total_size [segFixed10, segFlex3] = 13 ∧
    (balance [segFixed10, segFlex3] 5).map (fun s => s.major) = [10, 0] ∧
    (((balance [segFixed10, segFlex3] 5).map (fun s => s.major)).sum = 5 →
      False) := by
  refine ⟨by decide, by decide, ?_, ?_⟩ <;>
    norm_num [balance, total_size, satAdd, shrink, retainFlex, removalLoop,
      removalLoopF, loopPass, rewriteWeights, passWeight, total_weight,
      shrinkKeep, assignAllotments, toU16, applyUpdates, List.filter,
      List.find?, List.enum, List.enumFrom, segFixed10, segFlex3,
      Int.toNat_ofNat]

/-- C7 counterexample: two segments of sizes 0 and 10 with equal weight 1
and equal flexibility, balanced to 12 (`k = 2` more than the total 10),
become `[2, 10]` — the balancer moves the smaller segment to its allotment
rather than giving the first two segments one extra unit each (`[1, 11]`). -/
theorem C7_counterexample :
    total_size [segFlex0, segFlex10] = 10 ∧
    (balance [segFlex0, segFlex10] 12).map (fun s => s.major) = [2, 10] ∧
    ([2, 10] : List Nat) ≠ [1, 11] := by
  refine ⟨by decide, ?_, by decide⟩
  norm_num [balance, total_size, satAdd, grow, retainFlex, removalLoop,
    removalLoopF, loopPass, rewriteWeights, passWeight, total_weight,
    growKeep, assignAllotments, toU16, applyUpdates, List.filter,
    List.find?, List.enum, List.enumFrom, segFlex0, segFlex10,
    Int.toNat_ofNat]
  decide

/-- C10 amended: for a string whose clusters are all nonempty (true of every
real grapheme decomposition), the leading assertion of grapheme_width holds
exactly when the string is a single grapheme cluster; when the assertion
fails the call panics, and when it holds the call returns normally provided
that a tab grapheme is not being measured under `tab_width = 0`. -/
theorem C10_grapheme_width_assertion (db : WidthDb) (g : GStringM)
    (col : Nat) :
    ((∀ c ∈ g, c ≠ ([] : List UChar)) →
      ((graphemeAssert g = true) ↔ g.length = 1)) ∧
    (graphemeAssert g = false → db.grapheme_width g col = none) ∧
    (graphemeAssert g = true → (g = tabString → db.tab_width ≠ 0) →
      (db.grapheme_width g col).isSome = true) := by
  refine ⟨?_, ?_, ?_⟩
  · intro hne
    constructor
    · intro ha
      match g, ha with
      | c :: rest, ha =>
        simp only [graphemeAssert, GStringM.chars, List.flatten_cons,
          decide_eq_true_eq] at ha
        have hlen := congrArg List.length ha
        rw [List.length_append] at hlen
        have hrest : rest.flatten = [] :=
          List.eq_nil_of_length_eq_zero (by omega)
        rcases rest with _ | ⟨d, t⟩
        · rfl
        · exfalso
          rw [List.flatten_cons] at hrest
          exact hne d (by simp) (List.append_eq_nil.mp hrest).1
    · intro hl
      match g, hl with
      | [c], _ =>
        simp [graphemeAssert, GStringM.chars]
  · intro ha
    unfold WidthDb.grapheme_width
    simp [ha]
  · intro ha htab
    unfold WidthDb.grapheme_width
    rw [ha]
    simp only [Bool.not_true, Bool.false_eq_true, if_false]
    by_cases hg : g = tabString
    · rw [if_pos hg]
      unfold WidthDb.tabWidthAtColumn
      rw [if_neg (htab hg)]
      simp
    · rw [if_neg hg]
      by_cases hm : db.measure = true
      · rw [if_pos hm]
        cases mapGet db.known g <;> simp
      · rw [if_neg hm]
        simp

/-- Witness for C10: the two-cluster string `"ab"` fails the assertion (and
indeed has length 2, not 1), the empty string makes the call panic, and the
single-cluster `"a"` returns normally. -/
theorem C10_witness :
    ((graphemeAssert twoClusters = true) ↔ twoClusters.length = 1) ∧
    WidthDb.dflt.grapheme_width ([] : GStringM) 0 = none ∧
    (WidthDb.dflt.grapheme_width letterA 0).isSome = true :=
  ⟨(C10_grapheme_width_assertion WidthDb.dflt twoClusters 0).1 (by decide),
   (C10_grapheme_width_assertion WidthDb.dflt [] 0).2.1 (by decide),
   (C10_grapheme_width_assertion WidthDb.dflt letterA 0).2.2 (by decide)
     (fun h => absurd h (by decide))⟩

/-! ### Buffer primitives -/

/-- Folding a buffer-transforming body preserves any invariant each step
preserves. -/
theorem foldl_preserve {β : Type} (P : Buffer → Prop) (l : List β)
    (f : Buffer → β → Buffer) (hf : ∀ b a, P b → P (f b a)) :
    ∀ b, P b → P (l.foldl f b) := by
  induction l with
  | nil => intro b hb; exact hb
  | cons a t ih => intro b hb; exact ih _ (hf b a hb)

/-- Row-major indices agree only on equal coordinates (columns in range). -/
theorem index_inj {w x y u v : Nat} (hx : x < w) (hu : u < w)
    (he : y * w + x = v * w + u) : x = u ∧ y = v := by
  have hw : 0 < w := Nat.lt_of_le_of_lt (Nat.zero_le x) hx
  have hx2 : (y * w + x) % w = x := by
    rw [Nat.add_comm, Nat.add_mul_mod_self_right, Nat.mod_eq_of_lt hx]
  have hu2 : (v * w + u) % w = u := by
    rw [Nat.add_comm, Nat.add_mul_mod_self_right, Nat.mod_eq_of_lt hu]
  have hx3 : (y * w + x) / w = y := by
    rw [Nat.add_comm, Nat.add_mul_div_right _ _ hw, Nat.div_eq_of_lt hx,
      Nat.zero_add]
  have hu3 : (v * w + u) / w = v := by
    rw [Nat.add_comm, Nat.add_mul_div_right _ _ hw, Nat.div_eq_of_lt hu,
      Nat.zero_add]
  constructor
  · rw [← hx2, ← hu2, he]
  · rw [← hx3, ← hu3, he]

/-- In-range coordinates give an in-range row-major index. -/
theorem index_lt {b : Buffer} {x y : Nat} (hx : x < b.size.width)
    (hy : y < b.size.height) (hlen : b.data.length = b.size.width * b.size.height) :
    b.index x y < b.data.length := by
  rw [hlen]
  unfold Buffer.index
  calc y * b.size.width + x < y * b.size.width + b.size.width := by omega
    _ = (y + 1) * b.size.width := by ring
    _ ≤ b.size.height * b.size.width := by
        exact Nat.mul_le_mul_right _ (by omega)
    _ = b.size.width * b.size.height := Nat.mul_comm _ _

/-- Reading back the cell just written. -/
theorem att_setCell_eq {b : Buffer} {x y : Nat} {c : Cell}
    (h : b.index x y < b.data.length) : (b.setCell x y c).att x y = c := by
  unfold Buffer.att Buffer.setCell Buffer.index at *
  simp [List.getD_eq_getElem?_getD, List.getElem?_set_self, h]

/-- Writing one cell leaves all other flat indices unchanged. -/
theorem att_setCell_ne {b : Buffer} {x y u v : Nat} {c : Cell}
    (h : b.index u v ≠ b.index x y) : (b.setCell x y c).att u v = b.att u v := by
  unfold Buffer.att Buffer.setCell Buffer.index at *
  simp [List.getD_eq_getElem?_getD, List.getElem?_set_ne (Ne.symm h)]

/-- Writing one cell leaves all other coordinates unchanged (columns in
range). -/
theorem att_setCell_ne_coord {b : Buffer} {x y u v : Nat} {c : Cell}
    (hx : x < b.size.width) (hu : u < b.size.width)
    (h : ¬(u = x ∧ v = y)) : (b.setCell x y c).att u v = b.att u v := by
  apply att_setCell_ne
  intro he
  exact h (index_inj hu hx he)

/-- `erase` preserves the buffer's size, stack, cursor and data length. -/
theorem erase_frame (b : Buffer) (x y : Nat) :
    (b.erase x y).size = b.size ∧ (b.erase x y).stack = b.stack ∧
    (b.erase x y).cursor = b.cursor ∧
    (b.erase x y).data.length = b.data.length := by
  unfold Buffer.erase
  refine foldl_preserve
    (fun b2 => b2.size = b.size ∧ b2.stack = b.stack ∧
      b2.cursor = b.cursor ∧ b2.data.length = b.data.length) _ _ ?_ b
    ⟨rfl, rfl, rfl, rfl⟩
  intro b2 a hb2
  refine ⟨hb2.1, hb2.2.1, hb2.2.2.1, ?_⟩
  simpa [Buffer.setCell] using hb2.2.2.2

/-- `erase` preserves the style of every cell (at every flat index): each
affected cell is reset to the default but keeps its own style. -/
theorem erase_style (b : Buffer) (x y i : Nat) :
    ((b.erase x y).data.getD i Cell.dflt).style =
      (b.data.getD i Cell.dflt).style := by
  have main : ∀ (l : List Nat) (b2 : Buffer),
      (∀ j, (b2.data.getD j Cell.dflt).style = (b.data.getD j Cell.dflt).style) →
      ∀ j, ((l.foldl (fun acc k =>
          acc.setCell (x - (b.att x y).offset + k) y
            { Cell.dflt with
              style := (acc.att (x - (b.att x y).offset + k) y).style })
          b2).data.getD j Cell.dflt).style =
        (b.data.getD j Cell.dflt).style := by
    intro l
    induction l with
    | nil => intro b2 hb2 j; exact hb2 j
    | cons a t ih =>
        intro b2 hb2 j
        refine ih _ ?_ j
        intro j2
        show ((b2.data.set (b2.index (x - (b.att x y).offset + a) y)
            { Cell.dflt with
              style := (b2.att (x - (b.att x y).offset + a) y).style }).getD
            j2 Cell.dflt).style = _
        by_cases hj : j2 = b2.index (x - (b.att x y).offset + a) y
        · subst hj
          by_cases hlt :
              b2.index (x - (b.att x y).offset + a) y < b2.data.length
          · rw [List.getD_eq_getElem?_getD]
            simp only [List.getElem?_set_self hlt, Option.getD_some]
            exact hb2 _
          · rw [List.set_eq_of_length_le (Nat.le_of_not_lt hlt)]
            exact hb2 _
        · rw [List.getD_eq_getElem?_getD, List.getElem?_set_ne (Ne.symm hj),
            ← List.getD_eq_getElem?_getD]
          exact hb2 _
  exact main (List.range (b.att x y).width) b (fun _ => rfl) i

/-- The erase loop: filling `[base, base + m)` of row `y` with
default-but-style-preserving cells, characterized cell by cell. -/
theorem styleFillLoop_att (b : Buffer) (y base : Nat)
    (hy : y < b.size.height)
    (hlen : b.data.length = b.size.width * b.size.height) :
    ∀ m, base + m ≤ b.size.width →
      ((List.range m).foldl (fun acc j =>
          acc.setCell (base + j) y
            { Cell.dflt with style := (acc.att (base + j) y).style }) b).size
        = b.size ∧
      ((List.range m).foldl (fun acc j =>
          acc.setCell (base + j) y
            { Cell.dflt with style := (acc.att (base + j) y).style })
          b).data.length = b.data.length ∧
      ∀ u v, u < b.size.width → v < b.size.height →
        ((List.range m).foldl (fun acc j =>
            acc.setCell (base + j) y
              { Cell.dflt with style := (acc.att (base + j) y).style })
            b).att u v =
          if v = y ∧ base ≤ u ∧ u < base + m then
            { Cell.dflt with style := (b.att u y).style }
          else b.att u v := by
  intro m
  induction m with
  | zero =>
      intro _
      refine ⟨rfl, rfl, ?_⟩
      intro u v _ _
      rw [if_neg]
      · rfl
      · rintro ⟨_, h1, h2⟩
        omega
  | succ m ih =>
      intro hm
      obtain ⟨ihs, ihl, iha⟩ := ih (by omega)
      rw [List.range_succ, List.foldl_append]
      set R := (List.range m).foldl (fun acc j =>
        acc.setCell (base + j) y
          { Cell.dflt with style := (acc.att (base + j) y).style }) b with hR
      simp only [List.foldl_cons, List.foldl_nil]
      have hRcell : R.att (base + m) y = b.att (base + m) y := by
        rw [iha _ _ (by omega) hy, if_neg]
        rintro ⟨_, _, h2⟩
        omega
      have hidx : R.index (base + m) y < R.data.length := by
        have h1 : base + m < R.size.width := by rw [ihs]; omega
        have h2 : y < R.size.height := by rw [ihs]; exact hy
        have h3 : R.data.length = R.size.width * R.size.height := by
          rw [ihl, ihs, hlen]
        exact index_lt h1 h2 h3
      constructor
      · simpa [Buffer.setCell] using ihs
      constructor
      · simpa [Buffer.setCell] using ihl
      intro u v hu hv
      by_cases he : u = base + m ∧ v = y
      · obtain ⟨he1, he2⟩ := he
        subst he1
        subst he2
        rw [att_setCell_eq hidx, hRcell, if_pos ⟨rfl, by omega, by omega⟩]
      · rw [att_setCell_ne_coord (by rw [ihs]; omega) (by rw [ihs]; exact hu)
          he, iha u v hu hv]
        by_cases hcond : v = y ∧ base ≤ u ∧ u < base + m
        · rw [if_pos hcond, if_pos ⟨hcond.1, hcond.2.1, by omega⟩]
        · rw [if_neg hcond, if_neg]
          rintro ⟨h1, h2, h3⟩
          exact hcond ⟨h1, h2, by
            rcases Nat.lt_succ_iff_lt_or_eq.mp (by omega : u < base + m + 1)
              with h | h
            · omega
            · exact absurd ⟨by omega, h1⟩ he⟩

/-- `Buffer::erase` characterized cell by cell: the whole span containing
`(x, y)` becomes default cells with their styles preserved, everything else
is untouched. -/
theorem erase_att (b : Buffer) (x y : Nat)
    (hy : y < b.size.height)
    (hlen : b.data.length = b.size.width * b.size.height)
    (hspan : x - (b.att x y).offset + (b.att x y).width ≤ b.size.width) :
    ∀ u v, u < b.size.width → v < b.size.height →
      (b.erase x y).att u v =
        if v = y ∧ x - (b.att x y).offset ≤ u ∧
            u < x - (b.att x y).offset + (b.att x y).width then
          { Cell.dflt with style := (b.att u y).style }
        else b.att u v := by
  intro u v hu hv
  have h := (styleFillLoop_att b y (x - (b.att x y).offset) hy hlen
    (b.att x y).width hspan).2.2 u v hu hv
  exact h

/-- Rebuilding a cell with its own offset is the identity. -/
theorem cell_offset_eta (c : Cell) (j : Nat) (h : c.offset = j) :
    { c with offset := j } = c := by
  cases c
  simp_all

/-- Two grapheme spans (in the sense of `SpanInvAt`) sharing one column are
the same span: equal heads and equal widths. -/
theorem span_intersect_eq (b : Buffer) (y u1 u2 z : Nat)
    (h1 : SpanInvAt b u1 y) (h2 : SpanInvAt b u2 y)
    (hz1 : u1 - (b.att u1 y).offset ≤ z ∧
      z < u1 - (b.att u1 y).offset + (b.att u1 y).width)
    (hz2 : u2 - (b.att u2 y).offset ≤ z ∧
      z < u2 - (b.att u2 y).offset + (b.att u2 y).width) :
    u1 - (b.att u1 y).offset = u2 - (b.att u2 y).offset ∧
      (b.att u1 y).width = (b.att u2 y).width := by
  obtain ⟨_, _, _, hc1⟩ := h1
  obtain ⟨_, _, _, hc2⟩ := h2
  have e1 := hc1 (z - (u1 - (b.att u1 y).offset)) (by omega)
  have e2 := hc2 (z - (u2 - (b.att u2 y).offset)) (by omega)
  rw [show u1 - (b.att u1 y).offset + (z - (u1 - (b.att u1 y).offset)) = z by
    omega] at e1
  rw [show u2 - (b.att u2 y).offset + (z - (u2 - (b.att u2 y).offset)) = z by
    omega] at e2
  have heq := e1.symm.trans e2
  have hw : (b.att u1 y).width = (b.att u2 y).width := by
    have := congrArg (fun c => c.width) heq
    simpa using this
  have hoff : z - (u1 - (b.att u1 y).offset) =
      z - (u2 - (b.att u2 y).offset) := by
    have := congrArg (fun c => c.offset) heq
    simpa using this
  exact ⟨by omega, hw⟩

/-- Unfolding one step of the cell-writing loop. -/
theorem writeCellsLoop_succ (b : Buffer) (y sx n : Nat) (cellAt : Nat → Cell) :
    writeCellsLoop b y sx (n + 1) cellAt =
      ((writeCellsLoop b y sx n cellAt).erase (sx + n) y).setCell (sx + n) y
        (cellAt n) := by
  unfold writeCellsLoop
  rw [List.range_succ, List.foldl_append]
  rfl


/-- A cell with offset 0 and width 1 is its own well-formed span. -/
theorem spanInvAt_singleton (b : Buffer) (u y : Nat)
    (hu : u + 1 ≤ b.size.width) (h : (b.att u y).offset = 0)
    (hw : (b.att u y).width = 1) : SpanInvAt b u y := by
  refine ⟨by omega, by omega, by omega, ?_⟩
  intro j hj
  have hj0 : j = 0 := by omega
  subst hj0
  rw [h, Nat.sub_zero, Nat.add_zero, cell_offset_eta _ _ h]

/-- The cell-writing loop of `write_grapheme`, fully characterized: rows
other than `y` are untouched, the written columns hold exactly the given
cells, and every cell outside the written interval belongs to an intact
grapheme span that avoids the written interval (spans that overlapped it
were erased down to styled singletons). -/
theorem writeCellsLoop_spec (b : Buffer) (y sx : Nat) (cellAt : Nat → Cell)
    (hy : y < b.size.height)
    (hlen : b.data.length = b.size.width * b.size.height)
    (hrow : ∀ u, u < b.size.width → SpanInvAt b u y) :
    ∀ n, sx + n ≤ b.size.width →
      (writeCellsLoop b y sx n cellAt).size = b.size ∧
      (writeCellsLoop b y sx n cellAt).data.length = b.data.length ∧
      (writeCellsLoop b y sx n cellAt).stack = b.stack ∧
      (writeCellsLoop b y sx n cellAt).cursor = b.cursor ∧
      (∀ u v, u < b.size.width → v < b.size.height → ¬ v = y →
        (writeCellsLoop b y sx n cellAt).att u v = b.att u v) ∧
      (∀ k, k < n →
        (writeCellsLoop b y sx n cellAt).att (sx + k) y = cellAt k) ∧
      (∀ u, u < b.size.width → (u < sx ∨ sx + n ≤ u) →
        SpanOkAvoid (writeCellsLoop b y sx n cellAt) y u sx (sx + n)) := by
  intro n
  induction n with
  | zero =>
      intro _
      refine ⟨rfl, rfl, rfl, rfl, fun _ _ _ _ _ => rfl,
        fun k hk => absurd hk (by omega), ?_⟩
      intro u hu _
      exact ⟨hrow u hu, fun z hz1 hz2 => by omega⟩
  | succ n ih =>
      intro hn
      obtain ⟨ihs, ihl, ihst, ihc, iho, ihp, ihf⟩ := ih (by omega)
      rw [writeCellsLoop_succ]
      set R := writeCellsLoop b y sx n cellAt with hRdef
      have hWn : sx + n < b.size.width := by omega
      obtain ⟨hsiR, havR⟩ := ihf (sx + n) hWn (Or.inr le_rfl)
      obtain ⟨hRo, hRox, hRb, hRc⟩ := hsiR
      have heA := erase_att R (sx + n) y (by rw [ihs]; exact hy)
        (by rw [ihl, ihs, hlen]) hRb
      set E := R.erase (sx + n) y with hEdef
      obtain ⟨hEs, hEst, hEc, hEl⟩ := erase_frame R (sx + n) y
      rw [← hEdef] at hEs hEst hEc hEl
      have hEidx : E.index (sx + n) y < E.data.length := by
        refine index_lt ?_ ?_ ?_
        · rw [hEs, ihs]; exact hWn
        · rw [hEs, ihs]; exact hy
        · rw [hEl, ihl, hEs, ihs, hlen]
      have hFs : (E.setCell (sx + n) y (cellAt n)).size = b.size := by
        show E.size = b.size
        rw [hEs, ihs]
      have hFl : (E.setCell (sx + n) y (cellAt n)).data.length =
          b.data.length := by
        show (E.data.set (E.index (sx + n) y) (cellAt n)).length = _
        rw [List.length_set, hEl, ihl]
      have hFeq : (E.setCell (sx + n) y (cellAt n)).att (sx + n) y =
          cellAt n := att_setCell_eq hEidx
      have hFne : ∀ u v, u < b.size.width → ¬ (u = sx + n ∧ v = y) →
          (E.setCell (sx + n) y (cellAt n)).att u v = E.att u v := by
        intro u v hu hne
        exact att_setCell_ne_coord (by rw [hEs, ihs]; exact hWn)
          (by rw [hEs, ihs]; exact hu) hne
      have hEatt : ∀ u v, u < b.size.width → v < b.size.height →
          E.att u v =
            if v = y ∧ (sx + n) - (R.att (sx + n) y).offset ≤ u ∧
                u < (sx + n) - (R.att (sx + n) y).offset +
                  (R.att (sx + n) y).width then
              { Cell.dflt with style := (R.att u y).style }
            else R.att u v := by
        intro u v hu hv
        rw [hEdef]
        exact heA u v (by rw [ihs]; exact hu) (by rw [ihs]; exact hv)
      refine ⟨hFs, hFl, by rw [show (E.setCell (sx + n) y (cellAt n)).stack =
          E.stack from rfl, hEst, ihst],
        by rw [show (E.setCell (sx + n) y (cellAt n)).cursor =
          E.cursor from rfl, hEc, ihc], ?_, ?_, ?_⟩
      · -- other rows untouched
        intro u v hu hv hvy
        rw [hFne u v hu (fun h => hvy h.2), hEatt u v hu hv,
          if_neg (fun h => hvy h.1)]
        exact iho u v hu hv hvy
      · -- written prefix
        intro k hk
        rcases Nat.lt_succ_iff_lt_or_eq.mp hk with hk | hk
        · have hnk : ¬ (sx + k = sx + n ∧ y = y) := by
            rintro ⟨h, _⟩; omega
          rw [hFne (sx + k) y (by omega) hnk, hEatt (sx + k) y (by omega) hy,
            if_neg, ihp k hk]
          rintro ⟨_, h1, h2⟩
          exact havR (sx + k) (by omega) (by omega) ⟨h1, h2⟩
        · subst hk
          exact hFeq
      · -- spans outside the written interval
        intro u hu hcase
        have hune : ¬ (u = sx + n ∧ y = y) := by
          rintro ⟨h, _⟩; omega
        have hFu : (E.setCell (sx + n) y (cellAt n)).att u y = E.att u y :=
          hFne u y hu hune
        by_cases hin : (sx + n) - (R.att (sx + n) y).offset ≤ u ∧
            u < (sx + n) - (R.att (sx + n) y).offset + (R.att (sx + n) y).width
        · -- u was erased down to a styled singleton
          have hcell : (E.setCell (sx + n) y (cellAt n)).att u y =
              { Cell.dflt with style := (R.att u y).style } := by
            rw [hFu, hEatt u y hu hy, if_pos ⟨rfl, hin.1, hin.2⟩]
          constructor
          · refine spanInvAt_singleton _ u y ?_ ?_ ?_
            · rw [hFs]; omega
            · rw [hcell]; rfl
            · rw [hcell]; rfl
          · intro z hz1 hz2
            rw [hcell]
            change ¬ (u - 0 ≤ z ∧ z < u - 0 + 1)
            rcases hcase with h | h <;> omega
        · -- u's span was untouched
          have hcase2 : u < sx ∨ sx + n ≤ u := by
            rcases hcase with h | h
            · exact Or.inl h
            · exact Or.inr (by omega)
          obtain ⟨⟨ho2, hox2, hb2, hc2⟩, hav2⟩ := ihf u hu hcase2
          have hzone : ∀ z, u - (R.att u y).offset ≤ z →
              z < u - (R.att u y).offset + (R.att u y).width →
              ¬ ((sx + n) - (R.att (sx + n) y).offset ≤ z ∧
                 z < (sx + n) - (R.att (sx + n) y).offset +
                   (R.att (sx + n) y).width) := by
            intro z hz1 hz2 hzin
            obtain ⟨hh, hw⟩ := span_intersect_eq R y u (sx + n) z
              ⟨ho2, hox2, hb2, hc2⟩ ⟨hRo, hRox, hRb, hRc⟩ ⟨hz1, hz2⟩ hzin
            exact hin ⟨by omega, by omega⟩
          have hspancell : ∀ z, u - (R.att u y).offset ≤ z →
              z < u - (R.att u y).offset + (R.att u y).width →
              (E.setCell (sx + n) y (cellAt n)).att z y = R.att z y := by
            intro z hz1 hz2
            have hzW : z < b.size.width := by
              rw [ihs] at hb2
              omega
            have hzne : ¬ (z = sx + n ∧ y = y) := by
              rintro ⟨h, _⟩
              subst h
              exact hzone _ hz1 hz2 ⟨by omega, by omega⟩
            rw [hFne z y hzW hzne, hEatt z y hzW hy,
              if_neg (fun h => hzone z hz1 hz2 ⟨h.2.1, h.2.2⟩)]
          have huown : (E.setCell (sx + n) y (cellAt n)).att u y =
              R.att u y :=
            hspancell u (by omega) (by omega)
          constructor
          · refine ⟨?_, ?_, ?_, ?_⟩
            · rw [huown]; exact ho2
            · rw [huown]; exact hox2
            · rw [huown, hFs]
              rw [ihs] at hb2
              exact hb2
            · intro j hj
              rw [huown] at hj ⊢
              rw [hspancell _ (by omega) (by omega), hc2 j hj]
          · intro z hz1 hz2
            rw [huown]
            intro hzin
            rcases Nat.lt_or_ge z (sx + n) with hz | hz
            · exact hav2 z hz1 hz hzin
            · have hz3 : z = sx + n := by omega
              subst hz3
              exact hzone _ hzin.1 hzin.2 ⟨by omega, by omega⟩

/-- The cell-writing loop preserves size, stack, cursor and data length
unconditionally. -/
theorem writeCellsLoop_frame (b : Buffer) (y sx n : Nat) (cellAt : Nat → Cell) :
    (writeCellsLoop b y sx n cellAt).size = b.size ∧
    (writeCellsLoop b y sx n cellAt).stack = b.stack ∧
    (writeCellsLoop b y sx n cellAt).cursor = b.cursor ∧
    (writeCellsLoop b y sx n cellAt).data.length = b.data.length := by
  unfold writeCellsLoop
  refine foldl_preserve
    (fun b2 => b2.size = b.size ∧ b2.stack = b.stack ∧
      b2.cursor = b.cursor ∧ b2.data.length = b.data.length) _ _ ?_ b
    ⟨rfl, rfl, rfl, rfl⟩
  intro b2 a hb2
  obtain ⟨hes, hest, hec, hel⟩ := erase_frame b2 (sx + a) y
  refine ⟨?_, ?_, ?_, ?_⟩
  · show (b2.erase (sx + a) y).size = _
    rw [hes, hb2.1]
  · show (b2.erase (sx + a) y).stack = _
    rw [hest, hb2.2.1]
  · show (b2.erase (sx + a) y).cursor = _
    rw [hec, hb2.2.2.1]
  · show ((b2.erase (sx + a) y).data.set _ _).length = _
    rw [List.length_set, hel, hb2.2.2.2]

/-- `write_grapheme` preserves size, stack and data length (the cursor may
be cleared). -/
theorem writeGrapheme_frame (b : Buffer) (xr : Int × Int) (x : Int) (y : Nat)
    (width : Nat) (g : String) (st : ContentStyle) :
    (b.writeGrapheme xr x y width g st).size = b.size ∧
    (b.writeGrapheme xr x y width g st).stack = b.stack ∧
    (b.writeGrapheme xr x y width g st).data =
      (if x > xr.2 - 1 ∨ x + (width : Int) - 1 < xr.1 then b.data
       else if x ≥ xr.1 ∧ x + (width : Int) - 1 ≤ xr.2 - 1 then
         (writeCellsLoop b y x.toNat width fun o =>
           { content := g, style := st, width := width, offset := o }).data
       else
         (writeCellsLoop b y (max x 0).toNat
           ((min (x + (width : Int) - 1) (xr.2 - 1)).toNat + 1 -
             (max x 0).toNat)
           fun _ => { Cell.dflt with style := st }).data) := by
  unfold Buffer.writeGrapheme
  by_cases h1 : x > xr.2 - 1 ∨ x + (width : Int) - 1 < xr.1
  · rw [if_pos h1, if_pos h1]
    exact ⟨rfl, rfl, rfl⟩
  · rw [if_neg h1, if_neg h1]
    by_cases h2 : x ≥ xr.1 ∧ x + (width : Int) - 1 ≤ xr.2 - 1
    · rw [if_pos h2, if_pos h2]
      rcases hm : (writeCellsLoop b y x.toNat width fun o =>
          { content := g, style := st, width := width, offset := o }).cursor
        with _ | p
      · simp only [hm]
        obtain ⟨hs, hst, _, _⟩ := writeCellsLoop_frame b y x.toNat width _
        exact ⟨hs, hst, trivial⟩
      · simp only [hm]
        obtain ⟨hs, hst, _, _⟩ := writeCellsLoop_frame b y x.toNat width _
        split <;> exact ⟨hs, hst, by trivial⟩
    · rw [if_neg h2, if_neg h2]
      rcases hm : (writeCellsLoop b y (max x 0).toNat
          ((min (x + (width : Int) - 1) (xr.2 - 1)).toNat + 1 -
            (max x 0).toNat) fun _ => { Cell.dflt with style := st }).cursor
        with _ | p
      · simp only [hm]
        obtain ⟨hs, hst, _, _⟩ := writeCellsLoop_frame b y (max x 0).toNat _ _
        exact ⟨hs, hst, trivial⟩
      · simp only [hm]
        obtain ⟨hs, hst, _, _⟩ := writeCellsLoop_frame b y (max x 0).toNat _ _
        split <;> exact ⟨hs, hst, by trivial⟩

/-- Buffers with the same data and size have the same cells. -/
theorem att_congr {b1 b2 : Buffer} (hd : b1.data = b2.data)
    (hs : b1.size = b2.size) : ∀ u v, b1.att u v = b2.att u v := by
  intro u v
  unfold Buffer.att Buffer.index
  rw [hd, hs]

/-- The span invariant transfers along pointwise cell equality. -/
theorem spanInvAt_congr {b1 b2 : Buffer}
    (hatt : ∀ u v, b1.att u v = b2.att u v) (hs : b1.size = b2.size)
    (u y : Nat) (h : SpanInvAt b2 u y) : SpanInvAt b1 u y := by
  obtain ⟨h1, h2, h3, h4⟩ := h
  refine ⟨?_, ?_, ?_, ?_⟩
  · rw [hatt]; exact h1
  · rw [hatt]; exact h2
  · rw [hatt, hs]; exact h3
  · intro j hj
    rw [hatt] at hj ⊢
    rw [hatt]
    exact h4 j hj

/-- `write_grapheme` under an in-buffer legal range: rows other than `y` are
untouched, the span invariant is preserved on row `y`, and a fully visible
positive-width grapheme occupies exactly its span with the new content and
style. -/
theorem writeGrapheme_spec (b : Buffer) (xr : Int × Int) (x : Int) (y : Nat)
    (width : Nat) (g : String) (st : ContentStyle)
    (hy : y < b.size.height)
    (hlen : b.data.length = b.size.width * b.size.height)
    (hxr0 : 0 ≤ xr.1) (hxr1 : xr.2 ≤ (b.size.width : Int))
    (hrow : ∀ u, u < b.size.width → SpanInvAt b u y) :
    (∀ u v, u < b.size.width → v < b.size.height → ¬ v = y →
      (b.writeGrapheme xr x y width g st).att u v = b.att u v) ∧
    (∀ u, u < b.size.width →
      SpanInvAt (b.writeGrapheme xr x y width g st) u y) ∧
    (xr.1 ≤ x → x + (width : Int) - 1 ≤ xr.2 - 1 → 0 < width →
      ∀ o, o < width →
        (b.writeGrapheme xr x y width g st).att (x.toNat + o) y =
          { content := g, style := st, width := width, offset := o }) := by
  obtain ⟨hRs, hRst, hRd⟩ := writeGrapheme_frame b xr x y width g st
  by_cases h1 : x > xr.2 - 1 ∨ x + (width : Int) - 1 < xr.1
  · rw [if_pos h1] at hRd
    have hatt := att_congr hRd hRs
    refine ⟨fun u v _ _ _ => hatt u v, ?_, ?_⟩
    · intro u hu
      exact spanInvAt_congr hatt hRs u y (hrow u hu)
    · intro hf1 hf2 hw
      exfalso
      rcases h1 with h | h <;> omega
  · rw [if_neg h1] at hRd
    by_cases h2 : x ≥ xr.1 ∧ x + (width : Int) - 1 ≤ xr.2 - 1
    · -- fully visible
      rw [if_pos h2] at hRd
      have hatt := att_congr hRd (by
        rw [hRs, (writeCellsLoop_frame b y x.toNat width _).1])
      have hbound : x.toNat + width ≤ b.size.width := by omega
      obtain ⟨hLs, hLl, _, _, hLo, hLp, hLf⟩ :=
        writeCellsLoop_spec b y x.toNat
          (fun o => { content := g, style := st, width := width, offset := o })
          hy hlen hrow width hbound
      refine ⟨?_, ?_, ?_⟩
      · intro u v hu hv hvy
        rw [hatt u v]
        exact hLo u v hu hv hvy
      · intro u hu
        refine spanInvAt_congr hatt (by
          rw [hRs, hLs]) u y ?_
        by_cases hin : x.toNat ≤ u ∧ u < x.toNat + width
        · have hcell : ∀ k, k < width →
              (writeCellsLoop b y x.toNat width (fun o =>
                { content := g, style := st, width := width, offset := o })).att
                (x.toNat + k) y =
              { content := g, style := st, width := width, offset := k } :=
            fun k hk => hLp k hk
          have hu2 : u = x.toNat + (u - x.toNat) := by omega
          have hco := hcell (u - x.toNat) (by omega)
          refine ⟨?_, ?_, ?_, ?_⟩
          · rw [hu2, hco]
            show u - x.toNat < width
            omega
          · rw [hu2, hco]
            show u - x.toNat ≤ x.toNat + (u - x.toNat)
            omega
          · rw [hu2, hco, hLs]
            show x.toNat + (u - x.toNat) - (u - x.toNat) + width ≤ _
            omega
          · intro j hj
            rw [hu2, hco] at hj ⊢
            have hidx : x.toNat + (u - x.toNat) - (u - x.toNat) + j =
                x.toNat + j := by omega
            rw [hidx, hcell j hj]
        · exact (hLf u hu (by omega)).1
      · intro hf1 hf2 hw o ho
        rw [hatt]
        exact hLp o ho
    · -- partially visible
      rw [if_neg h2] at hRd
      have hatt := att_congr hRd (by
        rw [hRs, (writeCellsLoop_frame b y (max x 0).toNat _ _).1])
      by_cases hW : b.size.width = 0
      · refine ⟨?_, ?_, ?_⟩
        · intro u v hu _ _
          omega
        · intro u hu
          omega
        · intro hf1 hf2 hw
          exact absurd ⟨by omega, by omega⟩ h2
      · have hbound : (max x 0).toNat +
            ((min (x + (width : Int) - 1) (xr.2 - 1)).toNat + 1 -
              (max x 0).toNat) ≤ b.size.width := by
          omega
        obtain ⟨hLs, hLl, _, _, hLo, hLp, hLf⟩ :=
          writeCellsLoop_spec b y (max x 0).toNat
            (fun _ => { Cell.dflt with style := st }) hy hlen hrow
            ((min (x + (width : Int) - 1) (xr.2 - 1)).toNat + 1 -
              (max x 0).toNat) hbound
        refine ⟨?_, ?_, ?_⟩
        · intro u v hu hv hvy
          rw [hatt u v]
          exact hLo u v hu hv hvy
        · intro u hu
          refine spanInvAt_congr hatt (by rw [hRs, hLs]) u y ?_
          by_cases hin : (max x 0).toNat ≤ u ∧
              u < (max x 0).toNat +
                ((min (x + (width : Int) - 1) (xr.2 - 1)).toNat + 1 -
                  (max x 0).toNat)
          · have hco := hLp (u - (max x 0).toNat) (by omega)
            have hu2 : (max x 0).toNat + (u - (max x 0).toNat) = u := by omega
            rw [hu2] at hco
            refine spanInvAt_singleton _ u y (by rw [hLs]; omega) ?_ ?_
            · rw [hco]; rfl
            · rw [hco]; rfl
          · exact (hLf u hu (by omega)).1
        · intro hf1 hf2 hw
          exact absurd ⟨by omega, by omega⟩ h2

/-- `write_grapheme` never changes the length of the cell array. -/
theorem writeGrapheme_len (b : Buffer) (xr : Int × Int) (x : Int) (y : Nat)
    (width : Nat) (g : String) (st : ContentStyle) :
    (b.writeGrapheme xr x y width g st).data.length = b.data.length := by
  obtain ⟨_, _, hRd⟩ := writeGrapheme_frame b xr x y width g st
  rw [hRd]
  split
  · rfl
  split
  · exact (writeCellsLoop_frame b y x.toNat width _).2.2.2
  · exact (writeCellsLoop_frame b y (max x 0).toNat _ _).2.2.2

/-- `FrameOk` only inspects the buffer's size. -/
theorem FrameOk_congr {b1 b2 : Buffer} (hs : b1.size = b2.size)
    (f : StackFrame) : FrameOk b1 f = FrameOk b2 f := by
  cases h : f.drawable_area <;> simp [FrameOk, h, hs]

/-- The span invariant at an in-range cell only depends on the cells of its
own row (columns below the width) and the buffer width. -/
theorem spanInvAt_row_congr {b1 b2 : Buffer} (y : Nat)
    (hs : b1.size = b2.size)
    (hatt : ∀ u, u < b2.size.width → b1.att u y = b2.att u y)
    (x : Nat) (hx : x < b2.size.width)
    (h : SpanInvAt b2 x y) : SpanInvAt b1 x y := by
  obtain ⟨h1, h2, h3, h4⟩ := h
  have hxeq := hatt x hx
  refine ⟨by rw [hxeq]; exact h1, by rw [hxeq]; exact h2,
    by rw [hxeq, hs]; exact h3, ?_⟩
  intro j hj
  rw [hxeq] at hj ⊢
  rw [hatt (x - (b2.att x y).offset + j) (by omega)]
  exact h4 j hj

/-- `write_grapheme` preserves buffer well-formedness (for a legal x-range
inside the buffer and an in-range row). -/
theorem writeGrapheme_WF (b : Buffer) (xr : Int × Int) (x : Int) (y : Nat)
    (width : Nat) (g : String) (st : ContentStyle)
    (hwf : BufferWF b) (hy : y < b.size.height)
    (hxr0 : 0 ≤ xr.1) (hxr1 : xr.2 ≤ (b.size.width : Int)) :
    BufferWF (b.writeGrapheme xr x y width g st) ∧
    (b.writeGrapheme xr x y width g st).size = b.size ∧
    (b.writeGrapheme xr x y width g st).stack = b.stack ∧
    (b.writeGrapheme xr x y width g st).data.length = b.data.length := by
  obtain ⟨hlen, hfr, hspan⟩ := hwf
  obtain ⟨hRs, hRst, _⟩ := writeGrapheme_frame b xr x y width g st
  have hL := writeGrapheme_len b xr x y width g st
  obtain ⟨hother, hrowy, _⟩ := writeGrapheme_spec b xr x y width g st hy hlen
    hxr0 hxr1 (fun u hu => hspan y hy u hu)
  refine ⟨⟨?_, ?_, ?_⟩, hRs, hRst, hL⟩
  · rw [hL, hRs]
    exact hlen
  · intro f hf
    rw [FrameOk_congr hRs f]
    exact hfr f (by rwa [hRst] at hf)
  · rw [hRs]
    intro y2 hy2 x2 hx2
    by_cases hyy : y2 = y
    · subst hyy
      exact hrowy x2 hx2
    · exact spanInvAt_row_congr y2 hRs (fun u hu => hother u y2 hu hy2 hyy)
        x2 hx2 (hspan y2 hy2 x2 hx2)

/-- The current frame of a buffer whose stacked frames are all in-bounds is
itself in-bounds. -/
theorem currentFrame_ok (b : Buffer)
    (hfr : ∀ f ∈ b.stack, FrameOk b f = true) :
    FrameOk b b.currentFrame = true := by
  cases hs : b.stack with
  | nil =>
      simp only [Buffer.currentFrame, hs, List.headD]
      simp [FrameOk]
  | cons f t =>
      simp only [Buffer.currentFrame, hs, List.headD]
      exact hfr f (by rw [hs]; exact List.mem_cons_self f t)

/-- Preservation of a buffer predicate along a fold with paired state. -/
theorem foldl_preserve_pair {β γ : Type} (P : Buffer → Prop) (l : List β)
    (f : (Buffer × γ) → β → (Buffer × γ))
    (hf : ∀ acc a, P acc.1 → P (f acc a).1) :
    ∀ acc, P acc.1 → P (l.foldl f acc).1 := by
  induction l with
  | nil => intro acc h; exact h
  | cons a t ih => intro acc h; exact ih _ (hf acc a h)

/-- `Buffer::write` preserves buffer well-formedness and the size. -/
theorem write_WF (b : Buffer) (wfun : String → Nat → Nat) (pos : Pos)
    (styled : List StyledGrapheme) (hwf : BufferWF b) :
    BufferWF (b.write wfun pos styled) ∧
    (b.write wfun pos styled).size = b.size := by
  cases hlr : b.currentFrame.legalRanges with
  | none =>
      simp only [Buffer.write, hlr]
      exact ⟨hwf, trivial⟩
  | some r =>
      obtain ⟨xrange, yrange⟩ := r
      simp only [Buffer.write, hlr]
      by_cases hguard : (b.currentFrame.localToGlobal pos).y < yrange.1 ∨
          yrange.2 ≤ (b.currentFrame.localToGlobal pos).y
      · rw [if_pos hguard]
        exact ⟨hwf, rfl⟩
      · rw [if_neg hguard]
        -- Extract the drawable-area bounds from the frame invariant.
        have hok := currentFrame_ok b hwf.2.1
        rw [StackFrame.legalRanges] at hlr
        obtain ⟨a, ha, he⟩ := Option.map_eq_some'.mp hlr
        injection he with he1 he2
        have hok2 : 0 ≤ a.1.x ∧ 0 ≤ a.1.y ∧
            a.1.x + (a.2.width : Int) ≤ (b.size.width : Int) ∧
            a.1.y + (a.2.height : Int) ≤ (b.size.height : Int) := by
          unfold FrameOk at hok
          rw [ha] at hok
          simp only [Bool.and_eq_true, decide_eq_true_eq] at hok
          exact ⟨hok.1.1.1, hok.1.1.2, hok.1.2, hok.2⟩
        have hxr0 : 0 ≤ xrange.1 := by rw [← he1]; exact hok2.1
        have hxr1 : xrange.2 ≤ (b.size.width : Int) := by
          rw [← he1]; exact hok2.2.2.1
        have hy : (b.currentFrame.localToGlobal pos).y.toNat <
            b.size.height := by
          rw [← he2] at hguard
          have h1 := hok2.2.1
          have h2 := hok2.2.2.2
          simp only [not_or, not_lt, not_le] at hguard
          omega
        -- The fold preserves well-formedness and the size.
        refine foldl_preserve_pair
          (fun b2 => BufferWF b2 ∧ b2.size = b.size) styled _ ?_
          (b, 0) ⟨hwf, rfl⟩
        · intro acc sg hP
          by_cases ht : sg.content = "\t"
          · rw [if_pos ht]
            refine foldl_preserve
              (fun b2 => BufferWF b2 ∧ b2.size = b.size) _ _ ?_ acc.1 hP
            intro b2 dx hb2
            obtain ⟨h1, h2, _, _⟩ := writeGrapheme_WF b2 xrange _ _ 1 " "
              sg.style hb2.1 (by rw [hb2.2]; exact hy)
              hxr0 (by rw [hb2.2]; exact hxr1)
            exact ⟨h1, by rw [h2, hb2.2]⟩
          · rw [if_neg ht]
            by_cases hw : wfun sg.content acc.2 > 0
            · rw [if_pos hw]
              obtain ⟨h1, h2, _, _⟩ := writeGrapheme_WF acc.1 xrange _ _ _
                sg.content sg.style hP.1 (by rw [hP.2]; exact hy)
                hxr0 (by rw [hP.2]; exact hxr1)
              exact ⟨h1, by rw [h2, hP.2]⟩
            · rw [if_neg hw]
              exact hP

/-- The default (empty) buffer is well-formed. -/
theorem dflt_WF : BufferWF Buffer.dflt :=
  ⟨rfl, fun f hf => absurd hf (List.not_mem_nil f),
    fun y hy => absurd hy (Nat.not_lt_zero y)⟩

/-- A freshly filled buffer (all cells default, empty stack) is
well-formed. -/
theorem replicate_WF (s : Size) (c : Option Pos) :
    BufferWF { size := s, data := List.replicate (s.width * s.height) Cell.dflt,
               cursor := c, stack := [] } := by
  refine ⟨by simp, fun f hf => absurd hf (List.not_mem_nil f), ?_⟩
  intro y hy x hx
  have hatt : ∀ u y2, (Buffer.att
      { size := s, data := List.replicate (s.width * s.height) Cell.dflt,
        cursor := c, stack := [] } u y2) = Cell.dflt := by
    intro u y2
    show (List.replicate (s.width * s.height) Cell.dflt).getD _ Cell.dflt =
      Cell.dflt
    rw [List.getD_eq_getElem?_getD, List.getElem?_replicate]
    split <;> rfl
  have hx2 : x < s.width := hx
  refine ⟨?_, ?_, ?_, ?_⟩
  · rw [hatt]; decide
  · rw [hatt]; exact Nat.zero_le x
  · rw [hatt]; show x - 0 + 1 ≤ s.width; omega
  · intro j hj
    rw [hatt] at hj ⊢
    rw [hatt]
    have hj0 : j = 0 := by
      have : (Cell.dflt).width = 1 := rfl
      omega
    subst hj0
    rfl

/-- `Buffer::resize` always yields a well-formed buffer (using only the old
length invariant when the size is unchanged). -/
theorem resize_WF (b : Buffer) (s : Size) (hwf : BufferWF b) :
    BufferWF (b.resize s) := by
  unfold Buffer.resize
  by_cases he : s = b.size
  · rw [if_pos he, hwf.1]
    exact replicate_WF b.size none
  · rw [if_neg he]
    exact replicate_WF s none

/-- An area produced by `intersect_areas` lies inside the first argument
area. -/
theorem intersectAreas_sub (aS : Pos) (aZ : Size) (bS : Pos) (bZ : Size)
    (r : Pos × Size)
    (h : StackFrame.intersectAreas aS aZ bS bZ = some r) :
    aS.x ≤ r.1.x ∧ aS.y ≤ r.1.y ∧
    r.1.x + (r.2.width : Int) ≤ aS.x + (aZ.width : Int) ∧
    r.1.y + (r.2.height : Int) ≤ aS.y + (aZ.height : Int) := by
  unfold StackFrame.intersectAreas at h
  simp only [Pos.addSize] at h
  split at h
  · injection h with h2
    subst h2
    next hc =>
      obtain ⟨hcx, hcy⟩ := hc
      refine ⟨le_max_left _ _, le_max_left _ _, ?_, ?_⟩
      · show max aS.x bS.x + ((min (aS.x + (aZ.width : Int)) (bS.x +
          (bZ.width : Int)) - max aS.x bS.x).toNat : Int) ≤ _
        omega
      · show max aS.y bS.y + ((min (aS.y + (aZ.height : Int)) (bS.y +
          (bZ.height : Int)) - max aS.y bS.y).toNat : Int) ≤ _
        omega
  · cases h

/-- `Buffer::push` preserves well-formedness: the pushed frame's drawable
area is the intersection with the parent's, hence in-bounds. -/
theorem push_WF (b : Buffer) (pos : Pos) (size : Size) (hwf : BufferWF b) :
    BufferWF (b.push pos size) := by
  obtain ⟨h1, h2, h3⟩ := hwf
  refine ⟨h1, ?_, h3⟩
  intro f hf
  rw [FrameOk_congr (show (b.push pos size).size = b.size from rfl) f]
  have hf2 : f ∈ b.currentFrame.thenFrame pos size :: b.stack := hf
  rcases List.mem_cons.mp hf2 with rfl | hmem
  · have hcf := currentFrame_ok b h2
    unfold StackFrame.thenFrame
    cases hda : b.currentFrame.drawable_area with
    | none => simp [FrameOk]
    | some a =>
        simp only [Option.some_bind]
        cases hi : StackFrame.intersectAreas a.1 a.2
            (b.currentFrame.localToGlobal pos) size with
        | none => simp [FrameOk]
        | some r =>
            have hsub := intersectAreas_sub _ _ _ _ r hi
            unfold FrameOk at hcf
            rw [hda] at hcf
            simp only [Bool.and_eq_true, decide_eq_true_eq] at hcf
            simp only [FrameOk, Bool.and_eq_true, decide_eq_true_eq]
            obtain ⟨⟨⟨c1, c2⟩, c3⟩, c4⟩ := hcf
            obtain ⟨s1, s2, s3, s4⟩ := hsub
            exact ⟨⟨⟨by omega, by omega⟩, by omega⟩, by omega⟩
  · exact h2 f hmem

/-- `Buffer::pop` preserves well-formedness. -/
theorem pop_WF (b : Buffer) (hwf : BufferWF b) : BufferWF b.pop := by
  obtain ⟨h1, h2, h3⟩ := hwf
  exact ⟨h1, fun f hf => h2 f (List.tail_subset _ hf), h3⟩

/-- `Buffer::set_cursor` preserves well-formedness. -/
theorem setCursor_WF (b : Buffer) (pos : Option Pos) (hwf : BufferWF b) :
    BufferWF (b.setCursor pos) :=
  hwf

/-- Every reachable buffer is well-formed. -/
theorem reachable_WF (b : Buffer) (h : Reachable b) : BufferWF b := by
  induction h with
  | fresh => exact dflt_WF
  | resize b s _ ih => exact resize_WF b s ih
  | push b pos size _ ih => exact push_WF b pos size ih
  | pop b _ ih => exact pop_WF b ih
  | set_cursor b pos _ ih => exact setCursor_WF b pos ih
  | write b wfun pos styled _ ih => exact (write_WF b wfun pos styled ih).1

/-- The `Cells` iterator is monotone in fuel: a successful run stays
successful (with the same output) with more fuel. -/
theorem cellsGo_mono (b : Buffer) :
    ∀ f1 f2, f1 ≤ f2 → ∀ x y l, b.cellsGo x y f1 = some l →
      b.cellsGo x y f2 = some l := by
  intro f1
  induction f1 with
  | zero =>
      intro f2 _ x y l h
      exact absurd h (by simp [Buffer.cellsGo])
  | succ n ih =>
      intro f2 hf x y l h
      obtain ⟨m, rfl⟩ : ∃ m, f2 = m + 1 := ⟨f2 - 1, by omega⟩
      simp only [Buffer.cellsGo] at h ⊢
      by_cases hy : y ≥ b.size.height
      · rw [if_pos hy] at h ⊢
        exact h
      · rw [if_neg hy] at h ⊢
        by_cases hc : (b.att x y).offset = 0 ∧ 0 < (b.att x y).width
        · rw [if_pos hc] at h ⊢
          by_cases hx2 : x + (b.att x y).width ≥ b.size.width
          · rw [if_pos hx2] at h ⊢
            obtain ⟨rest, hrest, hl⟩ := Option.map_eq_some'.mp h
            rw [ih m (by omega) _ _ _ hrest, Option.map_some', hl]
          · rw [if_neg hx2] at h ⊢
            obtain ⟨rest, hrest, hl⟩ := Option.map_eq_some'.mp h
            rw [ih m (by omega) _ _ _ hrest, Option.map_some', hl]
        · rw [if_neg hc] at h
          cases h

/-- In a well-formed buffer, the cell just past a head's span is itself a
head: spans tile each row. -/
theorem head_next (b : Buffer) (hwf : BufferWF b) (y : Nat)
    (hy : y < b.size.height) (x : Nat) (hx : x < b.size.width)
    (hh : (b.att x y).offset = 0)
    (hlt : x + (b.att x y).width < b.size.width) :
    (b.att (x + (b.att x y).width) y).offset = 0 := by
  have h1 := hwf.2.2 y hy x hx
  have h2 := hwf.2.2 y hy (x + (b.att x y).width) (by omega)
  by_contra hno
  have hw1 : 0 < (b.att x y).width := by
    have := h1.1
    omega
  have hle2 := h2.2.1
  have hlt2 := h2.1
  have hint := span_intersect_eq b y x (x + (b.att x y).width)
    (x + (b.att x y).width - 1) h1 h2 ⟨by omega, by omega⟩ ⟨by omega, by omega⟩
  obtain ⟨ha, hb⟩ := hint
  omega

/-- Filtering a strictly sorted list at threshold `x`, where `x` is present
and nothing lies strictly between `x` and `x + wd`, peels off exactly `x`. -/
theorem filter_ge_cons (L : List Nat) (x wd : Nat)
    (hp : L.Pairwise (· < ·)) (hx : x ∈ L) (hwd : 0 < wd)
    (hnone : ∀ u ∈ L, x < u → x + wd ≤ u) :
    L.filter (fun u => decide (x ≤ u)) =
      x :: L.filter (fun u => decide (x + wd ≤ u)) := by
  induction L with
  | nil => cases hx
  | cons a t ih =>
      rcases List.mem_cons.mp hx with rfl | hmem
      · rw [List.filter_cons_of_pos (by simp),
          List.filter_cons_of_neg (by simp; omega)]
        congr 1
        apply List.filter_congr
        intro u hu
        have hau : x < u := (List.pairwise_cons.mp hp).1 u hu
        have h2 := hnone u (List.mem_cons_of_mem x hu) hau
        have h1 : x ≤ u := by omega
        simp [h1, h2]
      · have hax : a < x := (List.pairwise_cons.mp hp).1 x hmem
        rw [List.filter_cons_of_neg (by simp; omega),
          List.filter_cons_of_neg (by simp; omega)]
        exact ih (List.pairwise_cons.mp hp).2 hmem
          (fun u hu hxu => hnone u (List.mem_cons_of_mem a hu) hxu)

/-- Heads from column 0 are all the heads of the row. -/
theorem rowHeadsFrom_zero (b : Buffer) (y : Nat) :
    rowHeadsFrom b y 0 = rowHeads b y := by
  unfold rowHeadsFrom rowHeads
  congr 1
  apply List.filter_eq_self.mpr
  intro u _
  simp

/-- No heads remain at or past the row width. -/
theorem rowHeadsFrom_end (b : Buffer) (y x : Nat)
    (hx : b.size.width ≤ x) : rowHeadsFrom b y x = [] := by
  unfold rowHeadsFrom
  rw [List.filter_eq_nil_iff.mpr]
  · rfl
  · intro u hu
    have h2 : u < b.size.width :=
      List.mem_range.mp (List.mem_filter.mp hu).1
    simp
    omega

/-- Peeling the head at column `x` off the remaining heads of a row. -/
theorem rowHeadsFrom_head (b : Buffer) (hwf : BufferWF b) (y : Nat)
    (hy : y < b.size.height) (x : Nat) (hx : x < b.size.width)
    (hh : (b.att x y).offset = 0) :
    rowHeadsFrom b y x =
      (x, y, b.att x y) :: rowHeadsFrom b y (x + (b.att x y).width) := by
  have hinv := hwf.2.2 y hy x hx
  have hsorted : (((List.range b.size.width).filter
      fun u => (b.att u y).offset = 0)).Pairwise (· < ·) :=
    (List.pairwise_lt_range _).filter _
  have hmem : x ∈ ((List.range b.size.width).filter
      fun u => (b.att u y).offset = 0) :=
    List.mem_filter.mpr ⟨List.mem_range.mpr hx, by simp [hh]⟩
  have hwpos : 0 < (b.att x y).width := by
    have := hinv.1
    omega
  have hnone : ∀ u ∈ ((List.range b.size.width).filter
      fun u => (b.att u y).offset = 0), x < u →
      x + (b.att x y).width ≤ u := by
    intro u hu hxu
    obtain ⟨hur, huo⟩ := List.mem_filter.mp hu
    have huo2 : (b.att u y).offset = 0 := by simpa using huo
    by_contra hno
    have he := hinv.2.2.2 (u - x) (by omega)
    rw [hh, show x - 0 + (u - x) = u from by omega] at he
    have : (b.att u y).offset = u - x := by rw [he]
    omega
  unfold rowHeadsFrom
  rw [filter_ge_cons _ x (b.att x y).width hsorted hmem hwpos hnone,
    List.map_cons]

/-- One unfolding step of the `Cells` iteration. -/
theorem cellsGo_succ (b : Buffer) (x y fuel : Nat) :
    b.cellsGo x y (fuel + 1) =
      if y ≥ b.size.height then some []
      else if (b.att x y).offset = 0 ∧ 0 < (b.att x y).width then
        (if x + (b.att x y).width ≥ b.size.width then
          b.cellsGo 0 (y + 1) fuel
         else b.cellsGo (x + (b.att x y).width) y fuel).map
          fun rest => (x, y, b.att x y) :: rest
      else none := rfl

/-- One full row of the `Cells` iteration, in a well-formed buffer. -/
theorem cellsGo_row (b : Buffer) (hwf : BufferWF b) (y : Nat)
    (hy : y < b.size.height) :
    ∀ k x fuel l, b.size.width - x ≤ k → x < b.size.width →
      (b.att x y).offset = 0 →
      b.cellsGo 0 (y + 1) fuel = some l →
      b.cellsGo x y (fuel + k + 1) = some (rowHeadsFrom b y x ++ l) := by
  intro k
  induction k with
  | zero =>
      intro x fuel l hk hx _ _
      exact absurd hx (by omega)
  | succ k ih =>
      intro x fuel l hk hx hh hnext
      have hinv := hwf.2.2 y hy x hx
      have hw1 : 0 < (b.att x y).width := by
        have := hinv.1
        omega
      have hx2w : x + (b.att x y).width ≤ b.size.width := by
        have := hinv.2.2.1
        omega
      rw [cellsGo_succ b x y (fuel + (k + 1))]
      rw [if_neg (by omega), if_pos ⟨hh, hw1⟩]
      by_cases hend : x + (b.att x y).width ≥ b.size.width
      · rw [if_pos hend]
        rw [cellsGo_mono b fuel (fuel + (k + 1)) (by omega) 0 (y + 1) l hnext]
        rw [Option.map_some']
        rw [rowHeadsFrom_head b hwf y hy x hx hh,
          rowHeadsFrom_end b y _ (by omega)]
        rfl
      · rw [if_neg hend]
        have hh2 := head_next b hwf y hy x hx hh (by omega)
        have hih := ih (x + (b.att x y).width) fuel l (by omega) (by omega)
          hh2 hnext
        rw [show b.cellsGo (x + (b.att x y).width) y (fuel + (k + 1)) =
          some (rowHeadsFrom b y (x + (b.att x y).width) ++ l) from hih]
        rw [Option.map_some']
        rw [rowHeadsFrom_head b hwf y hy x hx hh]
        rfl

/-- Past the last row there are no heads left. -/
theorem specCellsFrom_end (b : Buffer) (y : Nat)
    (hy : b.size.height ≤ y) : specCellsFrom b y = [] := by
  unfold specCellsFrom
  rw [show b.size.height - y = 0 from by omega]
  rfl

/-- Peeling one row off the remaining heads. -/
theorem specCellsFrom_step (b : Buffer) (y : Nat)
    (hy : y < b.size.height) :
    specCellsFrom b y = rowHeads b y ++ specCellsFrom b (y + 1) := by
  unfold specCellsFrom
  rw [show b.size.height - y = (b.size.height - (y + 1)) + 1 from by omega]
  rw [List.range'_succ, List.map_cons, List.flatten_cons]

/-- The heads from row 0 are all the heads. -/
theorem specCellsFrom_zero (b : Buffer) :
    specCellsFrom b 0 = specCells b := by
  unfold specCellsFrom specCells
  rw [Nat.sub_zero, ← List.range_eq_range' b.size.height]

/-- The full `Cells` iteration from any starting row, with explicit fuel
accounting. -/
theorem cellsGo_rows (b : Buffer) (hwf : BufferWF b)
    (hw : 0 < b.size.width) :
    ∀ m y, b.size.height - y ≤ m →
      ∃ fuel, fuel ≤ m * (b.size.width + 1) + 1 ∧
        b.cellsGo 0 y fuel = some (specCellsFrom b y) := by
  intro m
  induction m with
  | zero =>
      intro y hm
      refine ⟨1, by omega, ?_⟩
      simp only [Buffer.cellsGo]
      rw [if_pos (by omega), specCellsFrom_end b y (by omega)]
  | succ m ih =>
      intro y hm
      by_cases hy : y < b.size.height
      · obtain ⟨fuel, hfb, hfv⟩ := ih (y + 1) (by omega)
        have hh0 : (b.att 0 y).offset = 0 := by
          have := (hwf.2.2 y hy 0 hw).2.1
          omega
        have hrow := cellsGo_row b hwf y hy b.size.width 0 fuel _
          (by omega) hw hh0 hfv
        refine ⟨fuel + b.size.width + 1, ?_, ?_⟩
        · have hdist : (m + 1) * (b.size.width + 1) =
            m * (b.size.width + 1) + (b.size.width + 1) := by ring
          omega
        · rw [specCellsFrom_step b y hy, ← rowHeadsFrom_zero]
          exact hrow
      · refine ⟨1, by omega, ?_⟩
        simp only [Buffer.cellsGo]
        rw [if_pos (by omega), specCellsFrom_end b y (by omega)]

/-- In the degenerate width-0 case the iteration still terminates (the
out-of-range default cells are width-1 heads). -/
theorem cellsGo_w0 (b : Buffer) (hw : b.size.width = 0)
    (hlen : b.data.length = b.size.width * b.size.height) :
    ∀ m y, b.size.height - y ≤ m →
      ∃ l, b.cellsGo 0 y (m + 1) = some l := by
  have hdata : b.data = [] :=
    List.eq_nil_of_length_eq_zero (by rw [hlen, hw, Nat.zero_mul])
  intro m
  induction m with
  | zero =>
      intro y hm
      refine ⟨[], ?_⟩
      simp only [Buffer.cellsGo]
      rw [if_pos (by omega)]
  | succ m ih =>
      intro y hm
      by_cases hy : y < b.size.height
      · have hatt : b.att 0 y = Cell.dflt := by
          unfold Buffer.att
          rw [hdata]
          rfl
        obtain ⟨l, hl⟩ := ih (y + 1) (by omega)
        refine ⟨(0, y, Cell.dflt) :: l, ?_⟩
        rw [cellsGo_succ b 0 y (m + 1)]
        rw [if_neg (by omega), if_pos (by rw [hatt]; exact ⟨rfl, by decide⟩)]
        rw [if_pos (by rw [hatt, hw]; exact Nat.zero_le 1)]
        rw [hl, Option.map_some', hatt]
      · refine ⟨[], ?_⟩
        simp only [Buffer.cellsGo]
        rw [if_pos (by omega)]

/-- On a well-formed nondegenerate buffer, `cells` yields exactly the head
cells in row-major order. -/
theorem cells_eq_specCells (b : Buffer) (hwf : BufferWF b)
    (hnd : 0 < b.size.width ∨ b.size.height = 0) :
    b.cells = some (specCells b) := by
  unfold Buffer.cells
  rcases hnd with hw | hh
  · obtain ⟨fuel, hfb, hfv⟩ := cellsGo_rows b hwf hw b.size.height 0
      (by omega)
    have hle : fuel ≤ b.size.width * b.size.height + b.size.height + 1 := by
      have hdist : b.size.height * (b.size.width + 1) =
        b.size.width * b.size.height + b.size.height := by ring
      omega
    rw [cellsGo_mono b fuel _ hle 0 0 _ hfv, specCellsFrom_zero]
  · simp only [Buffer.cellsGo]
    rw [if_pos (by omega)]
    unfold specCells
    rw [hh]
    rfl

/-- On every well-formed buffer, the `Cells` iteration succeeds: the
`offset == 0` assertion never fires. -/
theorem cells_isSome (b : Buffer) (hwf : BufferWF b) :
    (b.cells).isSome = true := by
  by_cases hw : 0 < b.size.width
  · rw [cells_eq_specCells b hwf (Or.inl hw)]
    rfl
  · by_cases hh : b.size.height = 0
    · rw [cells_eq_specCells b hwf (Or.inr hh)]
      rfl
    · have hw0 : b.size.width = 0 := by omega
      obtain ⟨l, hl⟩ := cellsGo_w0 b hw0 hwf.1 b.size.height 0 (by omega)
      unfold Buffer.cells
      rw [cellsGo_mono b (b.size.height + 1) _ (by omega) 0 0 l hl]
      rfl

/-- C1: grapheme-span invariant with overwrite erasure.  Every buffer
reachable from a fresh buffer by `resize`, `push`, `pop`, `set_cursor` and
`write` operations is well-formed: every occupied span has the same content
and style in all its cells with `offset` increasing by exactly 1 per column
from 0 at the head (`SpanInvAt`, inside `BufferWF`), and consequently the
`offset == 0` assertion of the `cells()` iterator never fails.  Moreover,
writing a 2-column grapheme at column 5 of a blank 10×1 row and then a
1-column grapheme at column 5 leaves column 6 blank (a width-1 head with the
default content, not a dangling continuation cell). -/
theorem C1_span_invariant_overwrite_erasure :
    (∀ b, Reachable b → BufferWF b ∧ (b.cells).isSome = true) ∧
    exWideWritten.att 5 0 =
      { content := "W", style := fgStyle, width := 2, offset := 0 } ∧
    exWideWritten.att 6 0 =
      { content := "W", style := fgStyle, width := 2, offset := 1 } ∧
    exOverwritten.att 5 0 =
      { content := "x", style := bgStyle, width := 1, offset := 0 } ∧
    exOverwritten.att 6 0 = { Cell.dflt with style := fgStyle } := by
  refine ⟨fun b h => ⟨reachable_WF b h, cells_isSome b (reachable_WF b h)⟩,
    ?_, ?_, ?_, ?_⟩ <;> decide

/-- Witness for C1 at a concrete reachable buffer: a blank 10×1 row with a
wide grapheme written and then overwritten. -/
theorem C1_witness :
    BufferWF exOverwritten ∧ (exOverwritten.cells).isSome = true :=
  C1_span_invariant_overwrite_erasure.1 exOverwritten
    (Reachable.write _ exWidth ⟨5, 0⟩ [⟨"x", bgStyle⟩]
      (Reachable.write _ exWidth ⟨5, 0⟩ [⟨"W", fgStyle⟩]
        (Reachable.resize Buffer.dflt ⟨10, 1⟩ Reachable.fresh)))

/-- Filtering a duplicate-free list whose predicate holds at exactly one
element yields that singleton. -/
theorem filter_singleton_nodup {α : Type} [DecidableEq α] (L : List α)
    (p : α → Bool) (a : α) (hnd : L.Nodup) (ha : a ∈ L)
    (hpa : p a = true) (hother : ∀ x ∈ L, ¬ x = a → p x = false) :
    L.filter p = [a] := by
  induction L with
  | nil => cases ha
  | cons c t ih =>
      obtain ⟨hnd1, hnd2⟩ := List.nodup_cons.mp hnd
      by_cases hca : c = a
      · subst hca
        rw [List.filter_cons_of_pos hpa]
        congr 1
        rw [List.filter_eq_nil_iff]
        intro u hu
        have hne : ¬ u = c := fun he => hnd1 (he ▸ hu)
        simp [hother u (List.mem_cons_of_mem c hu) hne]
      · rw [List.filter_cons_of_neg
          (by simp [hother c (List.mem_cons_self c t) hca])]
        refine ih hnd2 ?_
          (fun x hx hxa => hother x (List.mem_cons_of_mem c hx) hxa)
        rcases List.mem_cons.mp ha with he | h
        · exact absurd he.symm hca
        · exact h

/-- The heads of one row are pairwise distinct. -/
theorem rowHeads_nodup (b : Buffer) (y : Nat) : (rowHeads b y).Nodup := by
  unfold rowHeads
  refine List.Nodup.map ?_ ((List.nodup_range _).filter _)
  intro u v he
  exact congrArg Prod.fst he

/-- The head cells of a buffer are pairwise distinct. -/
theorem specCells_nodup (b : Buffer) : (specCells b).Nodup := by
  unfold specCells
  rw [List.nodup_flatten]
  constructor
  · intro s hs
    obtain ⟨y, _, rfl⟩ := List.mem_map.mp hs
    exact rowHeads_nodup b y
  · rw [List.pairwise_map]
    refine (List.pairwise_lt_range _).imp ?_
    intro y1 y2 hlt t ht1 ht2
    unfold rowHeads at ht1 ht2
    obtain ⟨u1, _, he1⟩ := List.mem_map.mp ht1
    obtain ⟨u2, _, he2⟩ := List.mem_map.mp ht2
    have h1 : t.2.1 = y1 := by rw [← he1]
    have h2 : t.2.1 = y2 := by rw [← he2]
    omega

/-- An in-range head cell is listed among the buffer's head cells. -/
theorem mem_specCells_of (b : Buffer) (x y : Nat) (hx : x < b.size.width)
    (hy : y < b.size.height) (hh : (b.att x y).offset = 0) :
    (x, y, b.att x y) ∈ specCells b := by
  unfold specCells
  rw [List.mem_flatten]
  refine ⟨rowHeads b y, List.mem_map.mpr ⟨y, List.mem_range.mpr hy, rfl⟩, ?_⟩
  unfold rowHeads
  exact List.mem_map.mpr
    ⟨x, List.mem_filter.mpr ⟨List.mem_range.mpr hx, by simp [hh]⟩, rfl⟩

/-- Every listed head cell is in range and holds its buffer cell. -/
theorem specCells_shape (b : Buffer) (t : Nat × Nat × Cell)
    (ht : t ∈ specCells b) :
    t.1 < b.size.width ∧ t.2.1 < b.size.height ∧ t.2.2 = b.att t.1 t.2.1 := by
  unfold specCells at ht
  rw [List.mem_flatten] at ht
  obtain ⟨s, hs, hts⟩ := ht
  obtain ⟨y, hyr, rfl⟩ := List.mem_map.mp hs
  unfold rowHeads at hts
  obtain ⟨u, hu, he⟩ := List.mem_map.mp hts
  obtain ⟨hur, _⟩ := List.mem_filter.mp hu
  subst he
  exact ⟨List.mem_range.mp hur, List.mem_range.mp hyr, rfl⟩

/-- C2: diff minimality of `present()`.  For well-formed buffers of equal
size (nondegenerate: positive width or no rows), the diff step emits exactly
one move+print command per head cell of `current` that differs from the cell
at the same coordinates in `previous`, in row-major order, and nothing for
equal cells; in particular, if the buffers differ in exactly one in-range
cell, exactly one command is emitted, for that cell. -/
theorem C2_diff_minimality (prev cur : Buffer)
    (hp : BufferWF prev) (hc : BufferWF cur) (hs : prev.size = cur.size)
    (hnd : 0 < cur.size.width ∨ cur.size.height = 0) :
    drawDifferences prev cur =
      some (((specCells cur).filter fun t =>
        ¬ prev.att t.1 t.2.1 = t.2.2).map fun t =>
          ({ x := t.1, y := t.2.1, content := t.2.2.content,
             style := t.2.2.style } : DrawCommand)) ∧
    (∀ x0 y0, x0 < cur.size.width → y0 < cur.size.height →
      ¬ prev.att x0 y0 = cur.att x0 y0 →
      (∀ x, x < cur.size.width → ∀ y, y < cur.size.height →
        ¬ (x = x0 ∧ y = y0) → prev.att x y = cur.att x y) →
      drawDifferences prev cur =
        some [{ x := x0, y := y0, content := (cur.att x0 y0).content,
                style := (cur.att x0 y0).style }]) := by
  have hcells := cells_eq_specCells cur hc hnd
  have hpart1 : drawDifferences prev cur =
      some (((specCells cur).filter fun t =>
        ¬ prev.att t.1 t.2.1 = t.2.2).map fun t =>
          ({ x := t.1, y := t.2.1, content := t.2.2.content,
             style := t.2.2.style } : DrawCommand)) := by
    unfold drawDifferences
    rw [hcells, Option.map_some']
  refine ⟨hpart1, ?_⟩
  intro x0 y0 hx0 hy0 hdiff hothers
  -- The differing cell is necessarily a head cell of `cur`.
  have hhead : (cur.att x0 y0).offset = 0 := by
    by_contra hno
    have hinvc := hc.2.2 y0 hy0 x0 hx0
    have hoff_le := hinvc.2.1
    have hoff_lt := hinvc.1
    have hhc : cur.att (x0 - (cur.att x0 y0).offset) y0 =
        { cur.att x0 y0 with offset := 0 } := by
      have := hinvc.2.2.2 0 (by omega)
      rwa [Nat.add_zero] at this
    have hpe : prev.att (x0 - (cur.att x0 y0).offset) y0 =
        cur.att (x0 - (cur.att x0 y0).offset) y0 :=
      hothers (x0 - (cur.att x0 y0).offset) (by omega) y0 hy0 (by omega)
    have hinvp := hp.2.2 y0 (by rw [hs]; exact hy0)
      (x0 - (cur.att x0 y0).offset) (by rw [hs]; omega)
    have hpoff : (prev.att (x0 - (cur.att x0 y0).offset) y0).offset = 0 := by
      rw [hpe, hhc]
    have hj := hinvp.2.2.2 (cur.att x0 y0).offset
      (by rw [hpe, hhc]; exact hoff_lt)
    rw [hpoff, Nat.sub_zero,
      show x0 - (cur.att x0 y0).offset + (cur.att x0 y0).offset = x0 from
        by omega] at hj
    rw [hpe, hhc] at hj
    exact hdiff (by rw [hj])
  have hsing : (specCells cur).filter (fun t =>
      ¬ prev.att t.1 t.2.1 = t.2.2) = [(x0, y0, cur.att x0 y0)] := by
    refine filter_singleton_nodup (specCells cur) _ (x0, y0, cur.att x0 y0)
      (specCells_nodup cur) (mem_specCells_of cur x0 y0 hx0 hy0 hhead)
      (by simp [hdiff]) ?_
    intro t ht hne
    obtain ⟨htw, hth, hatt⟩ := specCells_shape cur t ht
    have heq : prev.att t.1 t.2.1 = cur.att t.1 t.2.1 := by
      apply hothers t.1 htw t.2.1 hth
      rintro ⟨he1, he2⟩
      apply hne
      have hteta : t = (t.1, t.2.1, t.2.2) := rfl
      rw [hteta, hatt, he1, he2]
    simp [heq, hatt]
  rw [hpart1, hsing]
  rfl

/-- Witness for C2: a blank 10×1 row against the same row with `"x"` at
column 5 produces exactly one draw command. -/
theorem C2_witness :
    drawDifferences blankRow exXWritten =
      some [{ x := 5, y := 0, content := "x", style := bgStyle }] :=
  (C2_diff_minimality blankRow exXWritten (by decide) (by decide) (by decide)
    (by decide)).2 5 0 (by decide) (by decide) (by decide) (by decide)

/-- C5 amended: style handling of `write_grapheme` and `erase`.  Erasing
preserves each affected cell's existing style exactly, and a fully visible
write stores exactly the new grapheme's style in every cell of its span; no
`Style::cover` merge of new over old styles takes place in either
operation. -/
theorem C5_style_on_write_and_erase :
    (∀ (b : Buffer) (x y u v : Nat),
      ((b.erase x y).att u v).style = (b.att u v).style) ∧
    (∀ (b : Buffer) (xr : Int × Int) (x : Int) (y width : Nat) (g : String)
      (st : ContentStyle),
      y < b.size.height →
      b.data.length = b.size.width * b.size.height →
      0 ≤ xr.1 → xr.2 ≤ (b.size.width : Int) →
      (∀ u, u < b.size.width → SpanInvAt b u y) →
      xr.1 ≤ x → x + (width : Int) - 1 ≤ xr.2 - 1 → 0 < width →
      ∀ o, o < width →
        ((b.writeGrapheme xr x y width g st).att (x.toNat + o) y).style =
          st) := by
  constructor
  · intro b x y u v
    unfold Buffer.att Buffer.index
    rw [(erase_frame b x y).1]
    exact erase_style b x y _
  · intro b xr x y width g st hy hlen h0 h1 hrow hf1 hf2 hw o ho
    have hc := (writeGrapheme_spec b xr x y width g st hy hlen h0 h1
      hrow).2.2 hf1 hf2 hw o ho
    rw [hc]

/-- Witness for C5: erasing the wide grapheme's continuation cell keeps its
style, and a fully visible write of `"x"` stores exactly the new style. -/
theorem C5_witness :
    ((exWideWritten.erase 6 0).att 6 0).style = fgStyle ∧
    ((blankRow.writeGrapheme (0, 10) 5 0 1 "x" bgStyle).att 5 0).style =
      bgStyle := by
  constructor
  · rw [C5_style_on_write_and_erase.1 exWideWritten 6 0 6 0]
    decide
  · exact C5_style_on_write_and_erase.2 blankRow (0, 10) 5 0 1 "x" bgStyle
      (by decide) (by decide) (by decide) (by decide) (by decide)
      (by decide) (by decide) (by decide) 0 (by decide)

/-- `total_size` with no saturation is the plain sum (equal sizes). -/
theorem total_size_const (segs : List Segment) (m : Nat)
    (hall : ∀ s ∈ segs, s.major = m)
    (hb : segs.length * m ≤ 65535) :
    total_size segs = segs.length * m := by
  have main : ∀ (l : List Segment) (t : Nat), (∀ s ∈ l, s.major = m) →
      t + l.length * m ≤ 65535 →
      l.foldl (fun t s => satAdd t s.major) t = t + l.length * m := by
    intro l
    induction l with
    | nil => intro t _ _; simp
    | cons a rest ih =>
        intro t hall2 hb2
        have ham : a.major = m := hall2 a (List.mem_cons_self a rest)
        have hsm : (rest.length + 1) * m = rest.length * m + m := by ring
        rw [List.length_cons] at hb2
        rw [List.foldl_cons,
          show satAdd t a.major = t + m by unfold satAdd; rw [ham]; omega,
          ih (t + m) (fun s hs => hall2 s (List.mem_cons_of_mem a hs))
            (by omega)]
        rw [List.length_cons]
        omega
  have := main segs 0 hall (by omega)
  unfold total_size
  rw [this, Nat.zero_add]

/-- `total_weight` with equal weights. -/
theorem total_weight_const (segs : List Segment) (w : ℚ)
    (hall : ∀ s ∈ segs, s.weight = w) :
    total_weight segs = (segs.length : ℚ) * w := by
  unfold total_weight
  induction segs with
  | nil => simp
  | cons a t ih =>
      rw [List.map_cons, List.sum_cons,
        ih (fun s hs => hall s (List.mem_cons_of_mem a hs)),
        hall a (List.mem_cons_self a t), List.length_cons]
      push_cast
      ring

/-- The first retain of `grow`/`shrink` keeps everything when every segment
has the flag. -/
theorem retainFlex_all (flag : Segment → Bool) (l : List (Nat × Segment))
    (av : Nat) (h : ∀ p ∈ l, flag p.2 = true) :
    retainFlex flag l av = (l, [], av) := by
  have main : ∀ (l2 : List (Nat × Segment))
      (acc : List (Nat × Segment) × List (Nat × Segment) × Nat),
      (∀ p ∈ l2, flag p.2 = true) →
      l2.foldl (fun acc p =>
        if flag p.2 then (acc.1 ++ [p], acc.2.1, acc.2.2)
        else (acc.1, acc.2.1 ++ [p], acc.2.2 - p.2.major)) acc =
      (acc.1 ++ l2, acc.2.1, acc.2.2) := by
    intro l2
    induction l2 with
    | nil => intro acc _; simp
    | cons a t ih =>
        intro acc hall
        rw [List.foldl_cons, if_pos (hall a (List.mem_cons_self a t)),
          ih _ (fun p hp => hall p (List.mem_cons_of_mem a hp))]
        simp
  unfold retainFlex
  rw [main l ([], [], av) h]
  simp

/-- A pass of the removal loop that keeps every segment removes nothing. -/
theorem loopPass_all (keep : Segment → ℚ → Nat → Bool)
    (l : List (Nat × Segment)) (av : Nat)
    (htw : ¬ total_weight (l.map (·.2)) ≤ 0)
    (hkeep : ∀ p ∈ l, keep p.2 (total_weight (l.map (·.2))) av = true) :
    loopPass keep l av = (l, [], 0) := by
  unfold loopPass
  have hrw : rewriteWeights l = l := by
    unfold rewriteWeights
    rw [if_neg htw]
  have hpw : passWeight l = total_weight (l.map (·.2)) := by
    unfold passWeight
    rw [if_neg htw]
  rw [hrw, hpw]
  rw [List.filter_eq_self.mpr (fun p hp => by simp [hkeep p hp]),
    List.filter_eq_nil_iff.mpr (fun p hp => by simp [hkeep p hp])]
  simp

/-- The removal loop exits on a pass that removes nothing. -/
theorem removalLoop_stable (keep : Segment → ℚ → Nat → Bool)
    (l : List (Nat × Segment)) (av : Nat)
    (h : loopPass keep l av = (l, [], 0)) :
    removalLoop keep l av = (l, av, []) := by
  unfold removalLoop
  simp only [removalLoopF]
  rw [h]
  simp

/-- Enumerating an enumeration pairs each entry with its own index. -/
theorem enum_enum {α : Type} (l : List α) :
    l.enum.enum = l.enum.map fun p => (p.1, p) := by
  apply List.ext_getElem
  · simp
  · intro i h1 h2
    simp [List.getElem_enum]

/-- The second component of an enumeration entry is a list member. -/
theorem snd_mem_of_mem_enum {α : Type} {l : List α} {p : Nat × α}
    (h : p ∈ l.enum) : p.2 ∈ l := by
  have := List.mem_map_of_mem Prod.snd h
  rwa [List.enum_map_snd] at this

/-- The first component of an enumeration entry is below the length. -/
theorem fst_lt_of_mem_enum {α : Type} {l : List α} {p : Nat × α}
    (h : p ∈ l.enum) : p.1 < l.length := by
  have := List.mem_map_of_mem Prod.fst h
  rw [List.enum_map_fst] at this
  exact List.mem_range.mp this

/-- Looking an index up in an index-preserving rewrite of an
index-duplicate-free list finds the rewritten entry. -/
theorem find?_map_eq {α : Type} (f : Nat × α → Nat × α)
    (hf : ∀ p, (f p).1 = p.1) :
    ∀ (l : List (Nat × α)) (p : Nat × α), (l.map Prod.fst).Nodup → p ∈ l →
      (l.map f).find? (fun u => u.1 = p.1) = some (f p) := by
  intro l
  induction l with
  | nil => intro p _ hp; cases hp
  | cons a t ih =>
      intro p hnd hp
      rw [List.map_cons] at hnd
      obtain ⟨hnd1, hnd2⟩ := List.nodup_cons.mp hnd
      rcases List.mem_cons.mp hp with rfl | hmem
      · rw [List.map_cons, List.find?_cons_of_pos _ (by simp [hf])]
      · have hne : ¬ a.1 = p.1 := by
          intro he
          exact hnd1 (he ▸ List.mem_map_of_mem Prod.fst hmem)
        rw [List.map_cons, List.find?_cons_of_neg _ (by simp [hf, hne])]
        exact ih p hnd2 hmem

/-- `applyUpdates` with an index-preserving update list produced from the
enumeration applies the update pointwise. -/
theorem applyUpdates_map (segs : List Segment)
    (g : Nat × Segment → Nat × Segment) (hg : ∀ p, (g p).1 = p.1) :
    applyUpdates segs (segs.enum.map g) =
      segs.enum.map fun p => (g p).2 := by
  unfold applyUpdates
  apply List.map_congr_left
  intro p hp
  rw [find?_map_eq g hg segs.enum p
    (by rw [List.enum_map_fst]; exact List.nodup_range _) hp]
  rfl

/-- Total weight of the segments carried by an enumeration, equal
weights. -/
theorem tw_enum_snd (segs : List Segment) (w : ℚ)
    (hall : ∀ s ∈ segs, s.weight = w) :
    total_weight (segs.enum.map (·.2)) = (segs.length : ℚ) * w := by
  have h1 : ∀ s ∈ segs.enum.map (·.2), s.weight = w := by
    intro s hs
    obtain ⟨p, hp, rfl⟩ := List.mem_map.mp hs
    exact hall p.2 (snd_mem_of_mem_enum hp)
  rw [total_weight_const _ w h1]
  simp

/-- The equal-weight allotment is `available / n`. -/
theorem allot_equal (n m k : Nat) (w : ℚ) (hw : 0 < w) (hn : 0 < n) :
    w / ((n : ℚ) * w) * ((n * m + k : ℕ) : ℚ) =
      ((n * m + k : ℕ) : ℚ) / (n : ℚ) := by
  have hw0 : w ≠ 0 := ne_of_gt hw
  have hn0 : (n : ℚ) ≠ 0 := Nat.cast_ne_zero.mpr (by omega)
  field_simp
  ring

/-- Floor of the equal allotment: `m`, or `m + 1` when `k = n`. -/
theorem floor_equal (n m k : Nat) (hn : 0 < n) (hkn : k ≤ n) :
    ⌊((n * m + k : ℕ) : ℚ) / (n : ℚ)⌋ =
      (m : ℤ) + (if k = n then 1 else 0) := by
  have hn0 : (0 : ℚ) < (n : ℚ) := by exact_mod_cast hn
  by_cases hk : k = n
  · rw [if_pos hk, hk]
    rw [show ((n * m + n : ℕ) : ℚ) / (n : ℚ) = ((m : ℚ) + 1) from by
      field_simp
      push_cast
      ring]
    rw [show ((m : ℚ) + 1) = (((m : ℤ) + 1 : ℤ) : ℚ) from by push_cast; ring]
    rw [Int.floor_intCast]
  · rw [if_neg hk, show (m : ℤ) + 0 = (m : ℤ) from by ring]
    refine Int.floor_eq_iff.mpr ⟨?_, ?_⟩
    · rw [le_div_iff hn0]
      push_cast
      have hk0 : (0 : ℚ) ≤ (k : ℚ) := by positivity
      nlinarith
    · rw [div_lt_iff hn0]
      push_cast
      have hkn2 : (k : ℚ) < (n : ℚ) := by exact_mod_cast (by omega : k < n)
      nlinarith

/-- `f32 as u16` is exact truncation in the representable range. -/
theorem toU16_small (z : ℤ) (h0 : 0 ≤ z) (h1 : z ≤ 65535) :
    toU16 z = z.toNat := by
  unfold toU16
  omega

/-- Sum of the sizes of index-tagged segments with one common size. -/
theorem sum_major_const (l : List (Nat × Segment)) (c : Nat)
    (h : ∀ p ∈ l, p.2.major = c) :
    (l.map fun p => p.2.major).sum = l.length * c := by
  induction l with
  | nil => simp
  | cons a t ih =>
      rw [List.map_cons, List.sum_cons,
        ih (fun p hp => h p (List.mem_cons_of_mem a hp)),
        h a (List.mem_cons_self a t), List.length_cons]
      ring

/-- `assignAllotments` in the equal-weight, equal-size case: every survivor
gets the common floor and the first `k` (in order) one extra cell. -/
theorem assign_equal (segs : List Segment) (m k : Nat) (w : ℚ) (hw : 0 < w)
    (hk1 : 1 ≤ k) (hk2 : k ≤ segs.length)
    (hall : ∀ s ∈ segs, s.major = m ∧ s.weight = w)
    (hav : segs.length * m + k ≤ 65535) :
    assignAllotments segs.enum (segs.length * m + k) =
      segs.enum.map fun p =>
        (p.1, { p.2 with major := if p.1 < k then m + 1 else m }) := by
  have hn : 0 < segs.length := by omega
  have hallE : ∀ p ∈ segs.enum, p.2.major = m ∧ p.2.weight = w :=
    fun p hp => hall p.2 (snd_mem_of_mem_enum hp)
  have htwE := tw_enum_snd segs w (fun s hs => (hall s hs).2)
  have htwpos : 0 < (segs.length : ℚ) * w :=
    mul_pos (by exact_mod_cast hn) hw
  simp only [assignAllotments]
  rw [htwE, if_neg (not_le.mpr htwpos)]
  have hassigned : (segs.enum.map fun p =>
      (p.1, { p.2 with
                major := toU16 ⌊p.2.weight / ((segs.length : ℚ) * w) *
                  ((segs.length * m + k : ℕ) : ℚ)⌋ })) =
      segs.enum.map fun p =>
        (p.1, ({ p.2 with
          major := m + (if k = segs.length then 1 else 0) } : Segment)) := by
    apply List.map_congr_left
    intro p hp
    have hb2 : (m : ℤ) + (if k = segs.length then 1 else 0) ≤ 65535 := by
      have hm : m ≤ segs.length * m := Nat.le_mul_of_pos_left m hn
      split <;> omega
    rw [(hallE p hp).2, allot_equal segs.length m k w hw hn,
      floor_equal segs.length m k hn hk2,
      toU16_small _ (by split <;> omega) hb2,
      show ((m : ℤ) + (if k = segs.length then 1 else 0)).toNat =
        m + (if k = segs.length then 1 else 0) from by
          by_cases hkn : k = segs.length <;> simp [hkn]]
  rw [hassigned]
  have hc : ∀ p ∈ (segs.enum.map fun p =>
      (p.1, ({ p.2 with
        major := m + (if k = segs.length then 1 else 0) } : Segment))),
      p.2.major = m + (if k = segs.length then 1 else 0) := by
    intro p hp
    obtain ⟨q, _, rfl⟩ := List.mem_map.mp hp
    rfl
  have hused := sum_major_const _ _ hc
  rw [hused, List.length_map, List.enum_length]
  by_cases hkn : k = segs.length
  · have hrem : segs.length * m + k -
        segs.length * (m + (if k = segs.length then 1 else 0)) = 0 := by
      rw [if_pos hkn]
      have hd : segs.length * (m + 1) = segs.length * m + segs.length := by
        ring
      omega
    rw [hrem]
    rw [show (fun (q : Nat × (Nat × Segment)) =>
      if q.1 < 0 then (q.2.1, { q.2.2 with major := q.2.2.major + 1 })
      else q.2) = (fun q => q.2) from funext fun q => by simp]
    rw [List.enum_map_snd]
    apply List.map_congr_left
    intro p hp
    have hplt := fst_lt_of_mem_enum hp
    rw [if_pos hkn, if_pos (show p.1 < k from by omega)]
  · have hrem : segs.length * m + k -
        segs.length * (m + (if k = segs.length then 1 else 0)) = k := by
      rw [if_neg hkn, Nat.add_zero]
      omega
    rw [hrem]
    rw [List.enum_map, enum_enum, List.map_map, List.map_map]
    apply List.map_congr_left
    intro p hp
    have hplt := fst_lt_of_mem_enum hp
    simp only [Function.comp, Prod.map, id]
    by_cases hpk : p.1 < k <;> simp [hpk, hkn]

/-- `grow` in the equal-weight, equal-size, all-growing case. -/
theorem grow_equal (segs : List Segment) (m k : Nat) (w : ℚ) (hw : 0 < w)
    (hk1 : 1 ≤ k) (hk2 : k ≤ segs.length)
    (hall : ∀ s ∈ segs, s.major = m ∧ s.weight = w ∧ s.growing = true)
    (hav : segs.length * m + k ≤ 65535) :
    grow segs.enum (segs.length * m + k) =
      segs.enum.map fun p =>
        (p.1, { p.2 with major := if p.1 < k then m + 1 else m }) := by
  have hn : 0 < segs.length := by omega
  have hallE : ∀ p ∈ segs.enum, p.2.major = m ∧ p.2.weight = w ∧
      p.2.growing = true := fun p hp => hall p.2 (snd_mem_of_mem_enum hp)
  have htwE := tw_enum_snd segs w (fun s hs => (hall s hs).2.1)
  have htwpos : 0 < (segs.length : ℚ) * w :=
    mul_pos (by exact_mod_cast hn) hw
  have hkeepAll : ∀ p ∈ segs.enum,
      growKeep p.2 (total_weight (segs.enum.map (·.2)))
        (segs.length * m + k) = true := by
    intro p hp
    unfold growKeep
    rw [(hallE p hp).1, (hallE p hp).2.1, htwE,
      allot_equal segs.length m k w hw hn]
    simp only [decide_eq_true_eq]
    rw [lt_div_iff (by exact_mod_cast hn)]
    push_cast
    have hk0 : (1 : ℚ) ≤ (k : ℚ) := by exact_mod_cast hk1
    nlinarith
  simp only [grow]
  rw [retainFlex_all _ _ _ (fun p hp => (hallE p hp).2.2)]
  dsimp only
  rw [removalLoop_stable growKeep segs.enum _
    (loopPass_all growKeep segs.enum _
      (by rw [htwE]; exact not_le.mpr htwpos) hkeepAll)]
  dsimp only
  rw [assign_equal segs m k w hw hk1 hk2
    (fun s hs => ⟨(hall s hs).1, (hall s hs).2.1⟩) hav]
  simp

/-- C7 amended: balancer fairness for equal weight, equal size, all-growing
segments.  With a positive common weight `w`, common size `m`, and
`available = n * m + k` for `k ≤ n` (within `u16` range), `balance` gives
exactly one extra cell to each of the first `k` segments in original order
and leaves every other segment unchanged (for `k = 0` nothing changes at
all). -/
theorem C7_balancer_fairness (segs : List Segment) (m k : Nat) (w : ℚ)
    (hw : 0 < w) (hk : k ≤ segs.length)
    (hall : ∀ s ∈ segs, s.major = m ∧ s.weight = w ∧ s.growing = true)
    (hav : segs.length * m + k ≤ 65535) :
    balance segs (segs.length * m + k) =
      segs.enum.map fun p =>
        if p.1 < k then { p.2 with major := p.2.major + 1 } else p.2 := by
  have hts : total_size segs = segs.length * m :=
    total_size_const segs m (fun s hs => (hall s hs).1) (by omega)
  by_cases hk0 : k = 0
  · subst hk0
    unfold balance
    rw [hts, if_neg (by omega), if_neg (by omega)]
    rw [show (fun (p : Nat × Segment) =>
      if p.1 < 0 then ({ p.2 with major := p.2.major + 1 } : Segment)
      else p.2) = (fun p => p.2) from funext fun p => by simp]
    rw [List.enum_map_snd]
  · have hk1 : 1 ≤ k := by omega
    unfold balance
    rw [hts, if_pos (by omega)]
    rw [grow_equal segs m k w hw hk1 hk hall hav]
    rw [applyUpdates_map segs (fun p =>
      (p.1, ({ p.2 with major := if p.1 < k then m + 1 else m } : Segment)))
      (fun p => rfl)]
    apply List.map_congr_left
    intro p hp
    have hm := (hall p.2 (snd_mem_of_mem_enum hp)).1
    by_cases hpk : p.1 < k
    · simp only [if_pos hpk]
      rw [hm]
    · simp only [if_neg hpk]
      rw [← hm]

/-- Witness for C7: three growable weight-1 size-3 segments and 2 spare
cells: the first two grow to 4, the third stays at 3. -/
theorem C7_witness :
    balance [⟨3, 0, 1, true, true⟩, ⟨3, 0, 1, true, true⟩,
        ⟨3, 0, 1, true, true⟩] 11 =
      [⟨4, 0, 1, true, true⟩, ⟨4, 0, 1, true, true⟩,
        ⟨3, 0, 1, true, true⟩] := by
  have h := C7_balancer_fairness
    [⟨3, 0, 1, true, true⟩, ⟨3, 0, 1, true, true⟩, ⟨3, 0, 1, true, true⟩]
    3 2 1 (by norm_num) (by norm_num)
    (by intro s hs
        fin_cases hs <;> exact ⟨rfl, rfl, rfl⟩)
    (by norm_num)
  exact h

/-- Splitting a list by a predicate permutes to the original. -/
theorem filter_not_perm {α : Type} (q : α → Bool) (l : List α) :
    List.Perm (l.filter q ++ l.filter fun a => ¬ q a) l := by
  induction l with
  | nil => simp
  | cons a t ih =>
      by_cases h : q a = true
      · rw [List.filter_cons_of_pos h, List.filter_cons_of_neg (by simp [h])]
        exact ih.cons a
      · rw [List.filter_cons_of_neg h, List.filter_cons_of_pos (by simp [h])]
        exact List.perm_middle.trans (ih.cons a)

/-- Sums of a value over the two filter halves add to the total. -/
theorem filter_sum_partition {α : Type} (q : α → Bool) (l : List α)
    (f : α → Nat) :
    ((l.filter q).map f).sum + ((l.filter fun a => ¬ q a).map f).sum =
      (l.map f).sum := by
  have hp := ((filter_not_perm q l).map f).sum_eq
  rw [List.map_append, List.sum_append] at hp
  exact hp

/-- Multiplying each list element by a constant scales the sum. -/
theorem sum_map_mul_right (ws : List ℚ) (c : ℚ) :
    (ws.map fun w => w * c).sum = ws.sum * c := by
  induction ws with
  | nil => simp
  | cons a t ih =>
      rw [List.map_cons, List.sum_cons, List.sum_cons, ih]
      ring

/-- A constant-1 rational sum is the length. -/
theorem sum_map_one {α : Type} (l : List α) :
    (l.map fun _ => (1 : ℚ)).sum = (l.length : ℚ) := by
  induction l with
  | nil => simp
  | cons a t ih =>
      rw [List.map_cons, List.sum_cons, ih, List.length_cons]
      push_cast
      ring

/-- The weight rewrite keeps the list length. -/
theorem rewriteWeights_length (l : List (Nat × Segment)) :
    (rewriteWeights l).length = l.length := by
  unfold rewriteWeights
  split <;> simp

/-- The weight rewrite keeps the indices. -/
theorem rewriteWeights_map_fst (l : List (Nat × Segment)) :
    (rewriteWeights l).map Prod.fst = l.map Prod.fst := by
  unfold rewriteWeights
  split
  · rw [List.map_map]
    rfl
  · rfl

/-- The weight rewrite keeps the sizes. -/
theorem rewriteWeights_map_major (l : List (Nat × Segment)) :
    ((rewriteWeights l).map fun p => p.2.major) =
      l.map fun p => p.2.major := by
  unfold rewriteWeights
  split
  · rw [List.map_map]
    rfl
  · rfl

/-- The weight rewrite keeps weights nonnegative. -/
theorem rewriteWeights_wnonneg (l : List (Nat × Segment))
    (h : ∀ p ∈ l, 0 ≤ p.2.weight) :
    ∀ p ∈ rewriteWeights l, 0 ≤ p.2.weight := by
  unfold rewriteWeights
  split
  · intro p hp
    obtain ⟨q, _, rfl⟩ := List.mem_map.mp hp
    norm_num
  · exact h

/-- The pass weight is positive on a nonempty list. -/
theorem passWeight_pos (l : List (Nat × Segment)) (hl : l ≠ []) :
    0 < passWeight l := by
  unfold passWeight
  by_cases h : total_weight (l.map (·.2)) ≤ 0
  · rw [if_pos h, rewriteWeights_length]
    exact_mod_cast List.length_pos.mpr hl
  · rw [if_neg h]
    exact lt_of_not_le h

/-- The rewritten weights sum to the pass weight. -/
theorem rewriteWeights_sum (l : List (Nat × Segment)) :
    ((rewriteWeights l).map fun p => p.2.weight).sum = passWeight l := by
  unfold rewriteWeights passWeight
  by_cases h : total_weight (l.map (·.2)) ≤ 0
  · rw [if_pos h, if_pos h, rewriteWeights_length, List.map_map]
    exact sum_map_one l
  · rw [if_neg h, if_neg h]
    unfold total_weight
    rw [List.map_map]
    rfl

/-- A removal-loop pass partitions the indices. -/
theorem loopPass_fst_perm (keep : Segment → ℚ → Nat → Bool)
    (l : List (Nat × Segment)) (a : Nat) :
    List.Perm ((loopPass keep l a).1.map Prod.fst ++
      (loopPass keep l a).2.1.map Prod.fst) (l.map Prod.fst) := by
  unfold loopPass
  dsimp only
  rw [← List.map_append]
  have h := (filter_not_perm (fun p => keep p.2 (passWeight l) a)
    (rewriteWeights l)).map Prod.fst
  rw [rewriteWeights_map_fst] at h
  exact h

/-- A removal-loop pass conserves the total size across its two halves. -/
theorem loopPass_sum (keep : Segment → ℚ → Nat → Bool)
    (l : List (Nat × Segment)) (a : Nat) :
    ((loopPass keep l a).1.map fun p => p.2.major).sum +
      ((loopPass keep l a).2.1.map fun p => p.2.major).sum =
      (l.map fun p => p.2.major).sum := by
  unfold loopPass
  dsimp only
  rw [filter_sum_partition, rewriteWeights_map_major]

/-- The removed size of a pass is the dropped segments' total size. -/
theorem loopPass_removed (keep : Segment → ℚ → Nat → Bool)
    (l : List (Nat × Segment)) (a : Nat) :
    (loopPass keep l a).2.2 =
      ((loopPass keep l a).2.1.map fun p => p.2.major).sum := rfl

/-- A removal-loop pass conserves the number of segments. -/
theorem loopPass_length (keep : Segment → ℚ → Nat → Bool)
    (l : List (Nat × Segment)) (a : Nat) :
    (loopPass keep l a).1.length + (loopPass keep l a).2.1.length =
      l.length := by
  unfold loopPass
  dsimp only
  rw [← List.length_append]
  have h := (filter_not_perm (fun p => keep p.2 (passWeight l) a)
    (rewriteWeights l)).length_eq
  rw [rewriteWeights_length] at h
  exact h

/-- Kept segments of a pass: membership and the retention test. -/
theorem loopPass_kept_mem (keep : Segment → ℚ → Nat → Bool)
    (l : List (Nat × Segment)) (a : Nat) (p : Nat × Segment)
    (hp : p ∈ (loopPass keep l a).1) :
    p ∈ rewriteWeights l ∧ keep p.2 (passWeight l) a = true := by
  unfold loopPass at hp
  dsimp only at hp
  exact ⟨(List.mem_filter.mp hp).1, (List.mem_filter.mp hp).2⟩

/-- A segment kept by `grow` has positive weight. -/
theorem growKeep_pos_weight (s : Segment) (T : ℚ) (a : Nat)
    (hT : 0 < T) (h : growKeep s T a = true) : 0 < s.weight := by
  unfold growKeep at h
  simp only [decide_eq_true_eq] at h
  by_contra hw
  push_neg at hw
  have hd : s.weight / T ≤ 0 := div_nonpos_of_nonpos_of_nonneg hw hT.le
  have ha : (0 : ℚ) ≤ (a : ℚ) := by positivity
  have hda : s.weight / T * (a : ℚ) ≤ 0 := mul_nonpos_of_nonpos_of_nonneg hd ha
  have hm : (0 : ℚ) ≤ (s.major : ℚ) := by positivity
  nlinarith

/-- Sum of the allotments of a pass is exactly `available`. -/
theorem sum_allotments (l : List (Nat × Segment)) (a : Nat)
    (hl : l ≠ []) :
    ((rewriteWeights l).map fun p =>
      p.2.weight / passWeight l * (a : ℚ)).sum = (a : ℚ) := by
  have hT := passWeight_pos l hl
  have h1 : ((rewriteWeights l).map fun p =>
      p.2.weight / passWeight l * (a : ℚ)) =
      ((rewriteWeights l).map fun p => p.2.weight).map
        fun w => w * ((a : ℚ) / passWeight l) := by
    rw [List.map_map]
    apply List.map_congr_left
    intro p _
    show p.2.weight / passWeight l * a = p.2.weight * (a / passWeight l)
    ring
  rw [h1, sum_map_mul_right, rewriteWeights_sum]
  field_simp

/-- Casting the total size of a tagged-segment list to the rationals. -/
theorem cast_sum_major (l : List (Nat × Segment)) :
    (((l.map fun p => p.2.major).sum : Nat) : ℚ) =
      (l.map fun p => (p.2.major : ℚ)).sum := by
  rw [Nat.cast_list_sum, List.map_map]
  rfl

/-- In `grow`, a pass on a nonempty list strictly below `available` keeps at
least one segment. -/
theorem loopPass_grow_kept_ne (l : List (Nat × Segment)) (a : Nat)
    (hl : l ≠ []) (hinv : (l.map fun p => p.2.major).sum < a) :
    (loopPass growKeep l a).1 ≠ [] := by
  intro hK
  have hall : ∀ p ∈ rewriteWeights l,
      ¬ (growKeep p.2 (passWeight l) a = true) := by
    intro p hp hkeep
    have hmem : p ∈ (loopPass growKeep l a).1 := by
      unfold loopPass
      dsimp only
      exact List.mem_filter.mpr ⟨hp, hkeep⟩
    rw [hK] at hmem
    cases hmem
  have hge : ∀ p ∈ rewriteWeights l,
      p.2.weight / passWeight l * (a : ℚ) ≤ (p.2.major : ℚ) := by
    intro p hp
    have h := hall p hp
    unfold growKeep at h
    simp only [decide_eq_true_eq] at h
    exact not_lt.mp h
  have hsum := List.sum_le_sum hge
  rw [sum_allotments l a hl] at hsum
  have hmaj2 : ((rewriteWeights l).map fun p => (p.2.major : ℚ)).sum =
      (l.map fun p => (p.2.major : ℚ)).sum := by
    rw [← cast_sum_major (rewriteWeights l), ← cast_sum_major l,
      rewriteWeights_map_major l]
  rw [hmaj2, ← cast_sum_major l] at hsum
  have hlt : (((l.map fun p => p.2.major).sum : Nat) : ℚ) < (a : ℚ) := by
    exact_mod_cast hinv
  exact absurd (lt_of_le_of_lt hsum hlt) (lt_irrefl _)

/-- The `grow` removal loop with enough fuel: the survivors and total drops
partition the indices, `available` is conserved against the drops, the
surviving sizes stay strictly below the remaining `available`, survivors
have positive weight, and survivors exist when the input was nonempty. -/
theorem removalLoopF_grow :
    ∀ (fuel : Nat) (l : List (Nat × Segment)) (a : Nat),
      l.length < fuel →
      (l.map fun p => p.2.major).sum < a →
      List.Perm ((removalLoopF growKeep fuel l a).1.map Prod.fst ++
        (removalLoopF growKeep fuel l a).2.2.map Prod.fst)
        (l.map Prod.fst) ∧
      (removalLoopF growKeep fuel l a).2.1 +
        ((removalLoopF growKeep fuel l a).2.2.map
          fun p => p.2.major).sum = a ∧
      ((removalLoopF growKeep fuel l a).1.map fun p => p.2.major).sum <
        (removalLoopF growKeep fuel l a).2.1 ∧
      (∀ p ∈ (removalLoopF growKeep fuel l a).1, 0 < p.2.weight) ∧
      (l ≠ [] → (removalLoopF growKeep fuel l a).1 ≠ []) := by
  intro fuel
  induction fuel with
  | zero =>
      intro l a hf
      exact absurd hf (by omega)
  | succ fuel ih =>
      intro l a hf hinv
      by_cases hl : l = []
      · subst hl
        have hlp : loopPass growKeep [] a = ([], [], 0) := by
          unfold loopPass rewriteWeights passWeight total_weight
          simp
        simp only [removalLoopF]
        rw [hlp]
        refine ⟨by simp, by simp, ?_, by simp, by simp⟩
        simpa using hinv
      · have h1 := loopPass_sum growKeep l a
        have h2 := loopPass_removed growKeep l a
        have hTpos := passWeight_pos l hl
        by_cases hrm : (loopPass growKeep l a).2.2 = 0
        · simp only [removalLoopF]
          rw [if_pos hrm]
          dsimp only
          refine ⟨loopPass_fst_perm growKeep l a, by omega, by omega,
            ?_, fun _ => loopPass_grow_kept_ne l a hl hinv⟩
          intro p hp
          exact growKeep_pos_weight p.2 (passWeight l) a hTpos
            (loopPass_kept_mem growKeep l a p hp).2
        · simp only [removalLoopF]
          rw [if_neg hrm]
          dsimp only
          have h3 := loopPass_length growKeep l a
          have hlen2 : (loopPass growKeep l a).1.length < fuel := by
            have hd : (loopPass growKeep l a).2.1 ≠ [] := by
              intro he
              rw [he] at h2
              simp at h2
              exact hrm h2
            have := List.length_pos.mpr hd
            omega
          have hinv2 : ((loopPass growKeep l a).1.map
              fun p => p.2.major).sum < a - (loopPass growKeep l a).2.2 := by
            omega
          obtain ⟨ih1, ih2, ih3, ih4, ih5⟩ :=
            ih (loopPass growKeep l a).1 (a - (loopPass growKeep l a).2.2)
              hlen2 hinv2
          have hkne := loopPass_grow_kept_ne l a hl hinv
          refine ⟨?_, ?_, ih3, ih4, fun _ => ih5 hkne⟩
          · rw [List.map_append]
            have hs1 : List.Perm
                ((removalLoopF growKeep fuel (loopPass growKeep l a).1
                    (a - (loopPass growKeep l a).2.2)).1.map Prod.fst ++
                  ((loopPass growKeep l a).2.1.map Prod.fst ++
                    (removalLoopF growKeep fuel (loopPass growKeep l a).1
                      (a - (loopPass growKeep l a).2.2)).2.2.map Prod.fst))
                ((removalLoopF growKeep fuel (loopPass growKeep l a).1
                    (a - (loopPass growKeep l a).2.2)).1.map Prod.fst ++
                  ((removalLoopF growKeep fuel (loopPass growKeep l a).1
                      (a - (loopPass growKeep l a).2.2)).2.2.map Prod.fst ++
                    (loopPass growKeep l a).2.1.map Prod.fst)) :=
              List.Perm.append_left _ List.perm_append_comm
            refine hs1.trans ?_
            rw [← List.append_assoc]
            exact (ih1.append_right _).trans (loopPass_fst_perm growKeep l a)
          · rw [List.map_append, List.sum_append]
            omega

/-- Casting an integer-valued sum over tagged segments to the rationals. -/
theorem cast_sum_int {α : Type} (l : List α) (f : α → ℤ) :
    (((l.map f).sum : ℤ) : ℚ) = (l.map fun p => ((f p : ℤ) : ℚ)).sum := by
  rw [Int.cast_list_sum, List.map_map]
  rfl

/-- A `toNat` sum of nonnegative integers casts back to the integer sum. -/
theorem sum_toNat_cast {α : Type} (l : List α) (f : α → ℤ)
    (h : ∀ p ∈ l, 0 ≤ f p) :
    (((l.map fun p => (f p).toNat).sum : ℕ) : ℤ) = (l.map f).sum := by
  induction l with
  | nil => simp
  | cons a t ih =>
      rw [List.map_cons, List.sum_cons, List.map_cons, List.sum_cons,
        Nat.cast_add, ih (fun p hp => h p (List.mem_cons_of_mem a hp)),
        Int.toNat_of_nonneg (h a (List.mem_cons_self a t))]

/-- Subtracting one from each element lowers the sum by the length. -/
theorem sum_map_sub_one {α : Type} (l : List α) (f : α → ℚ) :
    (l.map fun p => f p - 1).sum = (l.map f).sum - l.length := by
  induction l with
  | nil => simp
  | cons a t ih =>
      rw [List.map_cons, List.sum_cons, List.map_cons, List.sum_cons, ih,
        List.length_cons]
      push_cast
      ring

/-- The left-to-right remainder distribution adds `min r length` cells. -/
theorem sum_enum_bonus :
    ∀ (l : List (Nat × Segment)) (j r : Nat),
      (((List.enumFrom j l).map fun q =>
        if q.1 < r then
          (q.2.1, ({ q.2.2 with major := q.2.2.major + 1 } : Segment))
        else q.2).map fun p => p.2.major).sum =
      (l.map fun p => p.2.major).sum + (min r (j + l.length) - j) := by
  intro l
  induction l with
  | nil =>
      intro j r
      simp
  | cons a t ih =>
      intro j r
      rw [List.enumFrom_cons, List.map_cons, List.map_cons, List.sum_cons,
        List.map_cons, List.sum_cons, ih (j + 1) r, List.length_cons]
      dsimp only
      by_cases hjr : j < r
      · rw [if_pos hjr]
        dsimp only
        omega
      · rw [if_neg hjr]
        omega

/-- The remainder distribution keeps the indices. -/
theorem map_fst_enum_bonus :
    ∀ (l : List (Nat × Segment)) (j r : Nat),
      (((List.enumFrom j l).map fun q =>
        if q.1 < r then
          (q.2.1, ({ q.2.2 with major := q.2.2.major + 1 } : Segment))
        else q.2).map Prod.fst) = l.map Prod.fst := by
  intro l
  induction l with
  | nil => intro j r; rfl
  | cons a t ih =>
      intro j r
      rw [List.enumFrom_cons, List.map_cons, List.map_cons, List.map_cons,
        ih (j + 1) r]
      dsimp only
      by_cases hjr : j < r
      · rw [if_pos hjr]
      · rw [if_neg hjr]

/-- `assignAllotments` distributes exactly `available` over the survivors
(when the survivors are nonempty or `available` is already 0) and keeps the
indices. -/
theorem assign_sum (surv : List (Nat × Segment)) (av : Nat)
    (hw : ∀ p ∈ surv, 0 < p.2.weight) (hz : surv = [] → av = 0)
    (hav : av ≤ 65535) :
    ((assignAllotments surv av).map fun p => p.2.major).sum = av ∧
    (assignAllotments surv av).map Prod.fst = surv.map Prod.fst := by
  by_cases hne : surv = []
  · subst hne
    have he : assignAllotments [] av = [] := by
      unfold assignAllotments total_weight
      simp
    rw [he]
    exact ⟨(hz rfl).symm, rfl⟩
  · have htw : 0 < total_weight (surv.map (·.2)) := by
      unfold total_weight
      apply List.sum_pos
      · intro x hx
        rw [List.map_map] at hx
        obtain ⟨p, hp, rfl⟩ := List.mem_map.mp hx
        exact hw p hp
      · simp [hne]
    have hub : ∀ p ∈ surv,
        p.2.weight / total_weight (surv.map (·.2)) * (av : ℚ) ≤ (av : ℚ) := by
      intro p hp
      have h1 : p.2.weight ≤ total_weight (surv.map (·.2)) := by
        unfold total_weight
        have hmem : p.2.weight ∈ (surv.map (·.2)).map fun s => s.weight := by
          rw [List.map_map]
          exact List.mem_map_of_mem _ hp
        refine List.single_le_sum ?_ _ hmem
        intro x hx
        rw [List.map_map] at hx
        obtain ⟨q, hq, rfl⟩ := List.mem_map.mp hx
        exact (hw q hq).le
      have h2 : p.2.weight / total_weight (surv.map (·.2)) ≤ 1 :=
        (div_le_one htw).mpr h1
      have h3 : (0 : ℚ) ≤ (av : ℚ) := by positivity
      nlinarith
    have hlb : ∀ p ∈ surv,
        (0 : ℚ) ≤ p.2.weight / total_weight (surv.map (·.2)) * (av : ℚ) := by
      intro p hp
      have h1 := (hw p hp).le
      positivity
    have hsa : (surv.map fun p =>
        p.2.weight / total_weight (surv.map (·.2)) * (av : ℚ)).sum =
        (av : ℚ) := by
      have h1 : (surv.map fun p =>
          p.2.weight / total_weight (surv.map (·.2)) * (av : ℚ)) =
          (surv.map fun p => p.2.weight).map
            fun w => w * ((av : ℚ) / total_weight (surv.map (·.2))) := by
        rw [List.map_map]
        apply List.map_congr_left
        intro p _
        show p.2.weight / total_weight (surv.map (·.2)) * av =
          p.2.weight * (av / total_weight (surv.map (·.2)))
        ring
      have h2 : (surv.map fun p => p.2.weight).sum =
          total_weight (surv.map (·.2)) := by
        unfold total_weight
        rw [List.map_map]
        rfl
      rw [h1, sum_map_mul_right, h2]
      field_simp
    -- Integer bounds on the floor sum.
    have hfl_nonneg : ∀ p ∈ surv,
        0 ≤ ⌊p.2.weight / total_weight (surv.map (·.2)) * (av : ℚ)⌋ :=
      fun p hp => Int.floor_nonneg.mpr (hlb p hp)
    have hfl_le : ∀ p ∈ surv,
        ⌊p.2.weight / total_weight (surv.map (·.2)) * (av : ℚ)⌋ ≤
          (av : ℤ) := by
      intro p hp
      have h1 := Int.floor_le_floor (hub p hp)
      rwa [Int.floor_natCast] at h1
    have hup : ((surv.map fun p =>
        ⌊p.2.weight / total_weight (surv.map (·.2)) * (av : ℚ)⌋).sum) ≤
        (av : ℤ) := by
      have h2 : (((surv.map fun p =>
          ⌊p.2.weight / total_weight (surv.map (·.2)) *
            (av : ℚ)⌋).sum : ℤ) : ℚ) =
          (surv.map fun p =>
            ((⌊p.2.weight / total_weight (surv.map (·.2)) *
              (av : ℚ)⌋ : ℤ) : ℚ)).sum :=
        cast_sum_int surv _
      have h1 : (surv.map fun p =>
          ((⌊p.2.weight / total_weight (surv.map (·.2)) *
            (av : ℚ)⌋ : ℤ) : ℚ)).sum ≤ (av : ℚ) := by
        have h0 : (surv.map fun p =>
            ((⌊p.2.weight / total_weight (surv.map (·.2)) *
              (av : ℚ)⌋ : ℤ) : ℚ)).sum ≤
            (surv.map fun p =>
              p.2.weight / total_weight (surv.map (·.2)) *
                (av : ℚ)).sum := by
          refine List.sum_le_sum ?_
          intro p _
          exact Int.floor_le
            (p.2.weight / total_weight (surv.map (·.2)) * (av : ℚ))
        rw [hsa] at h0
        exact h0
      have h3 : (((surv.map fun p =>
          ⌊p.2.weight / total_weight (surv.map (·.2)) *
            (av : ℚ)⌋).sum : ℤ) : ℚ) ≤ (av : ℚ) := by
        rw [h2]
        exact h1
      exact_mod_cast h3
    have hlow : (av : ℤ) - surv.length < ((surv.map fun p =>
        ⌊p.2.weight / total_weight (surv.map (·.2)) * (av : ℚ)⌋).sum) := by
      have h1 : ((av : ℚ) - surv.length) < (surv.map fun p =>
          ((⌊p.2.weight / total_weight (surv.map (·.2)) *
            (av : ℚ)⌋ : ℤ) : ℚ)).sum := by
        calc (av : ℚ) - surv.length
            = (surv.map fun p => p.2.weight /
                total_weight (surv.map (·.2)) * (av : ℚ) - 1).sum := by
              rw [sum_map_sub_one, hsa]
          _ < _ := by
              refine List.sum_lt_sum _ _ ?_ ?_
              · intro p _
                exact le_of_lt (Int.sub_one_lt_floor _)
              · obtain ⟨p0, hp0⟩ := List.exists_mem_of_ne_nil surv hne
                exact ⟨p0, hp0, Int.sub_one_lt_floor _⟩
      have h2 : (((surv.map fun p =>
          ⌊p.2.weight / total_weight (surv.map (·.2)) *
            (av : ℚ)⌋).sum : ℤ) : ℚ) =
          (surv.map fun p =>
            ((⌊p.2.weight / total_weight (surv.map (·.2)) *
              (av : ℚ)⌋ : ℤ) : ℚ)).sum :=
        cast_sum_int surv _
      have h3 : ((av : ℚ) - surv.length) < (((surv.map fun p =>
          ⌊p.2.weight / total_weight (surv.map (·.2)) *
            (av : ℚ)⌋).sum : ℤ) : ℚ) := by
        rw [h2]
        exact h1
      exact_mod_cast h3
    -- Pull everything to the natural numbers.
    have hcast : (((surv.map fun p =>
        (⌊p.2.weight / total_weight (surv.map (·.2)) *
          (av : ℚ)⌋).toNat).sum : ℕ) : ℤ) =
        (surv.map fun p =>
          ⌊p.2.weight / total_weight (surv.map (·.2)) * (av : ℚ)⌋).sum :=
      sum_toNat_cast surv _ hfl_nonneg
    have hused_le : (surv.map fun p =>
        (⌊p.2.weight / total_weight (surv.map (·.2)) * (av : ℚ)⌋).toNat).sum
        ≤ av := by omega
    have hrem_le : av - (surv.map fun p =>
        (⌊p.2.weight / total_weight (surv.map (·.2)) *
          (av : ℚ)⌋).toNat).sum ≤ surv.length := by omega
    simp only [assignAllotments]
    rw [if_neg (not_le.mpr htw)]
    -- Rewrite the assigned majors to plain floor `toNat`s.
    have hassigned : (surv.map fun p =>
        (p.1, { p.2 with
                  major := toU16 ⌊p.2.weight /
                    total_weight (surv.map (·.2)) * ((av : ℕ) : ℚ)⌋ })) =
        surv.map fun p =>
          (p.1, ({ p.2 with
                    major := (⌊p.2.weight /
                      total_weight (surv.map (·.2)) *
                        ((av : ℕ) : ℚ)⌋).toNat } : Segment)) := by
      apply List.map_congr_left
      intro p hp
      rw [toU16_small _ (hfl_nonneg p hp) (le_trans (hfl_le p hp)
        (by omega))]
    rw [hassigned]
    have hused : ((surv.map fun p =>
        (p.1, ({ p.2 with
                  major := (⌊p.2.weight /
                    total_weight (surv.map (·.2)) *
                      ((av : ℕ) : ℚ)⌋).toNat } : Segment))).map
        fun p => p.2.major).sum =
        (surv.map fun p =>
          (⌊p.2.weight / total_weight (surv.map (·.2)) *
            (av : ℚ)⌋).toNat).sum := by
      rw [List.map_map]
      rfl
    rw [hused]
    constructor
    · rw [show ((surv.map fun p =>
        (p.1, ({ p.2 with
                  major := (⌊p.2.weight /
                    total_weight (surv.map (·.2)) *
                      ((av : ℕ) : ℚ)⌋).toNat } : Segment)))).enum =
        List.enumFrom 0 ((surv.map fun p =>
        (p.1, ({ p.2 with
                  major := (⌊p.2.weight /
                    total_weight (surv.map (·.2)) *
                      ((av : ℕ) : ℚ)⌋).toNat } : Segment)))) from rfl]
      rw [sum_enum_bonus]
      rw [hused]
      have hlen : ((surv.map fun p =>
        (p.1, ({ p.2 with
                  major := (⌊p.2.weight /
                    total_weight (surv.map (·.2)) *
                      ((av : ℕ) : ℚ)⌋).toNat } : Segment)))).length =
          surv.length := by
        rw [List.length_map]
      rw [hlen]
      omega
    · rw [show ((surv.map fun p =>
        (p.1, ({ p.2 with
                  major := (⌊p.2.weight /
                    total_weight (surv.map (·.2)) *
                      ((av : ℕ) : ℚ)⌋).toNat } : Segment)))).enum =
        List.enumFrom 0 ((surv.map fun p =>
        (p.1, ({ p.2 with
                  major := (⌊p.2.weight /
                    total_weight (surv.map (·.2)) *
                      ((av : ℕ) : ℚ)⌋).toNat } : Segment)))) from rfl]
      rw [map_fst_enum_bonus]
      rw [List.map_map]
      rfl

/-- The first retain of `grow`/`shrink`, fully characterized: the kept and
dropped segments are the two filter halves and the dropped sizes are
subtracted from `available`. -/
theorem retainFlex_split (flag : Segment → Bool) (l : List (Nat × Segment))
    (av : Nat) :
    retainFlex flag l av =
      (l.filter fun p => flag p.2,
       l.filter fun p => ¬ flag p.2,
       av - ((l.filter fun p => ¬ flag p.2).map fun p => p.2.major).sum) := by
  have main : ∀ (l2 : List (Nat × Segment))
      (acc : List (Nat × Segment) × List (Nat × Segment) × Nat),
      l2.foldl (fun acc p =>
        if flag p.2 then (acc.1 ++ [p], acc.2.1, acc.2.2)
        else (acc.1, acc.2.1 ++ [p], acc.2.2 - p.2.major)) acc =
      (acc.1 ++ l2.filter (fun p => flag p.2),
       acc.2.1 ++ l2.filter (fun p => ¬ flag p.2),
       acc.2.2 - ((l2.filter fun p => ¬ flag p.2).map
        fun p => p.2.major).sum) := by
    intro l2
    induction l2 with
    | nil => intro acc; simp
    | cons a t ih =>
        intro acc
        rw [List.foldl_cons]
        by_cases h : flag a.2 = true
        · rw [if_pos h, ih]
          simp [h]
        · rw [if_neg h, ih]
          simp [h, Nat.sub_sub]
  unfold retainFlex
  rw [main l ([], [], av)]
  simp

/-- `total_size` is the saturated plain sum. -/
theorem total_size_eq_min (segs : List Segment) :
    total_size segs = min ((segs.map Segment.major).sum) 65535 := by
  have main : ∀ (l : List Segment) (t : Nat), t ≤ 65535 →
      l.foldl (fun t s => satAdd t s.major) t =
        min (t + (l.map Segment.major).sum) 65535 := by
    intro l
    induction l with
    | nil => intro t ht; simp; omega
    | cons a rest ih =>
        intro t ht
        rw [List.foldl_cons, List.map_cons, List.sum_cons,
          ih (satAdd t a.major) (by unfold satAdd; omega)]
        unfold satAdd
        omega
  unfold total_size
  rw [main segs 0 (by omega)]
  simp

/-- Every list member appears in the enumeration. -/
theorem mem_enum_of_mem {α : Type} {l : List α} {s : α} (h : s ∈ l) :
    ∃ p ∈ l.enum, p.2 = s := by
  obtain ⟨i, hi, rfl⟩ := List.mem_iff_getElem.mp h
  refine ⟨(i, l[i]), ?_, rfl⟩
  have hi2 : i < l.enum.length := by simpa using hi
  have he : l.enum.get ⟨i, hi2⟩ = (i, l[i]) := List.getElem_enum l i hi2
  rw [← he]
  exact List.get_mem _ _ _

/-- `grow` conserves space: the resulting sizes sum exactly to `available`,
and the result carries each original index exactly once. -/
theorem grow_sum (segs : List Segment) (av : Nat)
    (hts : (segs.map Segment.major).sum < av)
    (hav : av ≤ 65535)
    (hgr : ∃ s ∈ segs, s.growing = true)
    (hw : ∀ s ∈ segs, 0 ≤ s.weight) :
    ((grow segs.enum av).map fun p => p.2.major).sum = av ∧
    List.Perm ((grow segs.enum av).map Prod.fst)
      (List.range segs.length) := by
  have hA : (segs.enum.map fun p => p.2.major) = segs.map Segment.major := by
    rw [show (segs.enum.map fun p => p.2.major) =
      (segs.enum.map Prod.snd).map Segment.major from by
        rw [List.map_map]; rfl, List.enum_map_snd]
  have hpart := filter_sum_partition (fun p => p.2.growing) segs.enum
    (fun p => p.2.major)
  rw [hA] at hpart
  have hF : ∃ p ∈ segs.enum.filter fun p => p.2.growing, True := by
    obtain ⟨s, hs, hgrow⟩ := hgr
    obtain ⟨p, hp, hps⟩ := mem_enum_of_mem hs
    exact ⟨p, List.mem_filter.mpr ⟨hp, by rw [hps]; simp [hgrow]⟩, trivial⟩
  obtain ⟨p0, hp0, _⟩ := hF
  have hFne : (segs.enum.filter fun p => p.2.growing) ≠ [] :=
    List.ne_nil_of_mem hp0
  have hNFle : ((segs.enum.filter fun p => ¬ p.2.growing).map
      fun p => p.2.major).sum < av := by omega
  have hinv : ((segs.enum.filter fun p => p.2.growing).map
      fun p => p.2.major).sum <
      av - ((segs.enum.filter fun p => ¬ p.2.growing).map
        fun p => p.2.major).sum := by omega
  obtain ⟨lp1, lp2, lp3, lp4, lp5⟩ := removalLoopF_grow
    ((segs.enum.filter fun p => p.2.growing).length + 1)
    (segs.enum.filter fun p => p.2.growing)
    (av - ((segs.enum.filter fun p => ¬ p.2.growing).map
      fun p => p.2.major).sum)
    (by omega) hinv
  have hSne := lp5 hFne
  have havf : (removalLoopF growKeep
      ((segs.enum.filter fun p => p.2.growing).length + 1)
      (segs.enum.filter fun p => p.2.growing)
      (av - ((segs.enum.filter fun p => ¬ p.2.growing).map
        fun p => p.2.major).sum)).2.1 ≤ 65535 := by omega
  obtain ⟨as1, as2⟩ := assign_sum
    (removalLoopF growKeep
      ((segs.enum.filter fun p => p.2.growing).length + 1)
      (segs.enum.filter fun p => p.2.growing)
      (av - ((segs.enum.filter fun p => ¬ p.2.growing).map
        fun p => p.2.major).sum)).1
    (removalLoopF growKeep
      ((segs.enum.filter fun p => p.2.growing).length + 1)
      (segs.enum.filter fun p => p.2.growing)
      (av - ((segs.enum.filter fun p => ¬ p.2.growing).map
        fun p => p.2.major).sum)).2.1
    lp4 (fun he => absurd he hSne) havf
  constructor
  · simp only [grow]
    rw [retainFlex_split]
    dsimp only
    rw [show removalLoop growKeep
        (segs.enum.filter fun p => p.2.growing)
        (av - ((segs.enum.filter fun p => ¬ p.2.growing).map
          fun p => p.2.major).sum) =
      removalLoopF growKeep
        ((segs.enum.filter fun p => p.2.growing).length + 1)
        (segs.enum.filter fun p => p.2.growing)
        (av - ((segs.enum.filter fun p => ¬ p.2.growing).map
          fun p => p.2.major).sum) from rfl]
    rw [List.map_append, List.map_append, List.sum_append, List.sum_append]
    rw [as1]
    omega
  · simp only [grow]
    rw [retainFlex_split]
    dsimp only
    rw [show removalLoop growKeep
        (segs.enum.filter fun p => p.2.growing)
        (av - ((segs.enum.filter fun p => ¬ p.2.growing).map
          fun p => p.2.major).sum) =
      removalLoopF growKeep
        ((segs.enum.filter fun p => p.2.growing).length + 1)
        (segs.enum.filter fun p => p.2.growing)
        (av - ((segs.enum.filter fun p => ¬ p.2.growing).map
          fun p => p.2.major).sum) from rfl]
    rw [List.map_append, List.map_append, as2]
    -- NF.fst ++ (D.fst ++ S.fst) ~ range n
    have hq := filter_not_perm (fun p => p.2.growing) segs.enum
    have hqf := hq.map Prod.fst
    rw [List.map_append] at hqf
    have hperm1 : List.Perm
        ((segs.enum.filter fun p => ¬ p.2.growing).map Prod.fst ++
          ((removalLoopF growKeep
            ((segs.enum.filter fun p => p.2.growing).length + 1)
            (segs.enum.filter fun p => p.2.growing)
            (av - ((segs.enum.filter fun p => ¬ p.2.growing).map
              fun p => p.2.major).sum)).2.2.map Prod.fst ++
           (removalLoopF growKeep
            ((segs.enum.filter fun p => p.2.growing).length + 1)
            (segs.enum.filter fun p => p.2.growing)
            (av - ((segs.enum.filter fun p => ¬ p.2.growing).map
              fun p => p.2.major).sum)).1.map Prod.fst))
        ((segs.enum.filter fun p => ¬ p.2.growing).map Prod.fst ++
          (segs.enum.filter fun p => p.2.growing).map Prod.fst) := by
      refine List.Perm.append_left _ ?_
      exact List.perm_append_comm.trans lp1
    have hperm2 : List.Perm
        ((segs.enum.filter fun p => ¬ p.2.growing).map Prod.fst ++
          (segs.enum.filter fun p => p.2.growing).map Prod.fst)
        (segs.enum.map Prod.fst) :=
      List.perm_append_comm.trans hqf
    have hrange : segs.enum.map Prod.fst = List.range segs.length :=
      List.enum_map_fst segs
    rw [← List.append_assoc] at hperm1
    refine (hperm1.trans (hperm2.trans ?_))
    rw [hrange]

/-- Total weight of a nonempty list of positive-weight segments is
positive. -/
theorem tw_pos (l : List (Nat × Segment)) (hne : l ≠ [])
    (hw : ∀ p ∈ l, 0 < p.2.weight) :
    0 < total_weight (l.map (·.2)) := by
  unfold total_weight
  apply List.sum_pos
  · intro x hx
    rw [List.map_map] at hx
    obtain ⟨p, hp, rfl⟩ := List.mem_map.mp hx
    exact hw p hp
  · simp [hne]

/-- With positive total weight the rewrite is the identity. -/
theorem rewriteWeights_eq_self (l : List (Nat × Segment))
    (h : ¬ total_weight (l.map (·.2)) ≤ 0) : rewriteWeights l = l := by
  unfold rewriteWeights
  rw [if_neg h]

/-- A filtered sum of nonnegative values is at most the full sum. -/
theorem sum_filter_le {α : Type} (l : List α) (q : α → Bool) (f : α → ℚ)
    (h : ∀ x ∈ l, 0 ≤ f x) :
    ((l.filter q).map f).sum ≤ (l.map f).sum := by
  induction l with
  | nil => simp
  | cons a t ih =>
      have iht := ih (fun x hx => h x (List.mem_cons_of_mem a hx))
      by_cases hq : q a = true
      · rw [List.filter_cons_of_pos hq, List.map_cons, List.sum_cons,
          List.map_cons, List.sum_cons]
        exact add_le_add_left iht _
      · rw [List.filter_cons_of_neg hq, List.map_cons, List.sum_cons]
        have := h a (List.mem_cons_self a t)
        linarith

/-- In `shrink`, a pass never removes more than `available`. -/
theorem loopPass_shrink_removed_le (l : List (Nat × Segment)) (a : Nat)
    (hl : l ≠ []) (hw : ∀ p ∈ l, 0 ≤ p.2.weight) :
    (loopPass shrinkKeep l a).2.2 ≤ a := by
  rw [loopPass_removed]
  have hTpos := passWeight_pos l hl
  have hwr := rewriteWeights_wnonneg l hw
  have hnn : ∀ p ∈ rewriteWeights l,
      (0 : ℚ) ≤ p.2.weight / passWeight l * (a : ℚ) := by
    intro p hp
    have h1 := hwr p hp
    positivity
  -- dropped majors are below their allotments
  have hdr : ∀ p ∈ (loopPass shrinkKeep l a).2.1,
      (p.2.major : ℚ) ≤ p.2.weight / passWeight l * (a : ℚ) := by
    intro p hp
    unfold loopPass at hp
    dsimp only at hp
    have h2 := (List.mem_filter.mp hp).2
    simp only [shrinkKeep, decide_eq_true_eq, decide_not] at h2
    have h3 : ¬ ((p.2.major : ℚ) > p.2.weight / passWeight l * (a : ℚ)) := by
      intro hgt
      simp [hgt] at h2
    exact not_lt.mp h3
  have hsub : (((loopPass shrinkKeep l a).2.1.map
      fun p => p.2.weight / passWeight l * (a : ℚ)).sum) ≤ (a : ℚ) := by
    have h4 : (loopPass shrinkKeep l a).2.1 =
        (rewriteWeights l).filter fun p =>
          ¬ shrinkKeep p.2 (passWeight l) a := rfl
    rw [h4]
    have h5 := sum_filter_le (rewriteWeights l)
      (fun p => ¬ shrinkKeep p.2 (passWeight l) a)
      (fun p => p.2.weight / passWeight l * (a : ℚ)) hnn
    rw [sum_allotments l a hl] at h5
    exact h5
  have hcmp : (((loopPass shrinkKeep l a).2.1.map
      fun p => (p.2.major : ℚ)).sum) ≤ (a : ℚ) := by
    refine le_trans (List.sum_le_sum ?_) hsub
    intro p hp
    exact hdr p hp
  rw [← cast_sum_major] at hcmp
  exact_mod_cast hcmp

/-- The `shrink` removal loop with enough fuel: indices partition,
`available` is conserved against the drops, the remaining `available` never
exceeds the surviving sizes, survivors keep positive weight, and if no
survivor remains nothing remains to distribute. -/
theorem removalLoopF_shrink :
    ∀ (fuel : Nat) (l : List (Nat × Segment)) (a : Nat),
      l.length < fuel →
      (∀ p ∈ l, 0 < p.2.weight) →
      a ≤ (l.map fun p => p.2.major).sum →
      List.Perm ((removalLoopF shrinkKeep fuel l a).1.map Prod.fst ++
        (removalLoopF shrinkKeep fuel l a).2.2.map Prod.fst)
        (l.map Prod.fst) ∧
      (removalLoopF shrinkKeep fuel l a).2.1 +
        ((removalLoopF shrinkKeep fuel l a).2.2.map
          fun p => p.2.major).sum = a ∧
      (removalLoopF shrinkKeep fuel l a).2.1 ≤
        ((removalLoopF shrinkKeep fuel l a).1.map
          fun p => p.2.major).sum ∧
      (∀ p ∈ (removalLoopF shrinkKeep fuel l a).1, 0 < p.2.weight) ∧
      ((removalLoopF shrinkKeep fuel l a).1 = [] →
        (removalLoopF shrinkKeep fuel l a).2.1 = 0) := by
  intro fuel
  induction fuel with
  | zero =>
      intro l a hf
      exact absurd hf (by omega)
  | succ fuel ih =>
      intro l a hf hw hinv
      by_cases hl : l = []
      · subst hl
        have hlp : loopPass shrinkKeep [] a = ([], [], 0) := by
          unfold loopPass rewriteWeights passWeight total_weight
          simp
        simp only [removalLoopF]
        rw [hlp]
        dsimp only
        simp at hinv
        refine ⟨by simp, by simp [hinv], by simp [hinv], by simp,
          fun _ => hinv⟩
      · have h1 := loopPass_sum shrinkKeep l a
        have h2 := loopPass_removed shrinkKeep l a
        have htw := tw_pos l hl hw
        have hRW := rewriteWeights_eq_self l (not_le.mpr htw)
        have hrml := loopPass_shrink_removed_le l a hl
          (fun p hp => (hw p hp).le)
        have hkw : ∀ p ∈ (loopPass shrinkKeep l a).1, 0 < p.2.weight := by
          intro p hp
          have h3 := (loopPass_kept_mem shrinkKeep l a p hp).1
          rw [hRW] at h3
          exact hw p h3
        by_cases hrm : (loopPass shrinkKeep l a).2.2 = 0
        · simp only [removalLoopF]
          rw [if_pos hrm]
          dsimp only
          refine ⟨loopPass_fst_perm shrinkKeep l a, by omega, by omega,
            hkw, ?_⟩
          intro hK
          have h4 : ((loopPass shrinkKeep l a).1.map
              fun p => p.2.major).sum = 0 := by
            rw [hK]
            rfl
          omega
        · simp only [removalLoopF]
          rw [if_neg hrm]
          dsimp only
          have h3 := loopPass_length shrinkKeep l a
          have hlen2 : (loopPass shrinkKeep l a).1.length < fuel := by
            have hd : (loopPass shrinkKeep l a).2.1 ≠ [] := by
              intro he
              rw [he] at h2
              simp at h2
              exact hrm h2
            have := List.length_pos.mpr hd
            omega
          have hinv2 : a - (loopPass shrinkKeep l a).2.2 ≤
              ((loopPass shrinkKeep l a).1.map fun p => p.2.major).sum := by
            omega
          obtain ⟨ih1, ih2, ih3, ih4, ih5⟩ :=
            ih (loopPass shrinkKeep l a).1 (a - (loopPass shrinkKeep l a).2.2)
              hlen2 hkw hinv2
          refine ⟨?_, ?_, ih3, ih4, ih5⟩
          · rw [List.map_append]
            have hs1 : List.Perm
                ((removalLoopF shrinkKeep fuel (loopPass shrinkKeep l a).1
                    (a - (loopPass shrinkKeep l a).2.2)).1.map Prod.fst ++
                  ((loopPass shrinkKeep l a).2.1.map Prod.fst ++
                    (removalLoopF shrinkKeep fuel (loopPass shrinkKeep l a).1
                      (a - (loopPass shrinkKeep l a).2.2)).2.2.map Prod.fst))
                ((removalLoopF shrinkKeep fuel (loopPass shrinkKeep l a).1
                    (a - (loopPass shrinkKeep l a).2.2)).1.map Prod.fst ++
                  ((removalLoopF shrinkKeep fuel (loopPass shrinkKeep l a).1
                      (a - (loopPass shrinkKeep l a).2.2)).2.2.map Prod.fst ++
                    (loopPass shrinkKeep l a).2.1.map Prod.fst)) :=
              List.Perm.append_left _ List.perm_append_comm
            refine hs1.trans ?_
            rw [← List.append_assoc]
            exact (ih1.append_right _).trans (loopPass_fst_perm shrinkKeep l a)
          · rw [List.map_append, List.sum_append]
            omega

/-- Filtering an enumeration by a property of the carried element and
projecting agrees with filtering the underlying list. -/
theorem enumFrom_filter_map {α β : Type} (q : α → Bool) (f : α → β) :
    ∀ (l : List α) (j : Nat),
      (((List.enumFrom j l).filter fun p => q p.2).map fun p => f p.2) =
        (l.filter q).map f := by
  intro l
  induction l with
  | nil => intro j; rfl
  | cons a t ih =>
      intro j
      rw [List.enumFrom_cons]
      by_cases h : q a = true
      · simp [List.filter_cons, h, ih (j + 1)]
      · simp [List.filter_cons, h, ih (j + 1)]

/-- `shrink` conserves space whenever the non-shrinkable sizes fit in
`available` and the shrinkable segments carry positive weights. -/
theorem shrink_sum (segs : List Segment) (av : Nat)
    (hts : av < (segs.map Segment.major).sum)
    (hav : av ≤ 65535)
    (hNF : ((segs.filter fun s => ¬ s.shrinking).map Segment.major).sum ≤ av)
    (hw : ∀ s ∈ segs, s.shrinking = true → 0 < s.weight) :
    ((shrink segs.enum av).map fun p => p.2.major).sum = av ∧
    List.Perm ((shrink segs.enum av).map Prod.fst)
      (List.range segs.length) := by
  have hA : (segs.enum.map fun p => p.2.major) = segs.map Segment.major := by
    rw [show (segs.enum.map fun p => p.2.major) =
      (segs.enum.map Prod.snd).map Segment.major from by
        rw [List.map_map]; rfl, List.enum_map_snd]
  have hNFe : ((segs.enum.filter fun p => ¬ p.2.shrinking).map
      fun p => p.2.major).sum =
      ((segs.filter fun s => ¬ s.shrinking).map Segment.major).sum := by
    rw [show ((segs.enum.filter fun p => ¬ p.2.shrinking).map
      fun p => p.2.major) =
      ((List.enumFrom 0 segs).filter fun p =>
        (fun s => ¬ s.shrinking) p.2).map fun p => Segment.major p.2
      from rfl]
    rw [enumFrom_filter_map (fun s => ¬ s.shrinking) Segment.major segs 0]
  have hpart := filter_sum_partition (fun p => p.2.shrinking) segs.enum
    (fun p => p.2.major)
  rw [hA] at hpart
  have hFw : ∀ p ∈ segs.enum.filter fun p => p.2.shrinking,
      0 < p.2.weight := by
    intro p hp
    obtain ⟨hpm, hpf⟩ := List.mem_filter.mp hp
    exact hw p.2 (by
      have := List.mem_map_of_mem Prod.snd hpm
      rwa [List.enum_map_snd] at this) (by simpa using hpf)
  have hinv : av - ((segs.enum.filter fun p => ¬ p.2.shrinking).map
      fun p => p.2.major).sum ≤
      ((segs.enum.filter fun p => p.2.shrinking).map
        fun p => p.2.major).sum := by
    omega
  obtain ⟨lp1, lp2, lp3, lp4, lp5⟩ := removalLoopF_shrink
    ((segs.enum.filter fun p => p.2.shrinking).length + 1)
    (segs.enum.filter fun p => p.2.shrinking)
    (av - ((segs.enum.filter fun p => ¬ p.2.shrinking).map
      fun p => p.2.major).sum)
    (by omega) hFw hinv
  have havf : (removalLoopF shrinkKeep
      ((segs.enum.filter fun p => p.2.shrinking).length + 1)
      (segs.enum.filter fun p => p.2.shrinking)
      (av - ((segs.enum.filter fun p => ¬ p.2.shrinking).map
        fun p => p.2.major).sum)).2.1 ≤ 65535 := by omega
  obtain ⟨as1, as2⟩ := assign_sum
    (removalLoopF shrinkKeep
      ((segs.enum.filter fun p => p.2.shrinking).length + 1)
      (segs.enum.filter fun p => p.2.shrinking)
      (av - ((segs.enum.filter fun p => ¬ p.2.shrinking).map
        fun p => p.2.major).sum)).1
    (removalLoopF shrinkKeep
      ((segs.enum.filter fun p => p.2.shrinking).length + 1)
      (segs.enum.filter fun p => p.2.shrinking)
      (av - ((segs.enum.filter fun p => ¬ p.2.shrinking).map
        fun p => p.2.major).sum)).2.1
    lp4 lp5 havf
  constructor
  · simp only [shrink]
    rw [retainFlex_split]
    dsimp only
    rw [show removalLoop shrinkKeep
        (segs.enum.filter fun p => p.2.shrinking)
        (av - ((segs.enum.filter fun p => ¬ p.2.shrinking).map
          fun p => p.2.major).sum) =
      removalLoopF shrinkKeep
        ((segs.enum.filter fun p => p.2.shrinking).length + 1)
        (segs.enum.filter fun p => p.2.shrinking)
        (av - ((segs.enum.filter fun p => ¬ p.2.shrinking).map
          fun p => p.2.major).sum) from rfl]
    rw [List.map_append, List.map_append, List.sum_append, List.sum_append]
    rw [as1]
    omega
  · simp only [shrink]
    rw [retainFlex_split]
    dsimp only
    rw [show removalLoop shrinkKeep
        (segs.enum.filter fun p => p.2.shrinking)
        (av - ((segs.enum.filter fun p => ¬ p.2.shrinking).map
          fun p => p.2.major).sum) =
      removalLoopF shrinkKeep
        ((segs.enum.filter fun p => p.2.shrinking).length + 1)
        (segs.enum.filter fun p => p.2.shrinking)
        (av - ((segs.enum.filter fun p => ¬ p.2.shrinking).map
          fun p => p.2.major).sum) from rfl]
    rw [List.map_append, List.map_append, as2]
    have hq := filter_not_perm (fun p => p.2.shrinking) segs.enum
    have hqf := hq.map Prod.fst
    rw [List.map_append] at hqf
    have hperm1 : List.Perm
        ((segs.enum.filter fun p => ¬ p.2.shrinking).map Prod.fst ++
          ((removalLoopF shrinkKeep
            ((segs.enum.filter fun p => p.2.shrinking).length + 1)
            (segs.enum.filter fun p => p.2.shrinking)
            (av - ((segs.enum.filter fun p => ¬ p.2.shrinking).map
              fun p => p.2.major).sum)).2.2.map Prod.fst ++
           (removalLoopF shrinkKeep
            ((segs.enum.filter fun p => p.2.shrinking).length + 1)
            (segs.enum.filter fun p => p.2.shrinking)
            (av - ((segs.enum.filter fun p => ¬ p.2.shrinking).map
              fun p => p.2.major).sum)).1.map Prod.fst))
        ((segs.enum.filter fun p => ¬ p.2.shrinking).map Prod.fst ++
          (segs.enum.filter fun p => p.2.shrinking).map Prod.fst) := by
      refine List.Perm.append_left _ ?_
      exact List.perm_append_comm.trans lp1
    have hperm2 : List.Perm
        ((segs.enum.filter fun p => ¬ p.2.shrinking).map Prod.fst ++
          (segs.enum.filter fun p => p.2.shrinking).map Prod.fst)
        (segs.enum.map Prod.fst) :=
      List.perm_append_comm.trans hqf
    have hrange : segs.enum.map Prod.fst = List.range segs.length :=
      List.enum_map_fst segs
    rw [← List.append_assoc] at hperm1
    refine (hperm1.trans (hperm2.trans ?_))
    rw [hrange]

/-- Re-assembling an update list whose indices are a permutation of the
slots preserves the total size of the updates. -/
theorem applyUpdates_sum (segs : List Segment) (upd : List (Nat × Segment))
    (hperm : List.Perm (upd.map Prod.fst) (List.range segs.length)) :
    ((applyUpdates segs upd).map Segment.major).sum =
      (upd.map fun p => p.2.major).sum := by
  have hnd : (upd.map Prod.fst).Nodup :=
    hperm.nodup_iff.mpr (List.nodup_range _)
  have hfind_self : ∀ p ∈ upd, upd.find? (fun u => u.1 = p.1) = some p := by
    intro p hp
    have h := find?_map_eq id (fun _ => rfl) upd p hnd hp
    rwa [List.map_id] at h
  have hres : (applyUpdates segs upd).map Segment.major =
      (List.range segs.length).map (fun i =>
        (((upd.find? fun u => u.1 = i).map fun u => u.2.major).getD 0)) := by
    unfold applyUpdates
    rw [List.map_map, ← List.enum_map_fst segs, List.map_map]
    apply List.map_congr_left
    intro p hp
    show ((((upd.find? fun u => u.1 = p.1).map (·.2)).getD p.2)).major =
      (((upd.find? fun u => u.1 = p.1).map fun u => u.2.major).getD 0)
    cases hfo : upd.find? fun u => u.1 = p.1 with
    | some u =>
        rfl
    | none =>
        exfalso
        have hp1 : p.1 ∈ upd.map Prod.fst := by
          refine (hperm.mem_iff).mpr ?_
          rw [← List.enum_map_fst segs]
          exact List.mem_map_of_mem Prod.fst hp
        obtain ⟨u, hu, hue⟩ := List.mem_map.mp hp1
        have hso : (upd.find? fun v => v.1 = p.1).isSome := by
          rw [List.find?_isSome]
          exact ⟨u, hu, by simp [hue]⟩
        rw [hfo] at hso
        cases hso
  have hupd : upd.map (fun p => p.2.major) =
      (upd.map Prod.fst).map (fun i =>
        (((upd.find? fun u => u.1 = i).map fun u => u.2.major).getD 0)) := by
    rw [List.map_map]
    apply List.map_congr_left
    intro p hp
    show p.2.major =
      ((upd.find? fun u => u.1 = p.1).map fun u => u.2.major).getD 0
    rw [hfind_self p hp]
    rfl
  rw [hres, hupd]
  exact ((hperm.map _).sum_eq).symm

/-- C6 amended: balancer conservation.  When the total already equals
`available` nothing changes; when it is below `available` (grow) with at
least one growable segment and nonnegative weights, and when it is above
`available` (shrink) with the non-shrinkable sizes fitting into `available`
and positive weights on the shrinkable segments, the resulting sizes sum to
exactly `available` (within the `u16` range). -/
theorem C6_balancer_conservation :
    (∀ (segs : List Segment) (available : Nat),
      total_size segs = available → balance segs available = segs) ∧
    (∀ (segs : List Segment) (available : Nat),
      total_size segs < available → available ≤ 65535 →
      (∃ s ∈ segs, s.growing = true) →
      (∀ s ∈ segs, 0 ≤ s.weight) →
      ((balance segs available).map Segment.major).sum = available) ∧
    (∀ (segs : List Segment) (available : Nat),
      available < total_size segs → available ≤ 65535 →
      ((segs.filter fun s => ¬ s.shrinking).map Segment.major).sum ≤
        available →
      (∀ s ∈ segs, s.shrinking = true → 0 < s.weight) →
      ((balance segs available).map Segment.major).sum = available) := by
  refine ⟨?_, ?_, ?_⟩
  · intro segs av he
    unfold balance
    rw [he, if_neg (lt_irrefl av), if_neg (lt_irrefl av)]
  · intro segs av hts hav hgr hw
    have hsum : (segs.map Segment.major).sum < av := by
      have := total_size_eq_min segs
      omega
    unfold balance
    rw [if_pos hts]
    obtain ⟨g1, g2⟩ := grow_sum segs av hsum hav hgr hw
    rw [applyUpdates_sum segs _ g2]
    exact g1
  · intro segs av hts hav hNF hw
    have hsum : av < (segs.map Segment.major).sum := by
      have := total_size_eq_min segs
      omega
    unfold balance
    rw [if_neg (by omega), if_pos hts]
    obtain ⟨g1, g2⟩ := shrink_sum segs av hsum hav hNF hw
    rw [applyUpdates_sum segs _ g2]
    exact g1

/-- Witness for C6: growing `[3 (growable, weight 1), 5 (fixed)]` into 12
cells yields sizes summing to exactly 12. -/
theorem C6_witness :
    ((balance [⟨3, 0, 1, true, true⟩, ⟨5, 0, 0, false, true⟩] 12).map
      Segment.major).sum = 12 :=
  C6_balancer_conservation.2.1
    [⟨3, 0, 1, true, true⟩, ⟨5, 0, 0, false, true⟩] 12
    (by decide) (by decide)
    ⟨⟨3, 0, 1, true, true⟩, List.mem_cons_self _ _, rfl⟩
    (by
      intro s hs
      fin_cases hs <;> norm_num)

theorem wrapStep_decompose (tw width : Nat)
    (brkAt : Nat → Option BreakOpportunity) (st : WrapState) (gi : Nat)
    (g : WrapGrapheme) :
    wrapStep tw width brkAt st gi g =
      wrapWidthPhase tw width (wrapBreakPhase brkAt st gi) gi g := rfl

theorem sumWidth_append (l : List WrapGrapheme) (g : WrapGrapheme) :
    sumWidth (l ++ [g]) = sumWidth l + g.width := by
  simp [sumWidth]

theorem trimLine_append_ws (l : List WrapGrapheme) (g : WrapGrapheme)
    (h : g.ws = true) : trimLine (l ++ [g]) = trimLine l := by
  simp [trimLine, List.dropWhile, h]

theorem trimLine_append_nonws (l : List WrapGrapheme) (g : WrapGrapheme)
    (h : g.ws = false) : trimLine (l ++ [g]) = l ++ [g] := by
  simp [trimLine, List.dropWhile, h]

theorem trimmedSum_append_ws (l : List WrapGrapheme) (g : WrapGrapheme)
    (h : g.ws = true) : trimmedSum (l ++ [g]) = trimmedSum l := by
  simp [trimmedSum, trimLine_append_ws l g h]

theorem trimmedSum_append_nonws (l : List WrapGrapheme) (g : WrapGrapheme)
    (h : g.ws = false) :
    trimmedSum (l ++ [g]) = sumWidth l + g.width := by
  simp [trimmedSum, trimLine_append_nonws l g h, sumWidth_append]

theorem trimLine_sublist (l : List WrapGrapheme) :
    List.Sublist (trimLine l) l := by
  have h1 : List.Sublist (l.reverse.dropWhile fun g => g.ws) l.reverse :=
    List.dropWhile_sublist _
  have h2 := h1.reverse
  simpa [trimLine] using h2

theorem trimmedSum_le_sumWidth (l : List WrapGrapheme) :
    trimmedSum l ≤ sumWidth l := by
  have h := (trimLine_sublist l).map (fun g => g.width)
  exact List.Sublist.sum_le_sum h (by intro x hx; exact Nat.zero_le x)

theorem trimmedSum_nil : trimmedSum [] = 0 := rfl

theorem trimmedSum_singleton (g : WrapGrapheme) :
    trimmedSum [g] = if g.ws then 0 else g.width := by
  cases h : g.ws
  · simpa [trimmedSum, sumWidth] using
      congrArg sumWidth (trimLine_append_nonws [] g h)
  · simpa [trimmedSum, sumWidth] using
      congrArg sumWidth (trimLine_append_ws [] g h)

theorem sumWidth_map_filter_add (L : List (Nat × WrapGrapheme))
    (p : Nat × WrapGrapheme → Bool) :
    sumWidth ((L.filter p).map fun q => q.2) +
      sumWidth ((L.filter fun q => ¬ p q).map fun q => q.2) =
      sumWidth (L.map fun q => q.2) := by
  induction L with
  | nil => rfl
  | cons q t ih =>
      by_cases h : p q = true
      · simp [List.filter_cons, h, sumWidth, List.sum_cons] at ih ⊢
        omega
      · simp [List.filter_cons, h, sumWidth, List.sum_cons] at ih ⊢
        omega

theorem sumWidth_pos_of_posw (l : List WrapGrapheme)
    (h : ∀ x ∈ l, 1 ≤ x.width) (hne : l ≠ []) : 1 ≤ sumWidth l := by
  cases l with
  | nil => exact absurd rfl hne
  | cons x t =>
      have hx : 1 ≤ x.width := h x (List.mem_cons_self _ _)
      simp [sumWidth, List.sum_cons]
      omega

theorem remSegs_append_break (l : List (Nat × WrapGrapheme))
    (offs : List Nat) (b : Nat) :
    remSegs l (offs ++ [b]) = (remSegs l offs).filter fun p => ¬ p.1 < b := by
  induction offs generalizing l with
  | nil => rfl
  | cons off offs ih => simp [remSegs, ih]

theorem remSegs_append_pair (l : List (Nat × WrapGrapheme))
    (offs : List Nat) (q : Nat × WrapGrapheme)
    (h : ∀ b ∈ offs, b ≤ q.1) :
    remSegs (l ++ [q]) offs = remSegs l offs ++ [q] := by
  induction offs generalizing l with
  | nil => rfl
  | cons off offs ih =>
      have hoff : off ≤ q.1 := h off (List.mem_cons_self _ _)
      have hq : (decide ¬ q.1 < off) = true := decide_eq_true (by omega)
      simp only [remSegs, List.filter_append, List.filter_cons,
        List.filter_nil, hq, eq_self_iff_true, if_true]
      exact ih _ fun b hb => h b (List.mem_cons_of_mem _ hb)

theorem remSegs_sublist (l : List (Nat × WrapGrapheme)) (offs : List Nat) :
    List.Sublist (remSegs l offs) l := by
  induction offs generalizing l with
  | nil => exact List.Sublist.refl l
  | cons off offs ih =>
      exact List.Sublist.trans (ih _) (List.filter_sublist _)

theorem remSegs_subset (l : List (Nat × WrapGrapheme)) (offs : List Nat)
    (p : Nat × WrapGrapheme) (hp : p ∈ remSegs l offs) : p ∈ l :=
  (remSegs_sublist l offs).subset hp

theorem splitSegs_ne_nil (l : List (Nat × WrapGrapheme)) (offs : List Nat) :
    splitSegs l offs ≠ [] := by
  cases offs <;> simp [splitSegs]

theorem dropLast_cons_ne {α : Type} (a : α) (l : List α) (h : l ≠ []) :
    (a :: l).dropLast = a :: l.dropLast := by
  cases l with
  | nil => exact absurd rfl h
  | cons b t => rfl

theorem splitSegs_dropLast_break (l : List (Nat × WrapGrapheme))
    (offs : List Nat) (b : Nat) :
    (splitSegs l (offs ++ [b])).dropLast =
      (splitSegs l offs).dropLast ++
        [((remSegs l offs).filter fun p => p.1 < b).map fun p => p.2] := by
  induction offs generalizing l with
  | nil => rfl
  | cons off offs ih =>
      simp only [List.cons_append, splitSegs, remSegs, List.append_eq]
      rw [dropLast_cons_ne _ _ (splitSegs_ne_nil _ _),
        dropLast_cons_ne _ _ (splitSegs_ne_nil _ _), ih]
      rfl

theorem splitSegs_dropLast_pair (l : List (Nat × WrapGrapheme))
    (offs : List Nat) (q : Nat × WrapGrapheme)
    (h : ∀ b ∈ offs, b ≤ q.1) :
    (splitSegs (l ++ [q]) offs).dropLast = (splitSegs l offs).dropLast := by
  induction offs generalizing l with
  | nil => rfl
  | cons off offs ih =>
      have hoff : off ≤ q.1 := h off (List.mem_cons_self _ _)
      have hq1 : (decide (q.1 < off)) = false := decide_eq_false (by omega)
      have hq2 : (decide ¬ q.1 < off) = true := decide_eq_true (by omega)
      simp only [splitSegs, List.filter_append, List.filter_cons,
        List.filter_nil, hq1, hq2, eq_self_iff_true, if_true,
        Bool.false_eq_true, if_false, List.append_nil]
      rw [dropLast_cons_ne _ _ (splitSegs_ne_nil _ _),
        dropLast_cons_ne _ _ (splitSegs_ne_nil _ _)]
      rw [ih _ fun b hb => h b (List.mem_cons_of_mem _ hb)]

theorem splitSegs_eq_dropLast_append (l : List (Nat × WrapGrapheme))
    (offs : List Nat) :
    splitSegs l offs =
      (splitSegs l offs).dropLast ++ [(remSegs l offs).map fun p => p.2] := by
  induction offs generalizing l with
  | nil => rfl
  | cons off offs ih =>
      simp only [splitSegs, remSegs]
      rw [dropLast_cons_ne _ _ (splitSegs_ne_nil _ _)]
      rw [List.cons_append]
      rw [← ih]

theorem splitSegs_mem_graphemes (l : List (Nat × WrapGrapheme))
    (offs : List Nat) (seg : List WrapGrapheme)
    (hseg : seg ∈ splitSegs l offs) (g : WrapGrapheme) (hgi : g ∈ seg) :
    ∃ p ∈ l, p.2 = g := by
  induction offs generalizing l with
  | nil =>
      simp only [splitSegs, List.mem_singleton] at hseg
      subst hseg
      obtain ⟨p, hp, hpg⟩ := List.mem_map.mp hgi
      exact ⟨p, hp, hpg⟩
  | cons off offs ih =>
      simp only [splitSegs, List.mem_cons] at hseg
      rcases hseg with rfl | hseg
      · obtain ⟨p, hp, hpg⟩ := List.mem_map.mp hgi
        exact ⟨p, (List.filter_sublist _).subset hp, hpg⟩
      · obtain ⟨p, hp, hpg⟩ := ih _ hseg
        exact ⟨p, (List.filter_sublist _).subset hp, hpg⟩

theorem pairsFrom_ge (n : Nat) (gs : List WrapGrapheme)
    (p : Nat × WrapGrapheme) (hp : p ∈ pairsFrom n gs) : n ≤ p.1 := by
  induction gs generalizing n with
  | nil => simp [pairsFrom] at hp
  | cons g gs ih =>
      simp only [pairsFrom, List.mem_cons] at hp
      rcases hp with rfl | hp
      · exact Nat.le_refl n
      · exact Nat.le_trans (Nat.le_add_right _ _) (ih _ hp)

theorem pairsFrom_snd_mem (n : Nat) (gs : List WrapGrapheme)
    (p : Nat × WrapGrapheme) (hp : p ∈ pairsFrom n gs) : p.2 ∈ gs := by
  induction gs generalizing n with
  | nil => simp [pairsFrom] at hp
  | cons g gs ih =>
      simp only [pairsFrom, List.mem_cons] at hp
      rcases hp with rfl | hp
      · exact List.mem_cons_self _ _
      · exact List.mem_cons_of_mem _ (ih _ hp)

theorem withIndices_eq_pairsFrom (text : List WrapGrapheme) :
    withIndices text = pairsFrom 0 text := by
  have key : ∀ (gs : List WrapGrapheme) (n : Nat)
      (acc : List (Nat × WrapGrapheme)),
      (gs.foldl
        (fun (a : Nat × List (Nat × WrapGrapheme)) g =>
          (a.1 + g.bytes, a.2 ++ [(a.1, g)]))
        (n, acc)).2 = acc ++ pairsFrom n gs := by
    intro gs
    induction gs with
    | nil => intro n acc; simp [pairsFrom]
    | cons g gs ih =>
        intro n acc
        simp only [List.foldl_cons, pairsFrom]
        rw [ih]
        simp
  simpa [withIndices] using key text 0 []

theorem remSegs_filter_lt_self (P : List (Nat × WrapGrapheme))
    (offs : List Nat) (n : Nat)
    (h2 : ∀ p ∈ P, p.1 < n) :
    (remSegs P offs).filter (fun p => p.1 < n) = remSegs P offs := by
  rw [List.filter_eq_self]
  intro p hp
  exact decide_eq_true (h2 p (remSegs_subset P offs p hp))

theorem remSegs_filter_ge_nil (P : List (Nat × WrapGrapheme))
    (offs : List Nat) (n : Nat)
    (h2 : ∀ p ∈ P, p.1 < n) :
    (remSegs P offs).filter (fun p => ¬ p.1 < n) = [] := by
  rw [List.filter_eq_nil_iff]
  intro p hp
  have := h2 p (remSegs_subset P offs p hp)
  simp
  omega

theorem goodLine_nil (width : Nat) : goodLine width [] :=
  Or.inl (Nat.zero_le width)

theorem wrapBreakPhase_inv (width : Nat)
    (brkAt : Nat → Option BreakOpportunity) (st : WrapState)
    (P : List (Nat × WrapGrapheme)) (n : Nat)
    (hI : WrapInv width st P n) :
    WrapInv width (wrapBreakPhase brkAt st n) P n := by
  obtain ⟨h1, h2, hcw, hcwt, h5, h6, h7⟩ := hI
  unfold wrapBreakPhase
  cases hbr : brkAt n with
  | none => exact ⟨h1, h2, hcw, hcwt, h5, h6, h7⟩
  | some b =>
      cases b with
      | Mandatory =>
          have hrem : remSegs P (st.breaks ++ [n]) = [] := by
            rw [remSegs_append_break]
            exact remSegs_filter_ge_nil P st.breaks n h2
          have hdl : (splitSegs P (st.breaks ++ [n])).dropLast =
              (splitSegs P st.breaks).dropLast ++
                [(remSegs P st.breaks).map fun p => p.2] := by
            rw [splitSegs_dropLast_break,
              remSegs_filter_lt_self P st.breaks n h2]
          refine ⟨?_, h2, ?_, ?_, ?_, ?_, ?_⟩
          · intro b hb
            rcases List.mem_append.mp hb with hb | hb
            · exact h1 b hb
            · rcases List.mem_singleton.mp hb with rfl
              exact Nat.le_refl _
          · rw [hrem]; rfl
          · rw [hrem]; rfl
          · rw [hdl]
            intro seg hseg
            rcases List.mem_append.mp hseg with hseg | hseg
            · exact h5 seg hseg
            · rcases List.mem_singleton.mp hseg with rfl
              exact h6
          · rw [hrem]
            exact goodLine_nil width
          · intro bi hbi
            simp at hbi
      | Allowed =>
          refine ⟨h1, h2, hcw, hcwt, h5, h6, ?_⟩
          intro bi hbi
          simp only [Option.some.injEq] at hbi
          subst hbi
          refine ⟨Nat.le_refl n, h1, ?_, ?_, ?_⟩
          · rw [remSegs_filter_lt_self P st.breaks n h2]
            exact hcw
          · rw [remSegs_filter_lt_self P st.breaks n h2]
            exact h6
          · rw [remSegs_filter_ge_nil P st.breaks n h2]
            exact Nat.zero_le width

theorem filter_lt_self_of_lt (M : List (Nat × WrapGrapheme)) (n : Nat)
    (h : ∀ p ∈ M, p.1 < n) : (M.filter fun p => p.1 < n) = M := by
  rw [List.filter_eq_self]
  intro p hp
  exact decide_eq_true (h p hp)

theorem filter_ge_nil_of_lt (M : List (Nat × WrapGrapheme)) (n : Nat)
    (h : ∀ p ∈ M, p.1 < n) : (M.filter fun p => ¬ p.1 < n) = [] := by
  rw [List.filter_eq_nil_iff]
  intro p hp
  have := h p hp
  simp
  omega

theorem sumWidth_filter_lt_add (L : List (Nat × WrapGrapheme)) (bi : Nat) :
    sumWidth ((L.filter fun p => p.1 < bi).map fun p => p.2) +
      sumWidth ((L.filter fun p => ¬ p.1 < bi).map fun p => p.2) =
      sumWidth (L.map fun p => p.2) := by
  induction L with
  | nil => rfl
  | cons q t ih =>
      by_cases h : q.1 < bi
      · have hd1 : (decide (q.1 < bi)) = true := decide_eq_true h
        have hd2 : (decide ¬ q.1 < bi) = false := decide_eq_false (by omega)
        simp only [List.filter_cons, hd1, hd2, eq_self_iff_true, if_true,
          Bool.false_eq_true, if_false, List.map_cons, List.sum_cons,
          sumWidth] at ih ⊢
        omega
      · have hd1 : (decide (q.1 < bi)) = false := decide_eq_false h
        have hd2 : (decide ¬ q.1 < bi) = true := decide_eq_true h
        simp only [List.filter_cons, hd1, hd2, eq_self_iff_true, if_true,
          Bool.false_eq_true, if_false, List.map_cons, List.sum_cons,
          sumWidth] at ih ⊢
        omega

theorem trimmedSum_singleton_ws (g : WrapGrapheme) (h : g.ws = true) :
    trimmedSum [g] = 0 := by
  simp [trimmedSum_singleton, h]

theorem trimmedSum_singleton_nonws (g : WrapGrapheme) (h : g.ws = false) :
    trimmedSum [g] = g.width := by
  simp [trimmedSum_singleton, h]

theorem wrapWidthPhase_inv (tw width : Nat) (st : WrapState)
    (P : List (Nat × WrapGrapheme)) (n : Nat) (g : WrapGrapheme)
    (hI : WrapInv width st P n)
    (hP : ∀ p ∈ P, 1 ≤ (p.2).width)
    (hgt : g.isTab = false) (hgb : 1 ≤ g.bytes) :
    WrapInv width (wrapWidthPhase tw width st n g) (P ++ [(n, g)])
      (n + g.bytes) := by
  unfold WrapInv at hI ⊢
  obtain ⟨h1, h2, hcw, hcwt, h5, h6, h7⟩ := hI
  have hrem : remSegs (P ++ [(n, g)]) st.breaks =
      remSegs P st.breaks ++ [(n, g)] :=
    remSegs_append_pair P st.breaks (n, g) h1
  have hdl : (splitSegs (P ++ [(n, g)]) st.breaks).dropLast =
      (splitSegs P st.breaks).dropLast :=
    splitSegs_dropLast_pair P st.breaks (n, g) h1
  have h2' : ∀ p ∈ P ++ [(n, g)], p.1 < n + g.bytes := by
    intro p hp
    rcases List.mem_append.mp hp with hp | hp
    · exact Nat.lt_of_lt_of_le (h2 p hp) (Nat.le_add_right n g.bytes)
    · rcases List.mem_singleton.mp hp with rfl
      omega
  have h1' : ∀ b ∈ st.breaks, b ≤ n + g.bytes := fun b hb =>
    Nat.le_trans (h1 b hb) (Nat.le_add_right n g.bytes)
  have hmap : (remSegs P st.breaks ++ [(n, g)]).map (fun p => p.2) =
      ((remSegs P st.breaks).map fun p => p.2) ++ [g] := by simp
  have hfilter_lt_q : ∀ bi, bi ≤ n →
      ((remSegs P st.breaks ++ [(n, g)]).filter fun p => p.1 < bi) =
      (remSegs P st.breaks).filter fun p => p.1 < bi := by
    intro bi hbi
    rw [List.filter_append]
    have hq : ([(n, g)].filter fun p => p.1 < bi) =
        ([] : List (Nat × WrapGrapheme)) := by
      simp
      omega
    rw [hq, List.append_nil]
  have hfilter_ge_q : ∀ bi, bi ≤ n →
      ((remSegs P st.breaks ++ [(n, g)]).filter fun p => ¬ p.1 < bi) =
      ((remSegs P st.breaks).filter fun p => ¬ p.1 < bi) ++ [(n, g)] := by
    intro bi hbi
    rw [List.filter_append]
    have hq : ([(n, g)].filter fun p => ¬ p.1 < bi) = [(n, g)] := by
      simp
      omega
    rw [hq]
  have hLnil_of : ∀ M : List (Nat × WrapGrapheme),
      (∀ p ∈ M, p ∈ P) → sumWidth (M.map fun p => p.2) = 0 → M = [] := by
    intro M hsub hsum
    cases M with
    | nil => rfl
    | cons q t =>
        exfalso
        have h1w : 1 ≤ sumWidth ((q :: t).map fun p => p.2) := by
          apply sumWidth_pos_of_posw
          · intro x hx
            obtain ⟨p, hpmem, rfl⟩ := List.mem_map.mp hx
            exact hP p (hsub p hpmem)
          · simp
        omega
  cases hws : g.ws with
  | false =>
      cases hvb : st.validBreak with
      | none =>
          by_cases hbig : width < st.currentWidth + g.width
          · by_cases hsolo : st.currentWidth + g.width = g.width
            · -- forced-break check fires but the grapheme is alone on the
              -- line: it is kept as a single over-wide line
              have hres : wrapWidthPhase tw width st n g =
                  ⟨st.breaks, st.validBreak, st.validBreakWidth,
                    st.currentWidth + g.width, st.currentWidth + g.width⟩ := by
                simp [wrapWidthPhase, hgt, hws, hvb, hbig, hsolo]
              rw [hres]
              have hLnil : remSegs P st.breaks = [] := by
                apply hLnil_of
                · exact fun p hp => remSegs_subset P st.breaks p hp
                · omega
              refine ⟨h1', h2', ?_, ?_, ?_, ?_, ?_⟩
              · rw [hrem, hmap, sumWidth_append, ← hcw]
              · rw [hrem, hmap, trimmedSum_append_nonws _ _ hws, ← hcw]
              · rw [hdl]
                exact h5
              · rw [hrem, hLnil]
                refine Or.inr ⟨g, by simp, ?_⟩
                omega
              · intro bi2 hbi2
                rw [hvb] at hbi2
                simp at hbi2
            · -- forced break: the previous line is completed as-is and the
              -- grapheme starts a fresh line
              have hres : wrapWidthPhase tw width st n g =
                  ⟨st.breaks ++ [n], none, 0, g.width, g.width⟩ := by
                simp [wrapWidthPhase, hgt, hws, hvb, hbig, hsolo]
              rw [hres]
              have hrem3 : remSegs (P ++ [(n, g)]) (st.breaks ++ [n]) =
                  [(n, g)] := by
                rw [remSegs_append_break, hrem,
                  hfilter_ge_q n (Nat.le_refl n),
                  remSegs_filter_ge_nil P st.breaks n h2,
                  List.nil_append]
              have hdl3 :
                  (splitSegs (P ++ [(n, g)]) (st.breaks ++ [n])).dropLast =
                  (splitSegs P st.breaks).dropLast ++
                    [(remSegs P st.breaks).map fun p => p.2] := by
                rw [splitSegs_dropLast_break, hdl, hrem,
                  hfilter_lt_q n (Nat.le_refl n),
                  remSegs_filter_lt_self P st.breaks n h2]
              refine ⟨?_, h2', ?_, ?_, ?_, ?_, ?_⟩
              · intro b hb
                rcases List.mem_append.mp hb with hb | hb
                · exact h1' b hb
                · rcases List.mem_singleton.mp hb with rfl
                  omega
              · rw [hrem3]
                simp [sumWidth]
              · rw [hrem3]
                simp only [List.map_cons, List.map_nil]
                rw [trimmedSum_singleton_nonws _ hws]
              · rw [hdl3]
                intro seg hseg
                rcases List.mem_append.mp hseg with hseg | hseg
                · exact h5 seg hseg
                · rcases List.mem_singleton.mp hseg with rfl
                  exact h6
              · rw [hrem3]
                simp only [List.map_cons, List.map_nil]
                by_cases hwide : width < g.width
                · exact Or.inr ⟨g, rfl, hwide⟩
                · refine Or.inl ?_
                  rw [trimmedSum_singleton_nonws _ hws]
                  omega
              · intro bi2 hbi2
                simp at hbi2
          · -- no break: the grapheme joins the current line
            have hres : wrapWidthPhase tw width st n g =
                ⟨st.breaks, st.validBreak, st.validBreakWidth,
                  st.currentWidth + g.width, st.currentWidth + g.width⟩ := by
              simp [wrapWidthPhase, hgt, hws, hvb, hbig]
            rw [hres]
            refine ⟨h1', h2', ?_, ?_, ?_, ?_, ?_⟩
            · rw [hrem, hmap, sumWidth_append, ← hcw]
            · rw [hrem, hmap, trimmedSum_append_nonws _ _ hws, ← hcw]
            · rw [hdl]
              exact h5
            · refine Or.inl ?_
              rw [hrem, hmap, trimmedSum_append_nonws _ _ hws, ← hcw]
              omega
            · intro bi2 hbi2
              rw [hvb] at hbi2
              simp at hbi2
      | some bi =>
          obtain ⟨hbin, hbrkbi, hvbw, hgoodA, htrimR⟩ := h7 bi hvb
          have hremB : remSegs (P ++ [(n, g)]) (st.breaks ++ [bi]) =
              ((remSegs P st.breaks).filter fun p => ¬ p.1 < bi) ++
                [(n, g)] := by
            rw [remSegs_append_break, hrem, hfilter_ge_q bi hbin]
          have hdlB :
              (splitSegs (P ++ [(n, g)]) (st.breaks ++ [bi])).dropLast =
              (splitSegs P st.breaks).dropLast ++
                [((remSegs P st.breaks).filter fun p => p.1 < bi).map
                  fun p => p.2] := by
            rw [splitSegs_dropLast_break, hdl, hrem, hfilter_lt_q bi hbin]
          have hpart := sumWidth_filter_lt_add (remSegs P st.breaks) bi
          by_cases hbig : width < st.currentWidth + g.width
          · by_cases hbig2 :
                width < st.currentWidth + g.width - st.validBreakWidth
            · by_cases hsolo :
                  st.currentWidth + g.width - st.validBreakWidth = g.width
              · -- wrap at the valid break; the rest of the line is the
                -- over-wide grapheme alone, which is kept
                have hres : wrapWidthPhase tw width st n g =
                    ⟨st.breaks ++ [bi], none, 0,
                      st.currentWidth + g.width - st.validBreakWidth,
                      st.currentWidth + g.width - st.validBreakWidth⟩ := by
                  simp [wrapWidthPhase, hgt, hws, hvb, hbig, hbig2, hsolo]
                rw [hres]
                have hR0 : sumWidth
                    (((remSegs P st.breaks).filter fun p => ¬ p.1 < bi).map
                      fun p => p.2) = 0 := by
                  omega
                have hRnil :
                    ((remSegs P st.breaks).filter fun p => ¬ p.1 < bi) =
                      [] := by
                  apply hLnil_of
                  · exact fun p hp => remSegs_subset P st.breaks p
                      ((List.filter_sublist _).subset hp)
                  · exact hR0
                refine ⟨?_, h2', ?_, ?_, ?_, ?_, ?_⟩
                · intro b hb
                  rcases List.mem_append.mp hb with hb | hb
                  · exact h1' b hb
                  · rcases List.mem_singleton.mp hb with rfl
                    omega
                · rw [hremB, List.map_append]
                  simp only [List.map_cons, List.map_nil]
                  rw [sumWidth_append]
                  omega
                · rw [hremB, List.map_append]
                  simp only [List.map_cons, List.map_nil]
                  rw [trimmedSum_append_nonws _ _ hws]
                  omega
                · rw [hdlB]
                  intro seg hseg
                  rcases List.mem_append.mp hseg with hseg | hseg
                  · exact h5 seg hseg
                  · rcases List.mem_singleton.mp hseg with rfl
                    exact hgoodA
                · rw [hremB, hRnil]
                  refine Or.inr ⟨g, by simp, ?_⟩
                  omega
                · intro bi2 hbi2
                  simp at hbi2
              · -- wrap at the valid break, then a forced break: the part
                -- after the valid break is completed and the grapheme
                -- starts a fresh line
                have hres : wrapWidthPhase tw width st n g =
                    ⟨st.breaks ++ [bi] ++ [n], none, 0,
                      g.width, g.width⟩ := by
                  simp [wrapWidthPhase, hgt, hws, hvb, hbig, hbig2, hsolo]
                rw [hres]
                have hsubR : ∀ p ∈
                    (remSegs P st.breaks).filter fun p => ¬ p.1 < bi,
                    p.1 < n := fun p hp =>
                  h2 p (remSegs_subset P st.breaks p
                    ((List.filter_sublist _).subset hp))
                have hrem6 : remSegs (P ++ [(n, g)])
                    (st.breaks ++ [bi] ++ [n]) = [(n, g)] := by
                  rw [remSegs_append_break, hremB, List.filter_append,
                    filter_ge_nil_of_lt _ n hsubR]
                  simp
                have hdl6 : (splitSegs (P ++ [(n, g)])
                    (st.breaks ++ [bi] ++ [n])).dropLast =
                    ((splitSegs P st.breaks).dropLast ++
                      [((remSegs P st.breaks).filter fun p =>
                        p.1 < bi).map fun p => p.2]) ++
                      [((remSegs P st.breaks).filter fun p =>
                        ¬ p.1 < bi).map fun p => p.2] := by
                  rw [splitSegs_dropLast_break, hdlB, hremB,
                    List.filter_append, filter_lt_self_of_lt _ n hsubR]
                  have hq : ([(n, g)].filter fun p => p.1 < n) =
                      ([] : List (Nat × WrapGrapheme)) := by
                    simp
                  rw [hq, List.append_nil]
                refine ⟨?_, h2', ?_, ?_, ?_, ?_, ?_⟩
                · intro b hb
                  rcases List.mem_append.mp hb with hb | hb
                  · rcases List.mem_append.mp hb with hb | hb
                    · exact h1' b hb
                    · rcases List.mem_singleton.mp hb with rfl
                      omega
                  · rcases List.mem_singleton.mp hb with rfl
                    omega
                · rw [hrem6]
                  simp [sumWidth]
                · rw [hrem6]
                  simp only [List.map_cons, List.map_nil]
                  rw [trimmedSum_singleton_nonws _ hws]
                · rw [hdl6]
                  intro seg hseg
                  rcases List.mem_append.mp hseg with hseg | hseg
                  · rcases List.mem_append.mp hseg with hseg | hseg
                    · exact h5 seg hseg
                    · rcases List.mem_singleton.mp hseg with rfl
                      exact hgoodA
                  · rcases List.mem_singleton.mp hseg with rfl
                    exact Or.inl htrimR
                · rw [hrem6]
                  simp only [List.map_cons, List.map_nil]
                  by_cases hwide : width < g.width
                  · exact Or.inr ⟨g, rfl, hwide⟩
                  · refine Or.inl ?_
                    rw [trimmedSum_singleton_nonws _ hws]
                    omega
                · intro bi2 hbi2
                  simp at hbi2
            · -- wrap at the valid break; the rest of the line fits
              have hres : wrapWidthPhase tw width st n g =
                  ⟨st.breaks ++ [bi], none, 0,
                    st.currentWidth + g.width - st.validBreakWidth,
                    st.currentWidth + g.width - st.validBreakWidth⟩ := by
                simp [wrapWidthPhase, hgt, hws, hvb, hbig, hbig2]
              rw [hres]
              refine ⟨?_, h2', ?_, ?_, ?_, ?_, ?_⟩
              · intro b hb
                rcases List.mem_append.mp hb with hb | hb
                · exact h1' b hb
                · rcases List.mem_singleton.mp hb with rfl
                  omega
              · rw [hremB, List.map_append]
                simp only [List.map_cons, List.map_nil]
                rw [sumWidth_append]
                omega
              · rw [hremB, List.map_append]
                simp only [List.map_cons, List.map_nil]
                rw [trimmedSum_append_nonws _ _ hws]
                omega
              · rw [hdlB]
                intro seg hseg
                rcases List.mem_append.mp hseg with hseg | hseg
                · exact h5 seg hseg
                · rcases List.mem_singleton.mp hseg with rfl
                  exact hgoodA
              · refine Or.inl ?_
                rw [hremB, List.map_append]
                simp only [List.map_cons, List.map_nil]
                rw [trimmedSum_append_nonws _ _ hws]
                omega
              · intro bi2 hbi2
                simp at hbi2
          · -- no break: the grapheme joins the current line and the valid
            -- break is kept
            have hres : wrapWidthPhase tw width st n g =
                ⟨st.breaks, st.validBreak, st.validBreakWidth,
                  st.currentWidth + g.width, st.currentWidth + g.width⟩ := by
              simp [wrapWidthPhase, hgt, hws, hvb, hbig]
            rw [hres]
            refine ⟨h1', h2', ?_, ?_, ?_, ?_, ?_⟩
            · rw [hrem, hmap, sumWidth_append, ← hcw]
            · rw [hrem, hmap, trimmedSum_append_nonws _ _ hws, ← hcw]
            · rw [hdl]
              exact h5
            · refine Or.inl ?_
              rw [hrem, hmap, trimmedSum_append_nonws _ _ hws, ← hcw]
              omega
            · intro bi2 hbi2
              rw [hvb] at hbi2
              simp only [Option.some.injEq] at hbi2
              subst hbi2
              refine ⟨Nat.le_trans hbin (Nat.le_add_right n g.bytes),
                hbrkbi, ?_, ?_, ?_⟩
              · rw [hrem, hfilter_lt_q bi hbin]
                exact hvbw
              · rw [hrem, hfilter_lt_q bi hbin]
                exact hgoodA
              · rw [hrem, hfilter_ge_q bi hbin, List.map_append]
                simp only [List.map_cons, List.map_nil]
                rw [trimmedSum_append_nonws _ _ hws]
                have hle := hpart
                omega
  | true =>
      cases hvb : st.validBreak with
      | none =>
          by_cases hbig : width < st.currentWidthTrimmed
          · by_cases hsolo : st.currentWidth + g.width = g.width
            · -- impossible: the current line is empty, so its trimmed
              -- width is zero and cannot exceed the limit
              exfalso
              have hLnil : remSegs P st.breaks = [] := by
                apply hLnil_of
                · exact fun p hp => remSegs_subset P st.breaks p hp
                · omega
              rw [hLnil] at hcwt
              simp [trimmedSum, trimLine, sumWidth] at hcwt
              omega
            · -- forced break on a whitespace grapheme
              have hres : wrapWidthPhase tw width st n g =
                  ⟨st.breaks ++ [n], none, 0, g.width, 0⟩ := by
                simp [wrapWidthPhase, hgt, hws, hvb, hbig, hsolo]
              rw [hres]
              have hrem3 : remSegs (P ++ [(n, g)]) (st.breaks ++ [n]) =
                  [(n, g)] := by
                rw [remSegs_append_break, hrem,
                  hfilter_ge_q n (Nat.le_refl n),
                  remSegs_filter_ge_nil P st.breaks n h2,
                  List.nil_append]
              have hdl3 :
                  (splitSegs (P ++ [(n, g)]) (st.breaks ++ [n])).dropLast =
                  (splitSegs P st.breaks).dropLast ++
                    [(remSegs P st.breaks).map fun p => p.2] := by
                rw [splitSegs_dropLast_break, hdl, hrem,
                  hfilter_lt_q n (Nat.le_refl n),
                  remSegs_filter_lt_self P st.breaks n h2]
              refine ⟨?_, h2', ?_, ?_, ?_, ?_, ?_⟩
              · intro b hb
                rcases List.mem_append.mp hb with hb | hb
                · exact h1' b hb
                · rcases List.mem_singleton.mp hb with rfl
                  omega
              · rw [hrem3]
                simp [sumWidth]
              · rw [hrem3]
                simp only [List.map_cons, List.map_nil]
                rw [trimmedSum_singleton_ws _ hws]
              · rw [hdl3]
                intro seg hseg
                rcases List.mem_append.mp hseg with hseg | hseg
                · exact h5 seg hseg
                · rcases List.mem_singleton.mp hseg with rfl
                  exact h6
              · rw [hrem3]
                refine Or.inl ?_
                simp only [List.map_cons, List.map_nil]
                rw [trimmedSum_singleton_ws _ hws]
                omega
              · intro bi2 hbi2
                simp at hbi2
          · -- whitespace grapheme joins the line without changing the
            -- trimmed width
            have hres : wrapWidthPhase tw width st n g =
                ⟨st.breaks, st.validBreak, st.validBreakWidth,
                  st.currentWidth + g.width, st.currentWidthTrimmed⟩ := by
              simp [wrapWidthPhase, hgt, hws, hvb, hbig]
            rw [hres]
            refine ⟨h1', h2', ?_, ?_, ?_, ?_, ?_⟩
            · rw [hrem, hmap, sumWidth_append, ← hcw]
            · rw [hrem, hmap, trimmedSum_append_ws _ _ hws, ← hcwt]
            · rw [hdl]
              exact h5
            · refine Or.inl ?_
              rw [hrem, hmap, trimmedSum_append_ws _ _ hws, ← hcwt]
              omega
            · intro bi2 hbi2
              rw [hvb] at hbi2
              simp at hbi2
      | some bi =>
          obtain ⟨hbin, hbrkbi, hvbw, hgoodA, htrimR⟩ := h7 bi hvb
          have hremB : remSegs (P ++ [(n, g)]) (st.breaks ++ [bi]) =
              ((remSegs P st.breaks).filter fun p => ¬ p.1 < bi) ++
                [(n, g)] := by
            rw [remSegs_append_break, hrem, hfilter_ge_q bi hbin]
          have hdlB :
              (splitSegs (P ++ [(n, g)]) (st.breaks ++ [bi])).dropLast =
              (splitSegs P st.breaks).dropLast ++
                [((remSegs P st.breaks).filter fun p => p.1 < bi).map
                  fun p => p.2] := by
            rw [splitSegs_dropLast_break, hdl, hrem, hfilter_lt_q bi hbin]
          by_cases hbig : width < st.currentWidthTrimmed
          · -- wrap at the valid break before a whitespace grapheme: the
            -- current line must be a single over-wide grapheme and the
            -- valid break must lie after it
            have hsing : ∃ q0, remSegs P st.breaks = [q0] := by
              rcases h6 with h6a | ⟨g0, hg0, hg0w⟩
              · omega
              · cases hL : remSegs P st.breaks with
                | nil => rw [hL] at hg0; simp at hg0
                | cons q0 t =>
                    rw [hL] at hg0
                    simp only [List.map_cons, List.cons.injEq] at hg0
                    obtain ⟨hq02, ht⟩ := hg0
                    have ht' : t = [] := by
                      cases t with
                      | nil => rfl
                      | cons a b => simp at ht
                    exact ⟨q0, by rw [ht']⟩
            obtain ⟨q0, hL⟩ := hsing
            have hq0 : q0.1 < bi := by
              by_contra hq0n
              have hReq : (remSegs P st.breaks).filter
                  (fun p => ¬ p.1 < bi) = [q0] := by
                rw [hL]
                simp only [List.filter_cons, List.filter_nil]
                rw [if_pos (decide_eq_true hq0n)]
              rw [hReq] at htrimR
              rw [hL] at hcwt
              omega
            have hAeq : (remSegs P st.breaks).filter
                (fun p => p.1 < bi) = [q0] := by
              rw [hL]
              simp only [List.filter_cons, List.filter_nil]
              rw [if_pos (decide_eq_true hq0)]
            have hReq : (remSegs P st.breaks).filter
                (fun p => ¬ p.1 < bi) = [] := by
              rw [hL]
              simp only [List.filter_cons, List.filter_nil]
              rw [if_neg]
              simp
              omega
            rw [hAeq] at hvbw
            simp only [List.map_cons, List.map_nil] at hvbw
            rw [hL] at hcw hcwt
            simp only [List.map_cons, List.map_nil] at hcw hcwt
            have hle : trimmedSum [q0.2] ≤ sumWidth [q0.2] :=
              trimmedSum_le_sumWidth _
            have hnbig2 : ¬ width <
                st.currentWidthTrimmed - st.validBreakWidth := by
              omega
            have hres : wrapWidthPhase tw width st n g =
                ⟨st.breaks ++ [bi], none, 0,
                  st.currentWidth + g.width - st.validBreakWidth,
                  st.currentWidthTrimmed - st.validBreakWidth⟩ := by
              simp [wrapWidthPhase, hgt, hws, hvb, hbig, hnbig2]
            rw [hres]
            refine ⟨?_, h2', ?_, ?_, ?_, ?_, ?_⟩
            · intro b hb
              rcases List.mem_append.mp hb with hb | hb
              · exact h1' b hb
              · rcases List.mem_singleton.mp hb with rfl
                omega
            · rw [hremB, hReq, List.nil_append]
              simp only [List.map_cons, List.map_nil]
              simp only [sumWidth, List.map_cons, List.map_nil,
                List.sum_cons, List.sum_nil] at hcw hvbw ⊢
              omega
            · rw [hremB, hReq, List.nil_append]
              simp only [List.map_cons, List.map_nil]
              rw [trimmedSum_singleton_ws _ hws]
              simp only [sumWidth, List.map_cons, List.map_nil,
                List.sum_cons, List.sum_nil] at hvbw hle
              omega
            · rw [hdlB]
              intro seg hseg
              rcases List.mem_append.mp hseg with hseg | hseg
              · exact h5 seg hseg
              · rcases List.mem_singleton.mp hseg with rfl
                exact hgoodA
            · rw [hremB, hReq, List.nil_append]
              refine Or.inl ?_
              simp only [List.map_cons, List.map_nil]
              rw [trimmedSum_singleton_ws _ hws]
              omega
            · intro bi2 hbi2
              simp at hbi2
          · -- whitespace grapheme joins the line; the valid break is kept
            have hres : wrapWidthPhase tw width st n g =
                ⟨st.breaks, st.validBreak, st.validBreakWidth,
                  st.currentWidth + g.width, st.currentWidthTrimmed⟩ := by
              simp [wrapWidthPhase, hgt, hws, hvb, hbig]
            rw [hres]
            refine ⟨h1', h2', ?_, ?_, ?_, ?_, ?_⟩
            · rw [hrem, hmap, sumWidth_append, ← hcw]
            · rw [hrem, hmap, trimmedSum_append_ws _ _ hws, ← hcwt]
            · rw [hdl]
              exact h5
            · refine Or.inl ?_
              rw [hrem, hmap, trimmedSum_append_ws _ _ hws, ← hcwt]
              omega
            · intro bi2 hbi2
              rw [hvb] at hbi2
              simp only [Option.some.injEq] at hbi2
              subst hbi2
              refine ⟨Nat.le_trans hbin (Nat.le_add_right n g.bytes),
                hbrkbi, ?_, ?_, ?_⟩
              · rw [hrem, hfilter_lt_q bi hbin]
                exact hvbw
              · rw [hrem, hfilter_lt_q bi hbin]
                exact hgoodA
              · rw [hrem, hfilter_ge_q bi hbin, List.map_append]
                simp only [List.map_cons, List.map_nil]
                rw [trimmedSum_append_ws _ _ hws]
                exact htrimR

theorem wrapStep_inv (tw width : Nat)
    (brkAt : Nat → Option BreakOpportunity) (st : WrapState)
    (P : List (Nat × WrapGrapheme)) (n : Nat) (g : WrapGrapheme)
    (hI : WrapInv width st P n)
    (hP : ∀ p ∈ P, 1 ≤ (p.2).width)
    (hgt : g.isTab = false) (hgb : 1 ≤ g.bytes) :
    WrapInv width (wrapStep tw width brkAt st n g) (P ++ [(n, g)])
      (n + g.bytes) := by
  rw [wrapStep_decompose]
  exact wrapWidthPhase_inv tw width _ P n g
    (wrapBreakPhase_inv width brkAt st P n hI) hP hgt hgb

theorem wrapGo_inv (tw width : Nat)
    (brkAt : Nat → Option BreakOpportunity) (gs : List WrapGrapheme) :
    ∀ (n : Nat) (st : WrapState) (P : List (Nat × WrapGrapheme)),
    WrapInv width st P n →
    (∀ p ∈ P, 1 ≤ (p.2).width) →
    (∀ g ∈ gs, g.isTab = false ∧ 1 ≤ g.width ∧ 1 ≤ g.bytes) →
    ∃ m, WrapInv width (wrapGo tw width brkAt st (pairsFrom n gs))
      (P ++ pairsFrom n gs) m := by
  induction gs with
  | nil =>
      intro n st P hI hP hg
      exact ⟨n, by simpa [pairsFrom, wrapGo] using hI⟩
  | cons g gs ih =>
      intro n st P hI hP hg
      have hgp := hg g (List.mem_cons_self _ _)
      have hstep := wrapStep_inv tw width brkAt st P n g hI hP
        hgp.1 hgp.2.2
      have hP' : ∀ p ∈ P ++ [(n, g)], 1 ≤ (p.2).width := by
        intro p hp
        rcases List.mem_append.mp hp with hp | hp
        · exact hP p hp
        · rcases List.mem_singleton.mp hp with rfl
          exact hgp.2.1
      have hrec := ih (n + g.bytes) _ _ hstep hP'
        (fun x hx => hg x (List.mem_cons_of_mem _ hx))
      simpa [pairsFrom, wrapGo, List.append_assoc] using hrec

theorem wrapInv_init (width : Nat) : WrapInv width WrapState.init [] 0 := by
  unfold WrapInv WrapState.init
  refine ⟨fun b hb => absurd hb (List.not_mem_nil b),
    fun p hp => absurd hp (List.not_mem_nil p), rfl, rfl, ?_,
    goodLine_nil width, ?_⟩
  · intro seg hseg
    simp [splitSegs] at hseg
  · intro bi h
    simp at h

theorem lineWidthFrom_no_tab (tw : Nat) (l : List WrapGrapheme) :
    ∀ col, (∀ x ∈ l, x.isTab = false) →
    lineWidthFrom tw col l = col + sumWidth l := by
  induction l with
  | nil =>
      intro col h
      simp [lineWidthFrom, sumWidth]
  | cons x t ih =>
      intro col h
      have hx : x.isTab = false := h x (List.mem_cons_self _ _)
      simp only [lineWidthFrom, hx, Bool.false_eq_true, if_false]
      rw [ih _ (fun y hy => h y (List.mem_cons_of_mem _ hy))]
      simp [sumWidth, List.sum_cons]
      omega

theorem trimmedWidth_eq_trimmedSum (tw : Nat) (line : List WrapGrapheme)
    (h : ∀ x ∈ line, x.isTab = false) :
    trimmedWidth tw line = trimmedSum line := by
  unfold trimmedWidth displayWidth trimmedSum
  rw [lineWidthFrom_no_tab tw (trimLine line) 0
    (fun x hx => h x ((trimLine_sublist line).subset hx))]
  simp

/-- C3 amended: for tab-free text whose graphemes all have positive width
and at least one byte, every line produced by splitting at the offsets of
`wrap` either has trimmed display width at most `width` or is a single
grapheme wider than `width`. -/
theorem C3_wrap_width_bound (tw width : Nat)
    (brkAt : Nat → Option BreakOpportunity) (text : List WrapGrapheme)
    (hg : ∀ g ∈ text, g.isTab = false ∧ 1 ≤ g.width ∧ 1 ≤ g.bytes) :
    ∀ line ∈ linesAt text (wrap tw width brkAt text),
      trimmedWidth tw line ≤ width ∨ ∃ g, line = [g] ∧ width < g.width := by
  obtain ⟨m, hI⟩ := wrapGo_inv tw width brkAt text 0 WrapState.init []
    (wrapInv_init width) (fun p hp => absurd hp (List.not_mem_nil p)) hg
  unfold WrapInv at hI
  rw [List.nil_append] at hI
  obtain ⟨-, -, -, -, h5, h6, -⟩ := hI
  intro line hline
  unfold linesAt wrap at hline
  rw [withIndices_eq_pairsFrom] at hline
  have hline0 := hline
  rw [splitSegs_eq_dropLast_append] at hline
  have hgood : goodLine width line := by
    rcases List.mem_append.mp hline with h | h
    · exact h5 line h
    · rcases List.mem_singleton.mp h with rfl
      exact h6
  have hmem : ∀ x ∈ line, x ∈ text := by
    intro x hx
    obtain ⟨p, hp, rfl⟩ :=
      splitSegs_mem_graphemes _ _ line hline0 x hx
    exact pairsFrom_snd_mem 0 text p hp
  rcases hgood with h | h
  · refine Or.inl ?_
    rw [trimmedWidth_eq_trimmedSum tw line
      (fun x hx => (hg x (hmem x hx)).1)]
    exact h
  · exact Or.inr h

/-- Witness for the wrap width bound: a concrete tab-free two-grapheme text
satisfies the hypotheses, and the bound follows for its wrapped lines. -/
theorem C3_witness :
    (∀ g ∈ c3WitText, g.isTab = false ∧ 1 ≤ g.width ∧ 1 ≤ g.bytes) ∧
    ∀ line ∈ linesAt c3WitText (wrap 8 2 (fun _ => none) c3WitText),
      trimmedWidth 8 line ≤ 2 ∨ ∃ g, line = [g] ∧ 2 < g.width :=
  ⟨by decide, C3_wrap_width_bound 8 2 (fun _ => none) c3WitText (by decide)⟩
